import Mathlib

/-!
SafeDispatch: interleaving of vtable clouds and translation of vtable indices.

A shallow embedding of the analysis part of `SDModule`
(`lib/Transforms/IPO/SafeDispatch.cpp`): the preorder traversal of a cloud,
`fillVtablePart`, `interleaveCloud`, `calculateNewLayoutInds`,
`calculateChildrenCounts`, `oldIndexToNew2` and `oldIndexToNew`.

Modelling conventions.

* `std::map<K,V>` is a partial function `K → Option V`; `find` is application,
  `m[k] = v` is `mapSet m k v`.  `std::set` is the list of its elements in
  iteration order.
* `uint64_t` values are natural numbers (below `2^64`) and `int64_t` values
  are integers (from `-2^63` up to `2^63 - 1`).  The conversions between the
  two and the arithmetic of `fillVtablePart` on its `int64_t` positions are
  written out with their wrap-around: `toInt64`, `toUInt64`, `wrapInt64`.  An
  `int64_t` addition that overflows, which the language leaves undefined, wraps
  around as on the two's-complement machines the pass is compiled for.
* A failing `assert`, a `std::vector` read at or past its size, and the
  exhaustion of a budget of the model are the three errors of `sd_error`;
  everything that can fail returns `Except sd_error _`.
* The recursive traversals take an explicit recursion budget (`fuel`), because
  the child relation of an arbitrary cloud map may be cyclic.  The round loop of
  `fillVtablePart` has a budget of rounds that it exhausts only when it does
  not end at all.
* `createNewVTable` and the removal of the old tables rewrite the LLVM module
  and leave the analysis maps alone; they are not modelled.
-/

namespace SafeDispatch

/-! ## Data model -/

abbrev vtbl_name_t := String
abbrev vtbl_t := vtbl_name_t × Nat
abbrev cloud_map_children_t := List vtbl_t
abbrev cloud_map_t := vtbl_t → Option cloud_map_children_t
abbrev roots_t := List vtbl_name_t
abbrev addrpt_map_t := vtbl_name_t → Option (List Nat)
abbrev range_t := Nat × Nat
abbrev range_map_t := vtbl_name_t → Option (List range_t)
abbrev ancestor_map_t := vtbl_t → Option vtbl_name_t
abbrev new_layout_inds_t := vtbl_t → Option (List Nat)
abbrev interleaving_t := vtbl_t × Nat
abbrev interleaving_list_t := List interleaving_t
abbrev interleaving_map_t := vtbl_name_t → Option interleaving_list_t
abbrev cloud_size_map_t := vtbl_name_t → Option Nat
abbrev order_t := List vtbl_t

/-- The ways in which a run of the pass can stop without a result. -/
inductive sd_error where
  | assertion
  | outOfBounds
  | outOfFuel
  deriving DecidableEq

deriving instance DecidableEq for Except

/-- The assignment `m[k] = v` of a `std::map`. -/
def mapSet {κ ν : Type} [DecidableEq κ] (m : κ → Option ν) (k : κ) (v : ν) : κ → Option ν :=
  fun k' => if k' = k then some v else m k'

/-- The analysis state of `SDModule` (its member maps). `oldVTables` only
records which classes have a compiled table. -/
structure SDModule where
  cloudMap : cloud_map_t
  roots : roots_t
  addrPtMap : addrpt_map_t
  rangeMap : range_map_t
  ancestorMap : ancestor_map_t
  newLayoutInds : new_layout_inds_t
  interleavingMap : interleaving_map_t
  oldVTables : vtbl_name_t → Option Unit
  cloudSizeMap : cloud_size_map_t

/-- A read `v[i]` of a `std::vector`. -/
def vecAt {α : Type} (v : List α) (i : Nat) : Except sd_error α :=
  match v.get? i with
  | some a => .ok a
  | none => .error .outOfBounds

/-- The read `addrPtMap[n.first][n.second]`; `operator[]` of the map gives an
empty vector for a class without entry. -/
def addrPtAt (m : addrpt_map_t) (n : vtbl_t) : Except sd_error Nat :=
  vecAt ((m n.1).getD []) n.2

/-- The read `rangeMap[n.first][n.second]`. -/
def rangeAt (m : range_map_t) (n : vtbl_t) : Except sd_error range_t :=
  vecAt ((m n.1).getD []) n.2

/-! ## Preorder traversal -/

/-- `SDModule::preorderHelper`: push the node, then visit its children in the
iteration order of the child set. -/
def preorderHelper (cloudMap : cloud_map_t) : Nat → order_t → vtbl_t → Except sd_error order_t
  | 0, _, _ => .error .outOfFuel
  | fuel + 1, nodes, root =>
    match cloudMap root with
    | none => .ok (nodes ++ [root])
    | some children =>
      children.foldlM (fun acc n => preorderHelper cloudMap fuel acc n) (nodes ++ [root])

/-- `SDModule::preorder`. -/
def preorder (cloudMap : cloud_map_t) (fuel : Nat) (root : vtbl_t) : Except sd_error order_t :=
  preorderHelper cloudMap fuel [] root

/-! ## fillVtablePart -/

/-- The conversion of a `uint64_t` value to `int64_t`: the values from `2^63`
on are read as the negative numbers `value - 2^64`. -/
def toInt64 (n : Nat) : Int :=
  if n % 2 ^ 64 < 2 ^ 63 then Int.ofNat (n % 2 ^ 64)
  else Int.ofNat (n % 2 ^ 64) - Int.ofNat (2 ^ 64)

/-- The conversion of an `int64_t` value to `uint64_t`: the value modulo `2^64`. -/
def toUInt64 (z : Int) : Nat := (z % Int.ofNat (2 ^ 64)).toNat

/-- The result of an `int64_t` operation whose exact value is `z`: the value
that the 64 bits of the result hold, `z` itself when
`-2^63 ≤ z < 2^63`. -/
def wrapInt64 (z : Int) : Int := toInt64 (toUInt64 z)

/-- The assignment `posMap[n] = v` on a `std::map<vtbl_t, int64_t>`. -/
def setPos (m : vtbl_t → Int) (n : vtbl_t) (v : Int) : vtbl_t → Int :=
  fun k => if k = n then v else m k

def sd_isLE (lhs rhs : Int) : Bool := decide (lhs ≤ rhs)
def sd_isGE (lhs rhs : Int) : Bool := decide (lhs ≥ rhs)

/-- The first loop of `fillVtablePart`: the start position and the last
possible position of every member. `addrPt` is a `uint64_t`, so `addrPt - 1`
is computed modulo `2^64`; both maps hold `int64_t` values, so what is stored
is the conversion of the `uint64_t` value. -/
def fillInit (st : SDModule) (positiveOff : Bool) :
    order_t → (vtbl_t → Int) × (vtbl_t → Int) → Except sd_error ((vtbl_t → Int) × (vtbl_t → Int))
  | [], maps => .ok maps
  | n :: rest, (posMap, lastPosMap) => do
    let addrPt ← addrPtAt st.addrPtMap n
    let range ← rangeAt st.rangeMap n
    fillInit st positiveOff rest
      (setPos posMap n (toInt64 (if positiveOff then addrPt else (addrPt + 2 ^ 64 - 1) % 2 ^ 64)),
       setPos lastPosMap n (toInt64 (if positiveOff then range.2 else range.1)))

/-- One pass of the inner `for` loop of `fillVtablePart` over the traversal:
every member that still has an element contributes it to `current`. The
position `pos` is an `int64_t`; it is stored in the `uint64_t` component of the
new element, and `posMap[n] += increment` is `int64_t` arithmetic, which wraps
around past the largest and the smallest value. -/
def fillRound (check : Int → Int → Bool) (increment : Int) (lastPosMap : vtbl_t → Int) :
    order_t → (vtbl_t → Int) → interleaving_list_t → (vtbl_t → Int) × interleaving_list_t
  | [], posMap, current => (posMap, current)
  | n :: rest, posMap, current =>
    if check (posMap n) (lastPosMap n) then
      fillRound check increment lastPosMap rest
        (setPos posMap n (wrapInt64 (posMap n + increment)))
        (current ++ [(n, toUInt64 (posMap n))])
    else
      fillRound check increment lastPosMap rest posMap current

/-- The `while(true)` loop of `fillVtablePart`, with a budget of rounds. -/
def fillLoop (positiveOff : Bool) (order : order_t) (lastPosMap : vtbl_t → Int) :
    Nat → (vtbl_t → Int) → interleaving_list_t → Except sd_error interleaving_list_t
  | 0, _, _ => .error .outOfFuel
  | fuel + 1, posMap, vtblPart =>
    let r := fillRound (if positiveOff then sd_isLE else sd_isGE) (if positiveOff then 1 else -1)
      lastPosMap order posMap []
    if r.2.length = 0 then .ok vtblPart
    else fillLoop positiveOff order lastPosMap fuel r.1
      (if positiveOff then vtblPart ++ r.2 else r.2 ++ vtblPart)

/-- The number of elements a member can still contribute when its position
does not wrap around. -/
def remaining (positiveOff : Bool) (posMap lastPosMap : vtbl_t → Int) (n : vtbl_t) : Nat :=
  if positiveOff then (lastPosMap n + 1 - posMap n).toNat else (posMap n + 1 - lastPosMap n).toNat

/-- A number of rounds within which the loop of `fillVtablePart` ends, if it
ends at all: every round but the last one consumes an element. -/
def fillFuel (positiveOff : Bool) (order : order_t) (posMap lastPosMap : vtbl_t → Int) : Nat :=
  (order.map (remaining positiveOff posMap lastPosMap)).sum + 1

/-- `SDModule::fillVtablePart`. The loop runs with the budget `fillFuel`; it
exhausts this budget only when it does not end with any budget
(`fillVtablePart_outOfFuel_iff`), so the result `.error .outOfFuel` stands for a
loop that never ends. -/
def fillVtablePart (st : SDModule) (vtblPart : interleaving_list_t) (order : order_t)
    (positiveOff : Bool) : Except sd_error interleaving_list_t := do
  let maps ← fillInit st positiveOff order (fun _ => 0, fun _ => 0)
  fillLoop positiveOff order maps.2 (fillFuel positiveOff order maps.1 maps.2) maps.1 vtblPart

/-! ## interleaveCloud, calculateNewLayoutInds, calculateChildrenCounts -/

/-- `SDModule::interleaveCloud`. -/
def interleaveCloud (st : SDModule) (fuel : Nat) (vtbl : vtbl_name_t) : Except sd_error SDModule :=
  if vtbl ∈ st.roots then do
    let pre ← preorder st.cloudMap fuel (vtbl, 0)
    let negativePart ← fillVtablePart st [] pre false
    let positivePart ← fillVtablePart st [] pre true
    pure { st with interleavingMap := mapSet st.interleavingMap vtbl (negativePart ++ positivePart) }
  else .error .assertion

/-- The loop of `calculateNewLayoutInds` over the merged sequence. -/
def layoutIndsLoop (vtbl : vtbl_name_t) :
    interleaving_list_t → Nat → ancestor_map_t × new_layout_inds_t → ancestor_map_t × new_layout_inds_t
  | [], _, maps => maps
  | ivtbl :: rest, currentIndex, (ancestorMap, newLayoutInds) =>
    layoutIndsLoop vtbl rest (currentIndex + 1)
      (match ancestorMap ivtbl.1 with
        | none => mapSet ancestorMap ivtbl.1 vtbl
        | some _ => ancestorMap,
       mapSet newLayoutInds ivtbl.1 (((newLayoutInds ivtbl.1).getD []) ++ [currentIndex]))

/-- `SDModule::calculateNewLayoutInds`. -/
def calculateNewLayoutInds (st : SDModule) (vtbl : vtbl_name_t) : Except sd_error SDModule :=
  match st.interleavingMap vtbl with
  | none => .error .assertion
  | some merged =>
    let maps := layoutIndsLoop vtbl merged 0 (st.ancestorMap, st.newLayoutInds)
    .ok { st with ancestorMap := maps.1, newLayoutInds := maps.2 }

/-- `SDModule::calculateChildrenCounts`, with the size map passed along. -/
def calculateChildrenCounts (cloudMap : cloud_map_t) :
    Nat → cloud_size_map_t → vtbl_t → Except sd_error (Nat × cloud_size_map_t)
  | 0, _, _ => .error .outOfFuel
  | fuel + 1, cloudSizeMap, root => do
    let r ← match cloudMap root with
      | none => pure (1, cloudSizeMap)
      | some children =>
        children.foldlM (fun (acc : Nat × cloud_size_map_t) n => do
          let c ← calculateChildrenCounts cloudMap fuel acc.2 n
          pure (acc.1 + c.1, c.2)) (1, cloudSizeMap)
    if root.2 = 0 then
      match r.2 root.1 with
      | some _ => .error .assertion
      | none => pure (r.1, mapSet r.2 root.1 r.1)
    else pure r

/-- The body of the loop of `interleaveClouds` for one root. -/
def interleaveRoot (st : SDModule) (fuel : Nat) (vtbl : vtbl_name_t) : Except sd_error SDModule := do
  let st1 ← interleaveCloud st fuel vtbl
  let st2 ← calculateNewLayoutInds st1 vtbl
  let r ← calculateChildrenCounts st2.cloudMap fuel st2.cloudSizeMap (vtbl, 0)
  pure { st2 with cloudSizeMap := r.2 }

/-- `SDModule::interleaveClouds`: every root in turn. -/
def interleaveClouds (st : SDModule) (fuel : Nat) : Except sd_error SDModule :=
  st.roots.foldlM (fun s vtbl => interleaveRoot s fuel vtbl) st

/-! ## Translation of indices -/

/-- `SDModule::oldIndexToNew2`. -/
def oldIndexToNew2 (st : SDModule) (name : vtbl_t) (offset : Int) (isRelative : Bool) :
    Except sd_error Int :=
  match st.newLayoutInds name with
  | none => .error .assertion
  | some newInds =>
    match st.rangeMap name.1 with
    | none => .error .assertion
    | some ranges =>
      if ranges.length = 0 then .error .assertion
      else if isRelative then do
        let oldAddrPt ← addrPtAt st.addrPtMap name
        if offset ≥ 0 ∨ (oldAddrPt : Int) ≥ -offset then
          let fullIndex : Int := (oldAddrPt : Int) + offset
          if 0 ≤ fullIndex then do
            let range ← rangeAt st.rangeMap name
            if fullIndex.toNat ≤ range.2 then do
              let a ← vecAt newInds fullIndex.toNat
              let b ← vecAt newInds oldAddrPt
              pure ((a : Int) - (b : Int))
            else .error .assertion
          else .error .assertion
        else .error .assertion
      else
        if 0 ≤ offset then do
          let range ← rangeAt st.rangeMap name
          if offset.toNat ≤ range.2 then do
            let a ← vecAt newInds offset.toNat
            pure (a : Int)
          else .error .assertion
        else .error .assertion

/-- `SDModule::oldIndexToNew`. -/
def oldIndexToNew (st : SDModule) (vtbl : vtbl_name_t) (offset : Int) (isRelative : Bool) :
    Except sd_error Int :=
  match st.newLayoutInds (vtbl, 0) with
  | some _ => oldIndexToNew2 st (vtbl, 0) offset isRelative
  | none =>
    if isRelative = true ∧ offset ≥ 0 then
      match st.cloudMap (vtbl, 0) with
      | none => .ok offset
      | some children =>
        match children with
        | [] => .error .assertion
        | child :: _ => oldIndexToNew2 st child offset isRelative
    else .error .assertion

/-! ## Vocabulary of the statements -/

/-- The address point recorded for a subvtable (0 when none is recorded). -/
def addressPoint (st : SDModule) (v : vtbl_t) : Nat :=
  ((st.addrPtMap v.1).getD []).getD v.2 0

/-- The first index of the range recorded for a subvtable. -/
def rangeStart (st : SDModule) (v : vtbl_t) : Nat :=
  (((st.rangeMap v.1).getD []).getD v.2 (0, 0)).1

/-- The last index (inclusive) of the range recorded for a subvtable. -/
def rangeEnd (st : SDModule) (v : vtbl_t) : Nat :=
  (((st.rangeMap v.1).getD []).getD v.2 (0, 0)).2

/-- The subvtable has an entry in the address-point table and in the range table. -/
def hasLayoutData (st : SDModule) (v : vtbl_t) : Prop :=
  v.2 < ((st.addrPtMap v.1).getD []).length ∧ v.2 < ((st.rangeMap v.1).getD []).length

/-- The invariant of the data model: the subvtable has its table entries and
`start ≤ addressPoint ≤ end`. -/
def inRange (st : SDModule) (v : vtbl_t) : Prop :=
  hasLayoutData st v ∧ rangeStart st v ≤ addressPoint st v ∧ addressPoint st v ≤ rangeEnd st v

instance (st : SDModule) (v : vtbl_t) : Decidable (hasLayoutData st v) := by
  unfold hasLayoutData; exact inferInstance

instance (st : SDModule) (v : vtbl_t) : Decidable (inRange st v) := by
  unfold inRange; exact inferInstance

/-- The address point and the range bounds of the subvtable are `int64_t`
values that `fillVtablePart` can step past: `addressPoint < 2^63`,
`start < 2^63` and `end < 2^63 - 1`. -/
def fitsInt64 (st : SDModule) (v : vtbl_t) : Prop :=
  addressPoint st v < 2 ^ 63 ∧ rangeStart st v < 2 ^ 63 ∧ rangeEnd st v + 1 < 2 ^ 63

instance (st : SDModule) (v : vtbl_t) : Decidable (fitsInt64 st v) := by
  unfold fitsInt64; exact inferInstance

/-- The integer is an `int64_t` value. -/
def isInt64 (z : Int) : Prop := -2 ^ 63 ≤ z ∧ z < 2 ^ 63

/-- The `int64_t` position of `fillVtablePart` can step past the last position
`z` without wrapping around: `z < 2^63 - 1` in the positive direction,
`-2^63 < z` in the negative one. -/
def stepsPast (positiveOff : Bool) (z : Int) : Prop :=
  if positiveOff then z < 2 ^ 63 - 1 else -2 ^ 63 < z

instance (z : Int) : Decidable (isInt64 z) := by
  unfold isInt64; exact inferInstance

instance (positiveOff : Bool) (z : Int) : Decidable (stepsPast positiveOff z) := by
  unfold stepsPast; exact inferInstance

/-- The number of elements of a subvtable on one side of its address point:
the indices `addressPoint .. end` (positive side) or `start .. addressPoint - 1`. -/
def slotCount (st : SDModule) (positiveOff : Bool) (v : vtbl_t) : Nat :=
  if positiveOff then rangeEnd st v + 1 - addressPoint st v
  else addressPoint st v - rangeStart st v

/-- The original index consumed from a subvtable in round `j` (counted from 0). -/
def slotIndex (st : SDModule) (positiveOff : Bool) (v : vtbl_t) (j : Nat) : Nat :=
  if positiveOff then addressPoint st v + j else addressPoint st v - 1 - j

/-- The batch of round `j`: one element of every member that still has one,
in traversal order. -/
def batch (st : SDModule) (positiveOff : Bool) (order : order_t) (j : Nat) : interleaving_list_t :=
  order.filterMap (fun n => if j < slotCount st positiveOff n
    then some (n, slotIndex st positiveOff n j) else none)

/-- The batches of rounds `j, j+1, .., j+d-1`, one after the other. -/
def batchesFwd (st : SDModule) (order : order_t) : Nat → Nat → interleaving_list_t
  | _, 0 => []
  | j, d + 1 => batch st true order j ++ batchesFwd st order (j + 1) d

/-- The batches of rounds `j, .., j+d-1` of the metadata side, the farthest
round first. -/
def batchesBwd (st : SDModule) (order : order_t) : Nat → Nat → interleaving_list_t
  | _, 0 => []
  | j, d + 1 => batchesBwd st order (j + 1) d ++ batch st false order j

/-- The number of rounds that produce an element. -/
def roundCount (st : SDModule) (positiveOff : Bool) (order : order_t) : Nat :=
  (order.map (slotCount st positiveOff)).foldr max 0

/-- The merged positions at which the elements of subvtable `v` sit, in
increasing order, for a sequence whose first element has position `c`. -/
def positionsOf (v : vtbl_t) : interleaving_list_t → Nat → List Nat
  | [], _ => []
  | x :: rest, c => if x.1 = v then c :: positionsOf v rest (c + 1) else positionsOf v rest (c + 1)

/-- The original indices of the elements of subvtable `v` in a sequence, in
the order of the sequence. -/
def slotsOf (v : vtbl_t) (l : interleaving_list_t) : List Nat :=
  (l.filter (fun x => decide (x.1 = v))).map Prod.snd

/-- The merged sequence of a cloud with traversal `order`, round by round:
the metadata batches, farthest round first, then the batches of the
function-pointer side. -/
def mergedRef (st : SDModule) (order : order_t) : interleaving_list_t :=
  batchesBwd st order 0 (roundCount st false order) ++
    batchesFwd st order 0 (roundCount st true order)

/-- The number of metadata elements of a cloud: the sum over the members of
`addressPoint - start`. -/
def metadataCount (st : SDModule) (order : order_t) : Nat :=
  (order.map (fun v => addressPoint st v - rangeStart st v)).sum

/-- The visit of the children of a node by `preorderHelper`, one after the other. -/
def preorderChildren (cloudMap : cloud_map_t) (fuel : Nat) (nodes : order_t)
    (children : cloud_map_children_t) : Except sd_error order_t :=
  children.foldlM (fun acc n => preorderHelper cloudMap fuel acc n) nodes

/-- The loop of `calculateChildrenCounts` over the children of a node. -/
def countChildren (cloudMap : cloud_map_t) (fuel : Nat) (acc : Nat × cloud_size_map_t)
    (children : cloud_map_children_t) : Except sd_error (Nat × cloud_size_map_t) :=
  children.foldlM (fun (acc : Nat × cloud_size_map_t) n => do
    let c ← calculateChildrenCounts cloudMap fuel acc.2 n
    pure (acc.1 + c.1, c.2)) acc

/-! ## Concrete units -/

/-- The state right after `buildClouds`: the forest and the tables are there,
no root has been interleaved yet. -/
def builtState (cloudMap : cloud_map_t) (roots : roots_t) (addrPtMap : addrpt_map_t)
    (rangeMap : range_map_t) : SDModule where
  cloudMap := cloudMap
  roots := roots
  addrPtMap := addrPtMap
  rangeMap := rangeMap
  ancestorMap := fun _ => none
  newLayoutInds := fun _ => none
  interleavingMap := fun _ => none
  oldVTables := fun _ => none
  cloudSizeMap := fun _ => none

/-- Scenario A of the specification: root `R` and its child `C`, each with one
subvtable of range `[0,1]` and address point 1. -/
def scenarioA : SDModule :=
  builtState (fun k => if k = ("R", 0) then some [("C", 0)] else none) ["R"]
    (fun k => if k = "R" then some [1] else if k = "C" then some [1] else none)
    (fun k => if k = "R" then some [(0, 1)] else if k = "C" then some [(0, 1)] else none)

/-- A unit with the single root `R` whose record gives range `[0,0]` and
address point 2: the address point lies outside the range. -/
def outOfRangeUnit : SDModule :=
  builtState (fun k => if k = ("R", 0) then some [] else none) ["R"]
    (fun k => if k = "R" then some [2] else none)
    (fun k => if k = "R" then some [(0, 0)] else none)

/-- A unit in which `D` is recorded as a child of both `A` and `B`, and `B` is a
child of the root `A`: the cloud of `A` is not a tree. Every subvtable has
range `[0,0]` and address point 0. -/
def diamondUnit : SDModule :=
  builtState
    (fun k => if k = ("A", 0) then some [("B", 0), ("D", 0)]
      else if k = ("B", 0) then some [("D", 0)] else none) ["A"]
    (fun k => if k = "A" ∨ k = "B" ∨ k = "D" then some [0] else none)
    (fun k => if k = "A" ∨ k = "B" ∨ k = "D" then some [(0, 0)] else none)

/-- A unit with multiple inheritance: `D` derives from the roots `A` and `B`.
Its primary subvtable `(D,0)` (range `[0,0]`, address point 0) is a child of
`A`, its secondary subvtable `(D,1)` (range `[1,3]`, address point 2) a child
of `B`. `A` has range `[0,0]` and address point 0, `B` range `[0,1]` and
address point 1. -/
def multipleInheritanceUnit : SDModule :=
  builtState
    (fun k => if k = ("A", 0) then some [("D", 0)]
      else if k = ("B", 0) then some [("D", 1)] else none) ["A", "B"]
    (fun k => if k = "A" then some [0] else if k = "B" then some [1]
      else if k = "D" then some [0, 2] else none)
    (fun k => if k = "A" then some [(0, 0)] else if k = "B" then some [(0, 1)]
      else if k = "D" then some [(0, 0), (1, 3)] else none)

/-- A unit with the single root `R` whose only subvtable has range `[0,0]` and
address point 1: one metadata element and no function pointer. -/
def metadataOnlyUnit : SDModule :=
  builtState (fun k => if k = ("R", 0) then some [] else none) ["R"]
    (fun k => if k = "R" then some [1] else none)
    (fun k => if k = "R" then some [(0, 0)] else none)

/-- A unit in which the secondary subvtable `(C,1)` (range `[0,0]`, address
point 1) is recorded as a child of both roots `A` and `B`. -/
def sharedSecondaryUnit : SDModule :=
  builtState
    (fun k => if k = ("A", 0) then some [("C", 1)]
      else if k = ("B", 0) then some [("C", 1)] else none) ["A", "B"]
    (fun k => if k = "A" ∨ k = "B" then some [0] else if k = "C" then some [0, 1] else none)
    (fun k => if k = "A" ∨ k = "B" then some [(0, 0)]
      else if k = "C" then some [(0, 0), (0, 0)] else none)

/-- A unit with the single root `R` of range `[0, 2^63]` and address point 0:
the end of the range is not an `int64_t` value. -/
def wideRangeUnit : SDModule :=
  builtState (fun k => if k = ("R", 0) then some [] else none) ["R"]
    (fun k => if k = "R" then some [0] else none)
    (fun k => if k = "R" then some [(0, 2 ^ 63)] else none)

/-- A unit with the single root `R` whose record gives the range start
`2^64 - 1`, the range end 0 and the address point 0. -/
def wrappedStartUnit : SDModule :=
  builtState (fun k => if k = ("R", 0) then some [] else none) ["R"]
    (fun k => if k = "R" then some [0] else none)
    (fun k => if k = "R" then some [(2 ^ 64 - 1, 0)] else none)

/-- A unit with the single root `R` whose range is the one index `2^63 - 1`,
the largest `int64_t` value, which is also its address point. -/
def lastIndexUnit : SDModule :=
  builtState (fun k => if k = ("R", 0) then some [] else none) ["R"]
    (fun k => if k = "R" then some [2 ^ 63 - 1] else none)
    (fun k => if k = "R" then some [(2 ^ 63 - 1, 2 ^ 63 - 1)] else none)

/-- A unit in which the secondary subvtable `(C,1)` (range `[1,2]`, address
point 1) is recorded as a child of both roots `A` and `B`. -/
def sharedOffsetUnit : SDModule :=
  builtState
    (fun k => if k = ("A", 0) then some [("C", 1)]
      else if k = ("B", 0) then some [("C", 1)] else none) ["A", "B"]
    (fun k => if k = "A" ∨ k = "B" then some [0] else if k = "C" then some [0, 1] else none)
    (fun k => if k = "A" ∨ k = "B" then some [(0, 0)]
      else if k = "C" then some [(0, 0), (1, 2)] else none)

/-- The state in which `interleaveClouds` leaves a unit (the unit itself when
the pass stops with an error). -/
def interleaved (st : SDModule) (fuel : Nat) : SDModule :=
  match interleaveClouds st fuel with
  | .ok s => s
  | .error _ => st

/-- The position from which a member is consumed after `j` rounds. -/
def stagePos (st : SDModule) (positiveOff : Bool) (j : Nat) (n : vtbl_t) : Int :=
  if positiveOff then (addressPoint st n : Int) + (min j (slotCount st true n) : Nat)
  else (addressPoint st n : Int) - 1 - (min j (slotCount st false n) : Nat)

/-- The last position a member can be consumed at. -/
def lastPos (st : SDModule) (positiveOff : Bool) (n : vtbl_t) : Int :=
  if positiveOff then (rangeEnd st n : Int) else (rangeStart st n : Int)

/-! ## buildClouds -/

/-- The record of one subvtable, as `extractMetadata` delivers it. -/
structure nmd_sub_t where
  order : Nat
  parentName : vtbl_name_t
  start : Nat
  end_ : Nat
  addressPoint : Nat
  deriving DecidableEq

/-- The record of one class, as `extractMetadata` delivers it. -/
structure nmd_t where
  className : vtbl_name_t
  subVTables : List nmd_sub_t
  deriving DecidableEq

/-- The order of `std::string`: lexicographic, character by character. -/
def name_lt (a b : vtbl_name_t) : Prop := a.data < b.data

instance (a b : vtbl_name_t) : Decidable (name_lt a b) := by
  unfold name_lt; exact inferInstance

/-- The order of `std::pair<std::string, uint64_t>`, in which every
`std::set<vtbl_t>` iterates: by class name, then by index. -/
def vtbl_lt (a b : vtbl_t) : Prop :=
  name_lt a.1 b.1 ∨ (a.1 = b.1 ∧ a.2 < b.2)

instance (a b : vtbl_t) : Decidable (vtbl_lt a b) := by
  unfold vtbl_lt; exact inferInstance

/-- The insertion `s.insert(x)` into a `std::set`, whose elements are kept in
ascending order: an element already present is not inserted again. -/
def setInsert {α : Type} [DecidableEq α] (lt : α → α → Prop) [DecidableRel lt] (x : α) :
    List α → List α
  | [] => [x]
  | y :: rest =>
    if x = y then y :: rest
    else if lt x y then x :: y :: rest
    else y :: setInsert lt x rest

/-- The body of the inner loop of `buildClouds` for the subvtable at position
`ind` of the record of `className`. -/
def buildSubVTable (className : vtbl_name_t) (ind : Nat) (subInfo : nmd_sub_t) (st : SDModule) :
    Except sd_error SDModule := do
  let st1 ←
    if subInfo.parentName ≠ "" then
      pure { st with
        cloudMap := mapSet st.cloudMap (subInfo.parentName, 0)
          (setInsert vtbl_lt (className, ind) ((st.cloudMap (subInfo.parentName, 0)).getD [])) }
    else if ind = 0 then
      pure { st with
        cloudMap :=
          match st.cloudMap (className, ind) with
          | none => mapSet st.cloudMap (className, ind) []
          | some _ => st.cloudMap
        roots := setInsert name_lt className st.roots }
    else .error .assertion
  pure { st1 with
    addrPtMap := mapSet st1.addrPtMap className
      (((st1.addrPtMap className).getD []) ++ [subInfo.addressPoint])
    rangeMap := mapSet st1.rangeMap className
      (((st1.rangeMap className).getD []) ++ [(subInfo.start, subInfo.end_)]) }

/-- The inner loop of `buildClouds` over the subvtables of one record, from
position `ind` on. -/
def buildSubVTables (className : vtbl_name_t) :
    Nat → List nmd_sub_t → SDModule → Except sd_error SDModule
  | _, [], st => .ok st
  | ind, subInfo :: rest, st =>
    match buildSubVTable className ind subInfo st with
    | .ok st1 => buildSubVTables className (ind + 1) rest st1
    | .error e => .error e

/-- The body of the outer loop of `buildClouds` for one class record.
`globals` tells whether the module has a global variable of a given name with
a constant-array initializer, the compiled table of the class. -/
def buildRecord (globals : vtbl_name_t → Option Unit) (st : SDModule) (info : nmd_t) :
    Except sd_error SDModule :=
  match globals info.className with
  | none => .error .assertion
  | some vtable =>
    buildSubVTables info.className 0 info.subVTables
      { st with oldVTables := mapSet st.oldVTables info.className vtable }

/-- `SDModule::buildClouds` over the class records of the module, in the order
of the module's metadata list. -/
def buildClouds (globals : vtbl_name_t → Option Unit) (records : List nmd_t) (st : SDModule) :
    Except sd_error SDModule :=
  records.foldlM (buildRecord globals) st

/-- A freshly constructed `SDModule`: every map and set is empty. -/
def initialState : SDModule where
  cloudMap := fun _ => none
  roots := []
  addrPtMap := fun _ => none
  rangeMap := fun _ => none
  ancestorMap := fun _ => none
  newLayoutInds := fun _ => none
  interleavingMap := fun _ => none
  oldVTables := fun _ => none
  cloudSizeMap := fun _ => none

/-- The analysis part of `SDModule::runOnModule`: build the clouds, then
interleave them. -/
def runOnModule (globals : vtbl_name_t → Option Unit) (records : List nmd_t) (fuel : Nat) :
    Except sd_error SDModule := do
  let st ← buildClouds globals records initialState
  interleaveClouds st fuel

/-- The state in which `buildClouds` leaves a fresh `SDModule` (the fresh one
when it stops with an error). -/
def built (globals : vtbl_name_t → Option Unit) (records : List nmd_t) : SDModule :=
  match buildClouds globals records initialState with
  | .ok s => s
  | .error _ => initialState

/-- The state in which `runOnModule` leaves the module (the fresh one when it
stops with an error). -/
def analysed (globals : vtbl_name_t → Option Unit) (records : List nmd_t) (fuel : Nat) :
    SDModule :=
  match runOnModule globals records fuel with
  | .ok s => s
  | .error _ => initialState

/-! ## Vocabulary of the forest -/

/-- The parent name that a record declares for its subvtable at position `i`,
when it has one at that position. -/
def declaredParent (info : nmd_t) (i : Nat) : Option vtbl_name_t :=
  (info.subVTables.get? i).map (fun sub => sub.parentName)

/-- The subvtables that a list of records declares. -/
def declaredNodes (records : List nmd_t) : List vtbl_t :=
  records.flatMap (fun info =>
    (List.range info.subVTables.length).map (fun i => (info.className, i)))

/-- The records have pairwise distinct class names. -/
def distinctNames (records : List nmd_t) : Prop :=
  (records.map (fun info => info.className)).Nodup

instance (records : List nmd_t) : Decidable (distinctNames records) := by
  unfold distinctNames; exact inferInstance

/-- The child relation of a cloud map: `c` is in the child set of `p`. -/
def isChild (cloudMap : cloud_map_t) (p c : vtbl_t) : Prop :=
  c ∈ (cloudMap p).getD []

instance (cloudMap : cloud_map_t) (p c : vtbl_t) : Decidable (isChild cloudMap p c) := by
  unfold isChild; exact inferInstance

/-- Node `x` is reachable from `v` along child edges (`v` itself included). -/
def reachable (cloudMap : cloud_map_t) (v x : vtbl_t) : Prop :=
  Relation.ReflTransGen (isChild cloudMap) v x

/-- The child relation from `v` is a finite tree. `nodes` is a finite set of
nodes that holds `v` and every child of its members, hence every node
reachable from `v`; among its members no node has two parents and `v` has
none; and every child set iterates in ascending order, as a `std::set` does. -/
def isTree (cloudMap : cloud_map_t) (v : vtbl_t) (nodes : List vtbl_t) : Prop :=
  v ∈ nodes ∧
  (∀ p ∈ nodes, ∀ c ∈ (cloudMap p).getD [], c ∈ nodes) ∧
  (∀ p ∈ nodes, ∀ q ∈ nodes, ∀ c ∈ (cloudMap p).getD [], c ∈ (cloudMap q).getD [] → p = q) ∧
  (∀ p ∈ nodes, v ∉ (cloudMap p).getD []) ∧
  (∀ p ∈ nodes, ((cloudMap p).getD []).Pairwise vtbl_lt)

instance (cloudMap : cloud_map_t) (v : vtbl_t) (nodes : List vtbl_t) :
    Decidable (isTree cloudMap v nodes) := by
  unfold isTree; exact inferInstance

/-- A chain of child edges, listed upwards: every member is a child of the
next one, and the last member is `v`. -/
def isPathTo (cloudMap : cloud_map_t) (v : vtbl_t) : List vtbl_t → Prop
  | [] => False
  | [x] => x = v
  | x :: p :: rest => isChild cloudMap p x ∧ isPathTo cloudMap v (p :: rest)

/-- Every compiled table is present. -/
def allPresent : vtbl_name_t → Option Unit := fun _ => some ()

/-- Every compiled table is present but that of class `C`. -/
def missingTableOfC : vtbl_name_t → Option Unit := fun c => if c = "C" then none else some ()

/-- The records of Scenario A of the specification: `R` with one parentless
subvtable, `C` with one subvtable whose parent is `R`; both of range `[0,1]`
and address point 1. -/
def scenarioARecords : List nmd_t :=
  [⟨"R", [⟨0, "", 0, 1, 1⟩]⟩, ⟨"C", [⟨0, "R", 0, 1, 1⟩]⟩]

/-- The records of Scenario C of the specification: the third subvtable of
`M` (position 2) declares no parent. -/
def scenarioCRecords : List nmd_t :=
  [⟨"M", [⟨0, "", 0, 0, 0⟩, ⟨1, "M", 1, 1, 1⟩, ⟨2, "", 2, 2, 2⟩]⟩]

/-- A unit whose root `I` has a record with the empty range `[1,0]` (no element
of its own) and a child `D` of range `[0,1]` and address point 1. -/
def interfaceRecords : List nmd_t :=
  [⟨"I", [⟨0, "", 1, 0, 1⟩]⟩, ⟨"D", [⟨0, "I", 0, 1, 1⟩]⟩]

/-- Records in which the class name `C` occurs twice: one record declares the
root `A` as the parent of `(C,0)`, the other one the root `B`. -/
def duplicateRecords : List nmd_t :=
  [⟨"A", [⟨0, "", 0, 0, 0⟩]⟩, ⟨"B", [⟨0, "", 0, 0, 0⟩]⟩,
    ⟨"C", [⟨0, "A", 0, 0, 0⟩]⟩, ⟨"C", [⟨0, "B", 0, 0, 0⟩]⟩]

/-- A unit whose root `R` has the range `[0, 2^63]` and address point 0, and
two children `D` and `E` of range `[0,2]` and address point 1. -/
def wideRootRecords : List nmd_t :=
  [⟨"R", [⟨0, "", 0, 2 ^ 63, 0⟩]⟩, ⟨"D", [⟨0, "R", 0, 2, 1⟩]⟩, ⟨"E", [⟨0, "R", 0, 2, 1⟩]⟩]

/-- A unit whose only record `C` declares the parent `X`, a class without a
record. -/
def orphanRecords : List nmd_t :=
  [⟨"C", [⟨0, "X", 0, 0, 0⟩]⟩]

/-! ## clearAnalysisResults -/

/-- `SDModule::clearAnalysisResults`: every container is cleared. -/
def clearAnalysisResults (st : SDModule) : SDModule :=
  { st with
    cloudMap := fun _ => none
    roots := []
    addrPtMap := fun _ => none
    rangeMap := fun _ => none
    ancestorMap := fun _ => none
    newLayoutInds := fun _ => none
    interleavingMap := fun _ => none
    oldVTables := fun _ => none
    cloudSizeMap := fun _ => none }

/-! ## Names of compiled tables -/

/-- `llvm::StringRef::startswith`. A string is its sequence of `char`s. -/
def startswith (s pre : String) : Bool := pre.data.isPrefixOf s.data

/-- `llvm::StringRef::drop_front`. -/
def drop_front (s : String) (n : Nat) : String := ⟨s.data.drop n⟩

/-- `sd_isVtableName_ref`. -/
def sd_isVtableName_ref (name : String) : Bool :=
  if name.length ≤ 4 then
    false
  else if startswith name "_ZTV" || startswith name "_ZTC" then
    let rest := drop_front name 4
    (! startswith rest "S") && (! startswith rest "N10__cxxabiv")
  else
    false

/-- `sd_isVtableName`. -/
def sd_isVtableName (className : String) : Bool :=
  sd_isVtableName_ref className

/-! ## The reference definition of the merged sequence -/

/-- The batch `B_r` of the metadata side: one slot `(m, addressPoint(m) - r)`
for every member `m`, in the order of the list, that has
`addressPoint(m) - r ≥ start(m)`. -/
def negativeBatch (st : SDModule) (order : order_t) (r : Nat) : interleaving_list_t :=
  order.filterMap (fun m =>
    if (addressPoint st m : Int) - (r : Int) ≥ (rangeStart st m : Int)
    then some (m, addressPoint st m - r) else none)

/-- The batch `A_r` of the function-pointer side: one slot
`(m, addressPoint(m) + r)` for every member `m`, in the order of the list,
that has `addressPoint(m) + r ≤ end(m)`. -/
def positiveBatch (st : SDModule) (order : order_t) (r : Nat) : interleaving_list_t :=
  order.filterMap (fun m =>
    if addressPoint st m + r ≤ rangeEnd st m then some (m, addressPoint st m + r) else none)

/-- The metadata side `B_R ++ .. ++ B_2 ++ B_1`. -/
def negativeRef (st : SDModule) (order : order_t) (R : Nat) : interleaving_list_t :=
  (List.range' 1 R).reverse.flatMap (negativeBatch st order)

/-- The function-pointer side `A_0 ++ A_1 ++ .. ++ A_(n-1)`. -/
def positiveRef (st : SDModule) (order : order_t) (n : Nat) : interleaving_list_t :=
  (List.range n).flatMap (positiveBatch st order)

/-! ## Reads of the tables -/

theorem vecAt_of_lt {α : Type} (l : List α) (i : Nat) (d : α) (h : i < l.length) :
    vecAt l i = .ok (l.getD i d) := by
  unfold vecAt
  rw [List.get?_eq_getElem?, List.getElem?_eq_getElem h]
  simp [List.getElem?_eq_getElem h]

theorem vecAt_eq_ok_iff {α : Type} (l : List α) (i : Nat) (a : α) :
    vecAt l i = .ok a ↔ l.get? i = some a := by
  unfold vecAt
  cases h : l.get? i <;> simp

theorem addrPtAt_of_hasLayoutData (st : SDModule) (v : vtbl_t) (h : hasLayoutData st v) :
    addrPtAt st.addrPtMap v = .ok (addressPoint st v) :=
  vecAt_of_lt _ _ 0 h.1

theorem rangeAt_of_hasLayoutData (st : SDModule) (v : vtbl_t) (h : hasLayoutData st v) :
    rangeAt st.rangeMap v = .ok (rangeStart st v, rangeEnd st v) := by
  have := vecAt_of_lt ((st.rangeMap v.1).getD []) v.2 (0, 0) h.2
  simpa [rangeAt, rangeStart, rangeEnd] using this

/-! ## The 64-bit conversions -/

theorem toInt64_of_lt (n : Nat) (h : n < 2 ^ 63) : toInt64 n = (n : Int) := by
  unfold toInt64
  have e : n % 2 ^ 64 = n := by omega
  rw [e, if_pos h]
  rfl

theorem toInt64_pred (n : Nat) (h : n < 2 ^ 63) :
    toInt64 ((n + 2 ^ 64 - 1) % 2 ^ 64) = (n : Int) - 1 := by
  unfold toInt64
  simp only [Int.ofNat_eq_coe]
  split <;> omega

theorem isInt64_toInt64 (n : Nat) : isInt64 (toInt64 n) := by
  unfold isInt64 toInt64
  simp only [Int.ofNat_eq_coe]
  split <;> omega

theorem toUInt64_of_nonneg (z : Int) (h0 : 0 ≤ z) (h : z < 2 ^ 63) : toUInt64 z = z.toNat := by
  unfold toUInt64
  simp only [Int.ofNat_eq_coe]
  omega

theorem wrapInt64_of_isInt64 (z : Int) (h : isInt64 z) : wrapInt64 z = z := by
  unfold isInt64 at h
  unfold wrapInt64 toInt64 toUInt64
  simp only [Int.ofNat_eq_coe]
  split <;> omega

theorem isInt64_wrapInt64 (z : Int) : isInt64 (wrapInt64 z) :=
  isInt64_toInt64 _

/-! ## The first loop of fillVtablePart -/

theorem fillInit_frame (st : SDModule) (b : Bool) :
    ∀ (l : order_t) (pm lm : vtbl_t → Int) (maps : (vtbl_t → Int) × (vtbl_t → Int)),
      fillInit st b l (pm, lm) = .ok maps → ∀ k, k ∉ l → maps.1 k = pm k ∧ maps.2 k = lm k := by
  intro l
  induction l with
  | nil => intro pm lm maps h k _; simp [fillInit] at h; subst h; simp
  | cons m l ihl =>
    intro pm lm maps h k hk
    simp only [fillInit, bind, Except.bind] at h
    split at h
    · simp at h
    · split at h
      · simp at h
      · have := ihl _ _ _ h k (fun hk2 => hk (List.mem_cons_of_mem _ hk2))
        have hkm : k ≠ m := fun e => hk (e ▸ List.mem_cons_self _ _)
        simpa [setPos, hkm] using this

/-- The first loop returns when every member has its table entries, and it
stores the `int64_t` conversions of the address point (less one in the
negative direction) and of the range bound. -/
theorem fillInit_values (st : SDModule) (b : Bool) (order : order_t)
    (hd : ∀ n ∈ order, hasLayoutData st n) (pm lm : vtbl_t → Int) :
    ∃ maps, fillInit st b order (pm, lm) = .ok maps ∧
      (∀ n ∈ order,
        maps.1 n = toInt64 (if b then addressPoint st n
          else (addressPoint st n + 2 ^ 64 - 1) % 2 ^ 64) ∧
        maps.2 n = toInt64 (if b then rangeEnd st n else rangeStart st n)) := by
  induction order generalizing pm lm with
  | nil => exact ⟨(pm, lm), rfl, by simp⟩
  | cons n rest ih =>
    have hn := hd n (List.mem_cons_self _ _)
    obtain ⟨maps, hmaps, hval⟩ := ih (fun m hm => hd m (List.mem_cons_of_mem _ hm))
      (setPos pm n (toInt64 (if b then addressPoint st n
        else (addressPoint st n + 2 ^ 64 - 1) % 2 ^ 64)))
      (setPos lm n (toInt64 (if b then rangeEnd st n else rangeStart st n)))
    refine ⟨maps, ?_, ?_⟩
    · simp only [fillInit, bind, Except.bind, addrPtAt_of_hasLayoutData st n hn,
        rangeAt_of_hasLayoutData st n hn]
      exact hmaps
    · intro k hk
      by_cases hkr : k ∈ rest
      · exact hval k hkr
      · have hkn : k = n := by
          rcases List.mem_cons.1 hk with h | h
          · exact h
          · exact absurd h hkr
        have := fillInit_frame st b rest _ _ maps hmaps k hkr
        subst hkn
        simpa [setPos] using this

theorem fillInit_isInt64 (st : SDModule) (b : Bool) :
    ∀ (l : order_t) (pm lm : vtbl_t → Int) (maps : (vtbl_t → Int) × (vtbl_t → Int)),
      fillInit st b l (pm, lm) = .ok maps → (∀ k, isInt64 (pm k)) → ∀ k, isInt64 (maps.1 k) := by
  intro l
  induction l with
  | nil => intro pm lm maps h hp k; simp [fillInit] at h; subst h; exact hp k
  | cons m l ihl =>
    intro pm lm maps h hp
    simp only [fillInit, bind, Except.bind] at h
    split at h
    · simp at h
    · split at h
      · simp at h
      · refine ihl _ _ _ h ?_
        intro k
        unfold setPos
        split
        · exact isInt64_toInt64 _
        · exact hp k

theorem fillInit_spec (st : SDModule) (b : Bool) (order : order_t)
    (hd : ∀ n ∈ order, hasLayoutData st n) (hb : ∀ n ∈ order, fitsInt64 st n)
    (pm lm : vtbl_t → Int) :
    ∃ maps, fillInit st b order (pm, lm) = .ok maps ∧
      (∀ n ∈ order, maps.1 n = stagePos st b 0 n ∧ maps.2 n = lastPos st b n) := by
  obtain ⟨maps, hmaps, hval⟩ := fillInit_values st b order hd pm lm
  refine ⟨maps, hmaps, ?_⟩
  intro n hn
  obtain ⟨h1, h2⟩ := hval n hn
  obtain ⟨b1, b2, b3⟩ := hb n hn
  rw [h1, h2]
  cases b
  · simp only [Bool.false_eq_true, if_false, stagePos, lastPos]
    rw [toInt64_pred _ b1, toInt64_of_lt _ b2]
    simp
  · simp only [if_true, stagePos, lastPos]
    rw [toInt64_of_lt _ b1, toInt64_of_lt _ (by omega)]
    simp

/-! ## One round of fillVtablePart -/

theorem check_stagePos (st : SDModule) (b : Bool) (j : Nat) (n : vtbl_t) :
    (if b then sd_isLE else sd_isGE) (stagePos st b j n) (lastPos st b n) = true ↔
      j < slotCount st b n := by
  cases b <;> simp [sd_isLE, sd_isGE, stagePos, lastPos, slotCount] <;> omega

theorem toNat_stagePos (st : SDModule) (b : Bool) (j : Nat) (n : vtbl_t)
    (h : j < slotCount st b n) : (stagePos st b j n).toNat = slotIndex st b n j := by
  cases b <;> simp [stagePos, slotCount, slotIndex] at h ⊢ <;> omega

theorem stagePos_succ (st : SDModule) (b : Bool) (j : Nat) (n : vtbl_t)
    (h : j < slotCount st b n) :
    stagePos st b j n + (if b then 1 else -1) = stagePos st b (j + 1) n := by
  cases b <;> simp [stagePos, slotCount] at h ⊢ <;> omega

theorem stagePos_stay (st : SDModule) (b : Bool) (j : Nat) (n : vtbl_t)
    (h : ¬ j < slotCount st b n) : stagePos st b (j + 1) n = stagePos st b j n := by
  cases b <;> simp [stagePos, slotCount] at h ⊢ <;> omega

/-- Below the bounds of `fitsInt64` no position leaves the `int64_t` values. -/
theorem stagePos_bounds (st : SDModule) (b : Bool) (j : Nat) (n : vtbl_t)
    (hb : fitsInt64 st n) : -1 ≤ stagePos st b j n ∧ stagePos st b j n < 2 ^ 63 := by
  obtain ⟨b1, b2, b3⟩ := hb
  cases b <;> simp only [stagePos, slotCount, Bool.false_eq_true, if_false, if_true] <;> omega

theorem stagePos_nonneg (st : SDModule) (b : Bool) (j : Nat) (n : vtbl_t)
    (h : j < slotCount st b n) : 0 ≤ stagePos st b j n := by
  cases b <;> simp only [stagePos, slotCount, Bool.false_eq_true, if_false, if_true] at h ⊢ <;>
    omega

theorem wrapInt64_stagePos (st : SDModule) (b : Bool) (j : Nat) (n : vtbl_t)
    (hb : fitsInt64 st n) (h : j < slotCount st b n) :
    wrapInt64 (stagePos st b j n + (if b then 1 else -1)) = stagePos st b (j + 1) n := by
  rw [stagePos_succ st b j n h]
  have := stagePos_bounds st b (j + 1) n hb
  exact wrapInt64_of_isInt64 _ ⟨by omega, this.2⟩

theorem toUInt64_stagePos (st : SDModule) (b : Bool) (j : Nat) (n : vtbl_t)
    (hb : fitsInt64 st n) (h : j < slotCount st b n) :
    toUInt64 (stagePos st b j n) = slotIndex st b n j := by
  rw [toUInt64_of_nonneg _ (stagePos_nonneg st b j n h) (stagePos_bounds st b j n hb).2]
  exact toNat_stagePos st b j n h

theorem batch_cons (st : SDModule) (b : Bool) (n : vtbl_t) (rest : order_t) (j : Nat) :
    batch st b (n :: rest) j =
      (if j < slotCount st b n then [(n, slotIndex st b n j)] else []) ++ batch st b rest j := by
  unfold batch
  by_cases h : j < slotCount st b n <;> simp [List.filterMap_cons, h]

theorem fillRound_spec (st : SDModule) (b : Bool) (j : Nat) (lm : vtbl_t → Int) (l : order_t)
    (hnd : l.Nodup) (hb : ∀ n ∈ l, fitsInt64 st n) (hlm : ∀ n ∈ l, lm n = lastPos st b n)
    (pm : vtbl_t → Int) (cur : interleaving_list_t)
    (hpm : ∀ n ∈ l, pm n = stagePos st b j n) :
    (fillRound (if b then sd_isLE else sd_isGE) (if b then 1 else -1) lm l pm cur).2
        = cur ++ batch st b l j ∧
      (∀ n ∈ l, (fillRound (if b then sd_isLE else sd_isGE) (if b then 1 else -1) lm l pm cur).1 n
        = stagePos st b (j + 1) n) ∧
      (∀ n, n ∉ l → (fillRound (if b then sd_isLE else sd_isGE) (if b then 1 else -1) lm l pm cur).1 n
        = pm n) := by
  induction l generalizing pm cur with
  | nil => simp [fillRound, batch]
  | cons n rest ih =>
    have hn : n ∉ rest := (List.nodup_cons.1 hnd).1
    have hrest := (List.nodup_cons.1 hnd).2
    have hpn := hpm n (List.mem_cons_self _ _)
    have hln := hlm n (List.mem_cons_self _ _)
    have hbn := hb n (List.mem_cons_self _ _)
    have hb2 : ∀ m ∈ rest, fitsInt64 st m := fun m hm => hb m (List.mem_cons_of_mem _ hm)
    have hlm2 : ∀ m ∈ rest, lm m = lastPos st b m := fun m hm => hlm m (List.mem_cons_of_mem _ hm)
    by_cases hc : j < slotCount st b n
    · have hchk : (if b then sd_isLE else sd_isGE) (pm n) (lm n) = true := by
        rw [hpn, hln]; exact (check_stagePos st b j n).2 hc
      have hpm2 : ∀ m ∈ rest,
          setPos pm n (wrapInt64 (pm n + (if b then 1 else -1))) m = stagePos st b j m := by
        intro m hm
        have hmn : m ≠ n := fun e => hn (e ▸ hm)
        simp [setPos, hmn, hpm m (List.mem_cons_of_mem _ hm)]
      obtain ⟨h1, h2, h3⟩ := ih hrest hb2 hlm2 _ (cur ++ [(n, toUInt64 (pm n))]) hpm2
      simp only [fillRound, hchk, if_true]
      refine ⟨?_, ?_, ?_⟩
      · rw [h1, batch_cons, if_pos hc, hpn, toUInt64_stagePos st b j n hbn hc]
        simp
      · intro m hm
        rcases List.mem_cons.1 hm with e | hm
        · subst e
          rw [h3 m hn]
          simp only [setPos, if_true]
          rw [hpn]; exact wrapInt64_stagePos st b j m hbn hc
        · exact h2 m hm
      · intro m hm
        have hmn : m ≠ n := fun e => hm (e ▸ List.mem_cons_self _ _)
        rw [h3 m (fun h => hm (List.mem_cons_of_mem _ h))]
        simp [setPos, hmn]
    · have hchk : ¬ ((if b then sd_isLE else sd_isGE) (pm n) (lm n) = true) := by
        rw [hpn, hln]; exact fun h => hc ((check_stagePos st b j n).1 h)
      have hpm2 : ∀ m ∈ rest, pm m = stagePos st b j m :=
        fun m hm => hpm m (List.mem_cons_of_mem _ hm)
      obtain ⟨h1, h2, h3⟩ := ih hrest hb2 hlm2 pm cur hpm2
      simp only [fillRound, hchk, Bool.false_eq_true, if_false]
      refine ⟨?_, ?_, ?_⟩
      · rw [h1, batch_cons, if_neg hc]; simp
      · intro m hm
        rcases List.mem_cons.1 hm with e | hm
        · subst e
          rw [h3 m hn, hpn, stagePos_stay st b j m hc]
        · exact h2 m hm
      · intro m hm
        exact h3 m (fun h => hm (List.mem_cons_of_mem _ h))

/-! ## The loop of fillVtablePart -/

theorem slotCount_le_roundCount (st : SDModule) (b : Bool) (l : order_t) :
    ∀ n ∈ l, slotCount st b n ≤ roundCount st b l := by
  induction l with
  | nil => simp
  | cons m rest ih =>
    intro n hn
    simp only [roundCount, List.map_cons, List.foldr_cons]
    rcases List.mem_cons.1 hn with e | h
    · subst e; exact le_max_left _ _
    · exact le_trans (ih n h) (le_max_right _ _)

theorem exists_slotCount_eq_roundCount (st : SDModule) (b : Bool) (l : order_t)
    (h : 0 < roundCount st b l) : ∃ n ∈ l, slotCount st b n = roundCount st b l := by
  induction l with
  | nil => simp [roundCount] at h
  | cons m rest ih =>
    simp only [roundCount, List.map_cons, List.foldr_cons] at h ⊢
    rcases le_total (slotCount st b m) ((rest.map (slotCount st b)).foldr max 0) with hle | hle
    · rw [max_eq_right hle] at h ⊢
      obtain ⟨n, hn, e⟩ := ih h
      exact ⟨n, List.mem_cons_of_mem _ hn, e⟩
    · rw [max_eq_left hle]
      exact ⟨m, List.mem_cons_self _ _, rfl⟩

theorem roundCount_le_sum (st : SDModule) (b : Bool) (l : order_t) :
    roundCount st b l ≤ (l.map (slotCount st b)).sum := by
  induction l with
  | nil => simp [roundCount]
  | cons m rest ih =>
    simp only [roundCount, List.map_cons, List.foldr_cons, List.sum_cons] at ih ⊢
    exact max_le (Nat.le_add_right _ _) (le_trans ih (Nat.le_add_left _ _))

theorem batch_eq_nil_iff (st : SDModule) (b : Bool) (l : order_t) (j : Nat) :
    batch st b l j = [] ↔ roundCount st b l ≤ j := by
  constructor
  · intro h
    by_contra hlt
    obtain ⟨n, hn, e⟩ := exists_slotCount_eq_roundCount st b l (by omega)
    have hmem : (n, slotIndex st b n j) ∈ batch st b l j := by
      unfold batch
      rw [List.mem_filterMap]
      exact ⟨n, hn, by rw [if_pos (by omega)]⟩
    rw [h] at hmem
    exact List.not_mem_nil _ hmem
  · intro h
    unfold batch
    rw [List.filterMap_eq_nil_iff]
    intro n hn
    have := slotCount_le_roundCount st b l n hn
    rw [if_neg (by omega)]

theorem fillLoop_spec (st : SDModule) (b : Bool) (order : order_t) (hnd : order.Nodup)
    (hb : ∀ n ∈ order, fitsInt64 st n)
    (lm : vtbl_t → Int) (hlm : ∀ n ∈ order, lm n = lastPos st b n) :
    ∀ (d j fuel : Nat) (pm : vtbl_t → Int) (part : interleaving_list_t),
      (∀ n ∈ order, pm n = stagePos st b j n) → j + d = roundCount st b order → d < fuel →
      fillLoop b order lm fuel pm part =
        .ok (if b then part ++ batchesFwd st order j d else batchesBwd st order j d ++ part) := by
  intro d
  induction d with
  | zero =>
    intro j fuel pm part hpm hj hf
    obtain ⟨f, rfl⟩ : ∃ f, fuel = f + 1 := ⟨fuel - 1, by omega⟩
    obtain ⟨h1, _, _⟩ := fillRound_spec st b j lm order hnd hb hlm pm [] hpm
    have hnil : batch st b order j = [] := (batch_eq_nil_iff st b order j).2 (by omega)
    simp only [fillLoop, h1, hnil]
    cases b <;> simp [batchesFwd, batchesBwd]
  | succ d ih =>
    intro j fuel pm part hpm hj hf
    obtain ⟨f, rfl⟩ : ∃ f, fuel = f + 1 := ⟨fuel - 1, by omega⟩
    obtain ⟨h1, h2, _⟩ := fillRound_spec st b j lm order hnd hb hlm pm [] hpm
    have hne : batch st b order j ≠ [] := fun h => by
      have := (batch_eq_nil_iff st b order j).1 h
      omega
    have hlen : ¬ (batch st b order j).length = 0 := fun h => hne (List.length_eq_zero.1 h)
    simp only [fillLoop, h1, List.nil_append, hlen, if_false]
    rw [ih (j + 1) f _ _ (by simpa [h1] using h2) (by omega) (by omega)]
    cases b <;> simp [batchesFwd, batchesBwd]

theorem fillVtablePart_spec (st : SDModule) (b : Bool) (order : order_t) (hnd : order.Nodup)
    (hd : ∀ n ∈ order, hasLayoutData st n) (hb : ∀ n ∈ order, fitsInt64 st n)
    (part : interleaving_list_t) :
    fillVtablePart st part order b =
      .ok (if b then part ++ batchesFwd st order 0 (roundCount st b order)
        else batchesBwd st order 0 (roundCount st b order) ++ part) := by
  obtain ⟨maps, hmaps, hval⟩ := fillInit_spec st b order hd hb (fun _ => 0) (fun _ => 0)
  simp only [fillVtablePart, hmaps, bind, Except.bind]
  apply fillLoop_spec st b order hnd hb maps.2 (fun n hn => (hval n hn).2)
  · exact fun n hn => (hval n hn).1
  · simp
  · have hsum : (order.map (remaining b maps.1 maps.2)) = order.map (slotCount st b) := by
      apply List.map_congr_left
      intro n hn
      obtain ⟨h1, h2⟩ := hval n hn
      unfold remaining
      rw [h1, h2]
      cases b <;> simp [stagePos, lastPos, slotCount]
    unfold fillFuel
    rw [hsum]
    have := roundCount_le_sum st b order
    omega

/-! ## The loop of fillVtablePart ends within its budget, or never -/

theorem remaining_setPos_of_ne (b : Bool) (pm lm : vtbl_t → Int) (n m : vtbl_t) (x : Int)
    (h : m ≠ n) : remaining b (setPos pm n x) lm m = remaining b pm lm m := by
  simp [remaining, setPos, h]

theorem check_iff_remaining (b : Bool) (pm lm : vtbl_t → Int) (n : vtbl_t) :
    (if b then sd_isLE else sd_isGE) (pm n) (lm n) = true ↔ 0 < remaining b pm lm n := by
  cases b <;> simp [sd_isLE, sd_isGE, remaining] <;> omega

theorem remaining_step (b : Bool) (pm lm : vtbl_t → Int) (n : vtbl_t)
    (h : 0 < remaining b pm lm n) (hp : isInt64 (pm n)) (hl : stepsPast b (lm n)) :
    remaining b (setPos pm n (wrapInt64 (pm n + (if b then 1 else -1)))) lm n + 1
      = remaining b pm lm n := by
  unfold isInt64 at hp
  have hw : wrapInt64 (pm n + (if b then 1 else -1)) = pm n + (if b then 1 else -1) := by
    apply wrapInt64_of_isInt64
    unfold isInt64
    cases b <;>
      simp only [remaining, stepsPast, Bool.false_eq_true, if_false, if_true] at h hl ⊢ <;> omega
  rw [hw]
  cases b <;> simp [remaining, setPos] at h ⊢ <;> omega

theorem sum_remaining_step_le (b : Bool) (pm lm : vtbl_t → Int) (n : vtbl_t)
    (h : 0 < remaining b pm lm n) (hp : isInt64 (pm n)) (hl : stepsPast b (lm n)) (S : order_t) :
    (S.map (remaining b (setPos pm n (wrapInt64 (pm n + (if b then 1 else -1)))) lm)).sum
      ≤ (S.map (remaining b pm lm)).sum := by
  induction S with
  | nil => simp
  | cons m rest ih =>
    simp only [List.map_cons, List.sum_cons]
    by_cases e : m = n
    · subst e
      have := remaining_step b pm lm m h hp hl
      omega
    · rw [remaining_setPos_of_ne b pm lm n m _ e]
      omega

theorem sum_remaining_step_lt (b : Bool) (pm lm : vtbl_t → Int) (n : vtbl_t)
    (h : 0 < remaining b pm lm n) (hp : isInt64 (pm n)) (hl : stepsPast b (lm n))
    (S : order_t) (hn : n ∈ S) :
    (S.map (remaining b (setPos pm n (wrapInt64 (pm n + (if b then 1 else -1)))) lm)).sum + 1
      ≤ (S.map (remaining b pm lm)).sum := by
  induction S with
  | nil => exact absurd hn (List.not_mem_nil _)
  | cons m rest ih =>
    simp only [List.map_cons, List.sum_cons]
    by_cases e : m = n
    · subst e
      have h1 := remaining_step b pm lm m h hp hl
      have h2 := sum_remaining_step_le b pm lm m h hp hl rest
      omega
    · rw [remaining_setPos_of_ne b pm lm n m _ e]
      have hrest : n ∈ rest := by
        rcases List.mem_cons.1 hn with h' | h'
        · exact absurd h'.symm e
        · exact h'
      have := ih hrest
      omega

theorem isInt64_setPos (pm : vtbl_t → Int) (n : vtbl_t) (z : Int) (hp : ∀ k, isInt64 (pm k))
    (hz : isInt64 z) : ∀ k, isInt64 (setPos pm n z k) := by
  intro k
  unfold setPos
  split
  · exact hz
  · exact hp k

/-- Every position that a round leaves is an `int64_t` value. -/
theorem fillRound_isInt64 (check : Int → Int → Bool) (increment : Int) (lm : vtbl_t → Int) :
    ∀ (l : order_t) (pm : vtbl_t → Int) (cur : interleaving_list_t), (∀ k, isInt64 (pm k)) →
      ∀ k, isInt64 ((fillRound check increment lm l pm cur).1 k) := by
  intro l
  induction l with
  | nil => intro pm cur hp; exact hp
  | cons n rest ih =>
    intro pm cur hp
    by_cases hc : check (pm n) (lm n) = true
    · simp only [fillRound, hc, if_true]
      exact ih _ _ (isInt64_setPos pm n _ hp (isInt64_wrapInt64 _))
    · simp only [fillRound, hc, Bool.false_eq_true, if_false]
      exact ih _ _ hp

theorem fillRound_length_le (check : Int → Int → Bool) (increment : Int) (lm : vtbl_t → Int) :
    ∀ (l : order_t) (pm : vtbl_t → Int) (cur : interleaving_list_t),
      cur.length ≤ (fillRound check increment lm l pm cur).2.length := by
  intro l
  induction l with
  | nil => intro pm cur; exact Nat.le_refl _
  | cons n rest ih =>
    intro pm cur
    by_cases hc : check (pm n) (lm n) = true
    · simp only [fillRound, hc, if_true]
      have := ih (setPos pm n (wrapInt64 (pm n + increment))) (cur ++ [(n, toUInt64 (pm n))])
      simp only [List.length_append, List.length_singleton] at this
      omega
    · simp only [fillRound, hc, Bool.false_eq_true, if_false]
      exact ih pm cur

/-- A member that passes the check makes the round produce an element. -/
theorem fillRound_emits (check : Int → Int → Bool) (increment : Int) (lm : vtbl_t → Int)
    (n : vtbl_t) :
    ∀ (l : order_t) (pm : vtbl_t → Int) (cur : interleaving_list_t), n ∈ l →
      check (pm n) (lm n) = true →
      cur.length < (fillRound check increment lm l pm cur).2.length := by
  intro l
  induction l with
  | nil => intro pm cur hn; exact absurd hn (List.not_mem_nil _)
  | cons m rest ih =>
    intro pm cur hn hchk
    by_cases hc : check (pm m) (lm m) = true
    · simp only [fillRound, hc, if_true]
      have := fillRound_length_le check increment lm rest
        (setPos pm m (wrapInt64 (pm m + increment))) (cur ++ [(m, toUInt64 (pm m))])
      simp only [List.length_append, List.length_singleton] at this
      omega
    · simp only [fillRound, hc, Bool.false_eq_true, if_false]
      have hmn : n ≠ m := fun e => hc (e ▸ hchk)
      rcases List.mem_cons.1 hn with e | hrest
      · exact absurd e hmn
      · exact ih pm cur hrest hchk

/-- Every element a round appends is paid for by the number of elements that
remain to be consumed, as long as no position wraps around. -/
theorem fillRound_potential (b : Bool) (lm : vtbl_t → Int) (S : order_t)
    (hl : ∀ n ∈ S, stepsPast b (lm n)) :
    ∀ (l : order_t), (∀ n ∈ l, n ∈ S) → ∀ (pm : vtbl_t → Int) (cur : interleaving_list_t),
      (∀ k, isInt64 (pm k)) →
      ((S.map (remaining b
          (fillRound (if b then sd_isLE else sd_isGE) (if b then 1 else -1) lm l pm cur).1
          lm)).sum
        + (fillRound (if b then sd_isLE else sd_isGE) (if b then 1 else -1) lm l pm cur).2.length
        ≤ (S.map (remaining b pm lm)).sum + cur.length) := by
  intro l
  induction l with
  | nil => intro _ pm cur _; simp [fillRound]
  | cons n rest ih =>
    intro hS pm cur hp
    have hrest : ∀ m ∈ rest, m ∈ S := fun m hm => hS m (List.mem_cons_of_mem _ hm)
    have hnS := hS n (List.mem_cons_self _ _)
    by_cases hc : (if b then sd_isLE else sd_isGE) (pm n) (lm n) = true
    · have hpos := (check_iff_remaining b pm lm n).1 hc
      have hstep := sum_remaining_step_lt b pm lm n hpos (hp n) (hl n hnS) S hnS
      have h1 := ih hrest (setPos pm n (wrapInt64 (pm n + (if b then 1 else -1))))
        (cur ++ [(n, toUInt64 (pm n))]) (isInt64_setPos pm n _ hp (isInt64_wrapInt64 _))
      simp only [fillRound, hc, if_true]
      simp only [List.length_append, List.length_singleton] at h1
      omega
    · have h1 := ih hrest pm cur hp
      simp only [fillRound, hc, Bool.false_eq_true, if_false]
      exact h1

/-- The loop ends within `fillFuel` rounds when the position of every member
can step past its last position. -/
theorem fillLoop_returns (b : Bool) (order : order_t) (lm : vtbl_t → Int)
    (hl : ∀ n ∈ order, stepsPast b (lm n)) :
    ∀ (fuel : Nat) (pm : vtbl_t → Int) (part : interleaving_list_t), (∀ k, isInt64 (pm k)) →
      (order.map (remaining b pm lm)).sum < fuel →
      ∃ res, fillLoop b order lm fuel pm part = .ok res := by
  intro fuel
  induction fuel with
  | zero => intro pm part _ h; omega
  | succ fuel ih =>
    intro pm part hp h
    have h1 := fillRound_potential b lm order hl order (fun _ hn => hn) pm [] hp
    by_cases hz : (fillRound (if b then sd_isLE else sd_isGE) (if b then 1 else -1)
        lm order pm []).2.length = 0
    · exact ⟨part, by simp only [fillLoop, hz, if_true]⟩
    · simp only [fillLoop, hz, if_false]
      apply ih _ _ (fillRound_isInt64 _ _ lm order pm [] hp)
      simp only [List.length_nil, Nat.add_zero] at h1
      omega

/-- The loop never ends when the position of some member cannot step past its
last position: that member passes the check in every round. -/
theorem fillLoop_diverges (b : Bool) (order : order_t) (lm : vtbl_t → Int) (n : vtbl_t)
    (hn : n ∈ order) (hl : ¬ stepsPast b (lm n)) :
    ∀ (fuel : Nat) (pm : vtbl_t → Int) (part : interleaving_list_t), (∀ k, isInt64 (pm k)) →
      fillLoop b order lm fuel pm part = .error .outOfFuel := by
  intro fuel
  induction fuel with
  | zero => intro pm part _; rfl
  | succ fuel ih =>
    intro pm part hp
    have hchk : (if b then sd_isLE else sd_isGE) (pm n) (lm n) = true := by
      have := hp n
      unfold isInt64 at this
      cases b <;> simp only [stepsPast, Bool.false_eq_true, if_false, if_true, sd_isLE, sd_isGE,
        decide_eq_true_eq] at hl ⊢ <;> omega
    have hlen := fillRound_emits (if b then sd_isLE else sd_isGE) (if b then 1 else -1) lm n
      order pm [] hn hchk
    have hz : ¬ (fillRound (if b then sd_isLE else sd_isGE) (if b then 1 else -1)
        lm order pm []).2.length = 0 := by
      simp only [List.length_nil] at hlen
      omega
    simp only [fillLoop, hz, if_false]
    exact ih _ _ (fillRound_isInt64 _ _ lm order pm [] hp)

theorem fillLoop_mono (b : Bool) (order : order_t) (lm : vtbl_t → Int) :
    ∀ (fuel : Nat) (pm : vtbl_t → Int) (part res : interleaving_list_t),
      fillLoop b order lm fuel pm part = .ok res →
      ∀ fuel', fuel ≤ fuel' → fillLoop b order lm fuel' pm part = .ok res := by
  intro fuel
  induction fuel with
  | zero => intro pm part res h; cases h
  | succ fuel ih =>
    intro pm part res h fuel' hle
    obtain ⟨f, rfl⟩ : ∃ f, fuel' = f + 1 := ⟨fuel' - 1, by omega⟩
    by_cases hz : (fillRound (if b then sd_isLE else sd_isGE) (if b then 1 else -1)
        lm order pm []).2.length = 0
    · simp only [fillLoop, hz, if_true] at h ⊢
      exact h
    · simp only [fillLoop, hz, if_false] at h ⊢
      exact ih _ _ _ h f (by omega)

theorem fillLoop_error (b : Bool) (order : order_t) (lm : vtbl_t → Int) :
    ∀ (fuel : Nat) (pm : vtbl_t → Int) (part : interleaving_list_t) (e : sd_error),
      fillLoop b order lm fuel pm part = .error e → e = .outOfFuel := by
  intro fuel
  induction fuel with
  | zero => intro pm part e h; exact (Except.error.inj h).symm
  | succ fuel ih =>
    intro pm part e h
    by_cases hz : (fillRound (if b then sd_isLE else sd_isGE) (if b then 1 else -1)
        lm order pm []).2.length = 0
    · simp only [fillLoop, hz, if_true] at h
      cases h
    · simp only [fillLoop, hz, if_false] at h
      exact ih _ _ _ h

theorem fillInit_error (st : SDModule) (b : Bool) :
    ∀ (order : order_t) (maps : (vtbl_t → Int) × (vtbl_t → Int)) (e : sd_error),
      fillInit st b order maps = .error e → e = .outOfBounds := by
  intro order
  induction order with
  | nil =>
    intro maps e h
    cases h
  | cons n rest ih =>
    intro maps e h
    obtain ⟨pm, lm⟩ := maps
    simp only [fillInit, addrPtAt, rangeAt, vecAt, bind, Except.bind] at h
    cases ha : ((st.addrPtMap n.1).getD []).get? n.2 with
    | none =>
      rw [ha] at h
      exact (Except.error.inj h).symm
    | some a =>
      rw [ha] at h
      cases hr : ((st.rangeMap n.1).getD []).get? n.2 with
      | none =>
        rw [hr] at h
        exact (Except.error.inj h).symm
      | some r =>
        rw [hr] at h
        exact ih _ e h

/-- The budget of `fillVtablePart` is exhausted only by a loop that does not
end with any budget. -/
theorem fillVtablePart_outOfFuel_iff (st : SDModule) (part : interleaving_list_t)
    (order : order_t) (b : Bool) :
    fillVtablePart st part order b = .error .outOfFuel ↔
      ∃ maps, fillInit st b order (fun _ => 0, fun _ => 0) = .ok maps ∧
        ∀ fuel, fillLoop b order maps.2 fuel maps.1 part = .error .outOfFuel := by
  constructor
  · intro h
    unfold fillVtablePart at h
    cases hinit : fillInit st b order (fun _ => 0, fun _ => 0) with
    | error e =>
      rw [hinit] at h
      have h1 := fillInit_error st b order _ e hinit
      have h2 : e = .outOfFuel := Except.error.inj h
      rw [h1] at h2
      cases h2
    | ok maps =>
      rw [hinit] at h
      simp only [bind, Except.bind] at h
      have hp : ∀ k, isInt64 (maps.1 k) :=
        fillInit_isInt64 st b order _ _ maps hinit (fun _ => by unfold isInt64; omega)
      refine ⟨maps, rfl, ?_⟩
      by_cases hl : ∀ n ∈ order, stepsPast b (maps.2 n)
      · obtain ⟨res, hres⟩ := fillLoop_returns b order maps.2 hl
          (fillFuel b order maps.1 maps.2) maps.1 part hp (by unfold fillFuel; omega)
        rw [hres] at h
        cases h
      · push_neg at hl
        obtain ⟨n, hn, hnl⟩ := hl
        exact fun fuel => fillLoop_diverges b order maps.2 n hn hnl fuel maps.1 part hp
  · rintro ⟨maps, hinit, hdiv⟩
    simp only [fillVtablePart, hinit, bind, Except.bind]
    exact hdiv _

/-- `fillVtablePart` never reads past the tables when every member has its
table entries: it returns, or its loop does not end. -/
theorem fillVtablePart_error (st : SDModule) (b : Bool) (order : order_t)
    (hd : ∀ n ∈ order, hasLayoutData st n) (part : interleaving_list_t) (e : sd_error)
    (h : fillVtablePart st part order b = .error e) : e = .outOfFuel := by
  obtain ⟨maps, hmaps, -⟩ := fillInit_values st b order hd (fun _ => 0) (fun _ => 0)
  simp only [fillVtablePart, hmaps, bind, Except.bind] at h
  exact fillLoop_error b order maps.2 _ maps.1 part e h

/-- `fillVtablePart` returns a sequence for every traversal, with or without
repetitions, whose members have their table entries and bounds that fit. -/
theorem fillVtablePart_returns (st : SDModule) (b : Bool) (order : order_t)
    (hd : ∀ n ∈ order, hasLayoutData st n) (hb : ∀ n ∈ order, fitsInt64 st n)
    (part : interleaving_list_t) :
    ∃ res, fillVtablePart st part order b = .ok res := by
  obtain ⟨maps, hmaps, hval⟩ := fillInit_spec st b order hd hb (fun _ => 0) (fun _ => 0)
  have hp : ∀ k, isInt64 (maps.1 k) :=
    fillInit_isInt64 st b order _ _ maps hmaps (fun _ => by unfold isInt64; omega)
  simp only [fillVtablePart, hmaps, bind, Except.bind]
  refine fillLoop_returns b order maps.2 ?_ _ maps.1 part hp (by unfold fillFuel; omega)
  intro n hn
  obtain ⟨b1, b2, b3⟩ := hb n hn
  rw [(hval n hn).2]
  cases b <;> simp only [stepsPast, lastPos, Bool.false_eq_true, if_false, if_true] <;> omega

/-! ## The elements of one member inside the merged sequence -/

theorem slotsOf_append (v : vtbl_t) (l₁ l₂ : interleaving_list_t) :
    slotsOf v (l₁ ++ l₂) = slotsOf v l₁ ++ slotsOf v l₂ := by
  simp [slotsOf]

theorem slotsOf_batch (st : SDModule) (b : Bool) (l : order_t) (hnd : l.Nodup) (j : Nat)
    (v : vtbl_t) :
    slotsOf v (batch st b l j) =
      if v ∈ l ∧ j < slotCount st b v then [slotIndex st b v j] else [] := by
  induction l with
  | nil => simp [batch, slotsOf]
  | cons n rest ih =>
    have hn : n ∉ rest := (List.nodup_cons.1 hnd).1
    rw [batch_cons, slotsOf_append, ih (List.nodup_cons.1 hnd).2]
    by_cases hv : n = v
    · subst hv
      by_cases hc : j < slotCount st b n <;> simp [slotsOf, hc, hn]
    · have hv2 : v ≠ n := fun e => hv e.symm
      by_cases hc : j < slotCount st b n <;> simp [slotsOf, hc, hv, hv2]

theorem slotsOf_batchesFwd (st : SDModule) (l : order_t) (hnd : l.Nodup) (v : vtbl_t)
    (hv : v ∈ l) : ∀ d j, slotsOf v (batchesFwd st l j d) =
      List.range' (addressPoint st v + j) (min (j + d) (slotCount st true v) - j) := by
  intro d
  induction d with
  | zero => intro j; simp [batchesFwd, slotsOf]
  | succ d ih =>
    intro j
    rw [batchesFwd, slotsOf_append, slotsOf_batch st true l hnd, ih (j + 1)]
    by_cases hc : j < slotCount st true v
    · have e : min (j + (d + 1)) (slotCount st true v) - j
          = (min (j + 1 + d) (slotCount st true v) - (j + 1)) + 1 := by omega
      rw [if_pos ⟨hv, hc⟩, e, List.range'_succ]
      simp [slotIndex, Nat.add_assoc]
    · have e1 : min (j + (d + 1)) (slotCount st true v) - j = 0 := by omega
      have e2 : min (j + 1 + d) (slotCount st true v) - (j + 1) = 0 := by omega
      rw [if_neg (fun h => hc h.2), e1, e2]
      simp

theorem slotsOf_batchesBwd (st : SDModule) (l : order_t) (hnd : l.Nodup) (v : vtbl_t)
    (hv : v ∈ l) : ∀ d j, slotsOf v (batchesBwd st l j d) =
      List.range' (addressPoint st v - min (j + d) (slotCount st false v))
        (min (j + d) (slotCount st false v) - j) := by
  intro d
  induction d with
  | zero => intro j; simp [batchesBwd, slotsOf]
  | succ d ih =>
    intro j
    rw [batchesBwd, slotsOf_append, slotsOf_batch st false l hnd, ih (j + 1)]
    have hle : slotCount st false v ≤ addressPoint st v := by simp [slotCount]
    by_cases hc : j < slotCount st false v
    · have e : min (j + (d + 1)) (slotCount st false v) - j
          = (min (j + 1 + d) (slotCount st false v) - (j + 1)) + 1 := by omega
      have e3 : j + (d + 1) = j + 1 + d := by omega
      rw [if_pos ⟨hv, hc⟩, e, List.range'_1_concat, e3]
      congr 2
      simp only [slotIndex, Bool.false_eq_true, if_false]
      omega
    · have e1 : min (j + (d + 1)) (slotCount st false v) - j = 0 := by omega
      have e2 : min (j + 1 + d) (slotCount st false v) - (j + 1) = 0 := by omega
      rw [if_neg (fun h => hc h.2), e1, e2]
      simp

theorem slotsOf_batch_of_not_mem (st : SDModule) (b : Bool) (l : order_t) (j : Nat) (v : vtbl_t)
    (hv : v ∉ l) : slotsOf v (batch st b l j) = [] := by
  induction l with
  | nil => simp [batch, slotsOf]
  | cons n rest ih =>
    have hvn : n ≠ v := fun e => hv (e ▸ List.mem_cons_self _ _)
    rw [batch_cons, slotsOf_append, ih (fun h => hv (List.mem_cons_of_mem _ h))]
    by_cases hc : j < slotCount st b n <;> simp [slotsOf, hc, hvn]

theorem slotsOf_batchesFwd_of_not_mem (st : SDModule) (l : order_t) (v : vtbl_t) (hv : v ∉ l) :
    ∀ d j, slotsOf v (batchesFwd st l j d) = [] := by
  intro d
  induction d with
  | zero => intro j; simp [batchesFwd, slotsOf]
  | succ d ih =>
    intro j
    rw [batchesFwd, slotsOf_append, slotsOf_batch_of_not_mem st true l j v hv, ih]; rfl

theorem slotsOf_batchesBwd_of_not_mem (st : SDModule) (l : order_t) (v : vtbl_t) (hv : v ∉ l) :
    ∀ d j, slotsOf v (batchesBwd st l j d) = [] := by
  intro d
  induction d with
  | zero => intro j; simp [batchesBwd, slotsOf]
  | succ d ih =>
    intro j
    rw [batchesBwd, slotsOf_append, slotsOf_batch_of_not_mem st false l j v hv, ih]; rfl

/-! ## The merged sequence of a cloud -/

theorem fitsInt64_of_end (st : SDModule) (v : vtbl_t)
    (h1 : rangeStart st v ≤ addressPoint st v) (h2 : addressPoint st v ≤ rangeEnd st v + 1)
    (h3 : rangeEnd st v + 1 < 2 ^ 63) : fitsInt64 st v :=
  ⟨by omega, by omega, h3⟩

theorem fitsInt64_of_inRange (st : SDModule) (v : vtbl_t) (hr : inRange st v)
    (h3 : rangeEnd st v + 1 < 2 ^ 63) : fitsInt64 st v :=
  fitsInt64_of_end st v hr.2.1 (by have := hr.2.2; omega) h3

theorem fitsInt64_congr (st st' : SDModule) (h1 : st'.addrPtMap = st.addrPtMap)
    (h2 : st'.rangeMap = st.rangeMap) (v : vtbl_t) (h : fitsInt64 st v) : fitsInt64 st' v := by
  simpa [fitsInt64, addressPoint, rangeStart, rangeEnd, h1, h2] using h

theorem interleaveCloud_eq (st : SDModule) (fuel : Nat) (r : vtbl_name_t) (P : order_t)
    (hroot : r ∈ st.roots) (hpre : preorder st.cloudMap fuel (r, 0) = .ok P) (hnd : P.Nodup)
    (hd : ∀ v ∈ P, hasLayoutData st v) (hb : ∀ v ∈ P, fitsInt64 st v) :
    interleaveCloud st fuel r =
      .ok { st with interleavingMap := mapSet st.interleavingMap r (mergedRef st P) } := by
  simp only [interleaveCloud, hroot, if_true, hpre, bind, Except.bind,
    fillVtablePart_spec st false P hnd hd hb [], fillVtablePart_spec st true P hnd hd hb []]
  simp [mergedRef, pure, Except.pure]

theorem slotsOf_mergedRef (st : SDModule) (P : order_t) (hnd : P.Nodup) (v : vtbl_t)
    (hv : v ∈ P) :
    slotsOf v (mergedRef st P) =
      List.range' (addressPoint st v - slotCount st false v)
        (slotCount st false v + slotCount st true v) := by
  have h1 := slotCount_le_roundCount st false P v hv
  have h2 := slotCount_le_roundCount st true P v hv
  rw [mergedRef, slotsOf_append, slotsOf_batchesBwd st P hnd v hv,
    slotsOf_batchesFwd st P hnd v hv]
  have hle : slotCount st false v ≤ addressPoint st v := by simp [slotCount]
  have e1 : min (0 + roundCount st false P) (slotCount st false v) = slotCount st false v := by
    omega
  have e2 : min (0 + roundCount st true P) (slotCount st true v) = slotCount st true v := by
    omega
  rw [e1, e2, Nat.sub_zero, Nat.sub_zero, Nat.add_zero]
  have e3 : addressPoint st v
      = (addressPoint st v - slotCount st false v) + slotCount st false v := by omega
  conv_lhs => rw [e3]
  rw [Nat.add_sub_cancel]
  rw [List.range'_append_1, Nat.add_comm]

theorem slotsOf_mergedRef_inRange (st : SDModule) (P : order_t) (hnd : P.Nodup) (v : vtbl_t)
    (hv : v ∈ P) (hr : inRange st v) :
    slotsOf v (mergedRef st P) =
      List.range' (rangeStart st v) (rangeEnd st v - rangeStart st v + 1) := by
  rw [slotsOf_mergedRef st P hnd v hv]
  obtain ⟨_, h1, h2⟩ := hr
  congr 1 <;> simp only [slotCount, Bool.false_eq_true, if_false, if_true] <;> omega

theorem slotsOf_mergedRef_of_not_mem (st : SDModule) (P : order_t) (v : vtbl_t) (hv : v ∉ P) :
    slotsOf v (mergedRef st P) = [] := by
  rw [mergedRef, slotsOf_append, slotsOf_batchesBwd_of_not_mem st P v hv,
    slotsOf_batchesFwd_of_not_mem st P v hv]; rfl

theorem count_eq_count_slotsOf (l : interleaving_list_t) (v : vtbl_t) (i : Nat) :
    l.count (v, i) = (slotsOf v l).count i := by
  induction l with
  | nil => simp [slotsOf]
  | cons x rest ih =>
    obtain ⟨w, k⟩ := x
    by_cases hw : w = v
    · subst hw
      by_cases hk : k = i
      · subst hk
        simp [slotsOf, List.filter_cons] at ih ⊢
        exact ih
      · have hne : ((w, k) == (w, i)) = false := by simp [hk]
        simp only [slotsOf, List.filter_cons, decide_True, if_true, List.map_cons,
          List.count_cons, hne] at ih ⊢
        simp [hk, ih]
    · have hne : ((w, k) == (v, i)) = false := by simp [hw]
      simp only [slotsOf, List.filter_cons, hw, decide_False, List.count_cons, hne] at ih ⊢
      simpa using ih

/-! ## Lengths -/

theorem batchesFwd_nil (st : SDModule) : ∀ d j, batchesFwd st [] j d = [] := by
  intro d
  induction d with
  | zero => intro j; rfl
  | succ d ih => intro j; simp [batchesFwd, ih, batch]

theorem batchesBwd_nil (st : SDModule) : ∀ d j, batchesBwd st [] j d = [] := by
  intro d
  induction d with
  | zero => intro j; rfl
  | succ d ih => intro j; simp [batchesBwd, ih, batch]

theorem length_batchesFwd_cons (st : SDModule) (n : vtbl_t) (rest : order_t) :
    ∀ d j, (batchesFwd st (n :: rest) j d).length =
      (min (j + d) (slotCount st true n) - j) + (batchesFwd st rest j d).length := by
  intro d
  induction d with
  | zero => intro j; simp [batchesFwd]
  | succ d ih =>
    intro j
    simp only [batchesFwd, List.length_append, ih (j + 1), batch_cons]
    by_cases hc : j < slotCount st true n
    · simp only [hc, if_true, List.length_singleton]; omega
    · simp only [hc, if_false, List.length_nil]; omega

theorem length_batchesBwd_cons (st : SDModule) (n : vtbl_t) (rest : order_t) :
    ∀ d j, (batchesBwd st (n :: rest) j d).length =
      (min (j + d) (slotCount st false n) - j) + (batchesBwd st rest j d).length := by
  intro d
  induction d with
  | zero => intro j; simp [batchesBwd]
  | succ d ih =>
    intro j
    simp only [batchesBwd, List.length_append, ih (j + 1), batch_cons]
    by_cases hc : j < slotCount st false n
    · simp only [hc, if_true, List.length_singleton]; omega
    · simp only [hc, if_false, List.length_nil]; omega

theorem length_batchesFwd (st : SDModule) (d : Nat) (l : order_t) :
    (batchesFwd st l 0 d).length = (l.map (fun n => min d (slotCount st true n))).sum := by
  induction l with
  | nil => simp [batchesFwd_nil]
  | cons n rest ih => rw [length_batchesFwd_cons, ih]; simp

theorem length_batchesBwd (st : SDModule) (d : Nat) (l : order_t) :
    (batchesBwd st l 0 d).length = (l.map (fun n => min d (slotCount st false n))).sum := by
  induction l with
  | nil => simp [batchesBwd_nil]
  | cons n rest ih => rw [length_batchesBwd_cons, ih]; simp

theorem length_negativePart (st : SDModule) (P : order_t) :
    (batchesBwd st P 0 (roundCount st false P)).length = metadataCount st P := by
  rw [length_batchesBwd, metadataCount]
  congr 1
  apply List.map_congr_left
  intro n hn
  have := slotCount_le_roundCount st false P n hn
  simp only [slotCount, Bool.false_eq_true, if_false] at this ⊢
  omega

theorem length_positivePart (st : SDModule) (P : order_t) :
    (batchesFwd st P 0 (roundCount st true P)).length
      = (P.map (fun v => rangeEnd st v + 1 - addressPoint st v)).sum := by
  rw [length_batchesFwd]
  congr 1
  apply List.map_congr_left
  intro n hn
  have := slotCount_le_roundCount st true P n hn
  simp only [slotCount, if_true] at this ⊢
  omega

theorem length_mergedRef (st : SDModule) (P : order_t)
    (hr : ∀ v ∈ P, rangeStart st v ≤ addressPoint st v ∧ addressPoint st v ≤ rangeEnd st v + 1) :
    (mergedRef st P).length = (P.map (fun v => rangeEnd st v + 1 - rangeStart st v)).sum := by
  rw [mergedRef, List.length_append, length_negativePart, length_positivePart, metadataCount,
    ← List.sum_map_add]
  congr 1
  apply List.map_congr_left
  intro v hv
  obtain ⟨h1, h2⟩ := hr v hv
  show addressPoint st v - rangeStart st v + (rangeEnd st v + 1 - addressPoint st v)
    = rangeEnd st v + 1 - rangeStart st v
  omega

/-! ## The block of address points -/

theorem batch_zero_of_inRange (st : SDModule) (l : order_t) (hr : ∀ v ∈ l, inRange st v) :
    batch st true l 0 = l.map (fun v => (v, addressPoint st v)) := by
  induction l with
  | nil => simp [batch]
  | cons n rest ih =>
    obtain ⟨_, _, h2⟩ := hr n (List.mem_cons_self _ _)
    have hc : 0 < slotCount st true n := by simp only [slotCount, if_true]; omega
    rw [batch_cons, if_pos hc, ih (fun v hv => hr v (List.mem_cons_of_mem _ hv))]
    simp [slotIndex]

theorem mergedRef_addressPoint (st : SDModule) (P : order_t) (hr : ∀ v ∈ P, inRange st v)
    (k : Nat) (v : vtbl_t) (hk : P.get? k = some v) :
    (mergedRef st P).get? (metadataCount st P + k) = some (v, addressPoint st v) := by
  have hv : v ∈ P := List.get?_mem hk
  have hklt : k < P.length := by
    rw [List.get?_eq_getElem?] at hk
    exact (List.getElem?_eq_some_iff.1 hk).1
  obtain ⟨_, _, h2⟩ := hr v hv
  have hc : 0 < slotCount st true v := by simp only [slotCount, if_true]; omega
  have hR := slotCount_le_roundCount st true P v hv
  obtain ⟨d, hd⟩ : ∃ d, roundCount st true P = d + 1 := ⟨roundCount st true P - 1, by omega⟩
  rw [mergedRef, hd, batchesFwd, batch_zero_of_inRange st P hr, List.get?_eq_getElem?,
    List.getElem?_append_right (by rw [length_negativePart]; omega), length_negativePart,
    Nat.add_sub_cancel_left, List.getElem?_append_left (by simpa using hklt),
    List.getElem?_map, ← List.get?_eq_getElem?, hk]
  rfl

/-! ## The preorder traversal -/

theorem preorderHelper_succ (cm : cloud_map_t) (fuel : Nat) (nodes : order_t) (root : vtbl_t) :
    preorderHelper cm (fuel + 1) nodes root =
      match cm root with
      | none => .ok (nodes ++ [root])
      | some children => preorderChildren cm fuel (nodes ++ [root]) children := rfl

theorem preorderChildren_nil (cm : cloud_map_t) (fuel : Nat) (nodes : order_t) :
    preorderChildren cm fuel nodes [] = .ok nodes := rfl

theorem preorderChildren_cons (cm : cloud_map_t) (fuel : Nat) (nodes : order_t) (n : vtbl_t)
    (rest : cloud_map_children_t) :
    preorderChildren cm fuel nodes (n :: rest) =
      match preorderHelper cm fuel nodes n with
      | .ok a => preorderChildren cm fuel a rest
      | .error e => .error e := by
  simp only [preorderChildren, List.foldlM_cons, bind, Except.bind]
  cases preorderHelper cm fuel nodes n <;> rfl

theorem preorderChildren_acc (cm : cloud_map_t) (fuel : Nat)
    (ih : ∀ nodes root, preorderHelper cm fuel nodes root =
      (preorderHelper cm fuel [] root).map (fun Q => nodes ++ Q)) :
    ∀ (children : cloud_map_children_t) (nodes : order_t),
      preorderChildren cm fuel nodes children =
        (preorderChildren cm fuel [] children).map (fun Q => nodes ++ Q) := by
  intro children
  induction children with
  | nil => intro nodes; simp [preorderChildren_nil, Except.map]
  | cons n rest ihc =>
    intro nodes
    rw [preorderChildren_cons, preorderChildren_cons, ih nodes n]
    cases h : preorderHelper cm fuel [] n with
    | error e => simp [Except.map]
    | ok Q =>
      simp only [Except.map]
      rw [ihc (nodes ++ Q), ihc Q]
      cases preorderChildren cm fuel [] rest <;> simp [Except.map]

theorem preorderHelper_acc (cm : cloud_map_t) :
    ∀ (fuel : Nat) (nodes : order_t) (root : vtbl_t), preorderHelper cm fuel nodes root =
      (preorderHelper cm fuel [] root).map (fun Q => nodes ++ Q) := by
  intro fuel
  induction fuel with
  | zero => intro nodes root; rfl
  | succ fuel ih =>
    intro nodes root
    rw [preorderHelper_succ, preorderHelper_succ]
    cases h : cm root with
    | none => simp [Except.map]
    | some children =>
      simp only
      rw [preorderChildren_acc cm fuel ih children (nodes ++ [root]),
        preorderChildren_acc cm fuel ih children ([] ++ [root])]
      cases preorderChildren cm fuel [] children <;> simp [Except.map]

/-- The traversal of a node: the node itself, then the traversals of its
children. -/
theorem preorder_succ (cm : cloud_map_t) (fuel : Nat) (root : vtbl_t) :
    preorder cm (fuel + 1) root =
      match cm root with
      | none => .ok [root]
      | some children => (preorderChildren cm fuel [] children).map (fun L => root :: L) := by
  rw [preorder, preorderHelper_succ]
  cases h : cm root with
  | none => rfl
  | some children =>
    simp only
    rw [preorderChildren_acc cm fuel (preorderHelper_acc cm fuel) children ([] ++ [root])]
    cases preorderChildren cm fuel [] children <;> simp [Except.map]

theorem preorderChildren_cons_nil (cm : cloud_map_t) (fuel : Nat) (n : vtbl_t)
    (rest : cloud_map_children_t) :
    preorderChildren cm fuel [] (n :: rest) =
      match preorder cm fuel n with
      | .ok Q => (preorderChildren cm fuel [] rest).map (fun L => Q ++ L)
      | .error e => .error e := by
  rw [preorderChildren_cons, preorder]
  cases h : preorderHelper cm fuel [] n with
  | error e => rfl
  | ok Q =>
    simp only
    rw [preorderChildren_acc cm fuel (preorderHelper_acc cm fuel) rest Q]

theorem preorderChildren_mono (cm : cloud_map_t) (fuel : Nat)
    (ih : ∀ root Q, preorder cm fuel root = .ok Q → preorder cm (fuel + 1) root = .ok Q) :
    ∀ (children : cloud_map_children_t) (L : order_t),
      preorderChildren cm fuel [] children = .ok L →
        preorderChildren cm (fuel + 1) [] children = .ok L := by
  intro children
  induction children with
  | nil => intro L h; exact h
  | cons n rest ihc =>
    intro L h
    rw [preorderChildren_cons_nil] at h ⊢
    cases hq : preorder cm fuel n with
    | error e => rw [hq] at h; simp at h
    | ok Q =>
      rw [hq] at h
      rw [ih n Q hq]
      simp only at h ⊢
      cases hl : preorderChildren cm fuel [] rest with
      | error e => rw [hl] at h; simp [Except.map] at h
      | ok L2 =>
        rw [hl] at h
        rw [ihc L2 hl]
        exact h

theorem preorder_mono_succ (cm : cloud_map_t) :
    ∀ (fuel : Nat) (root : vtbl_t) (Q : order_t),
      preorder cm fuel root = .ok Q → preorder cm (fuel + 1) root = .ok Q := by
  intro fuel
  induction fuel with
  | zero => intro root Q h; simp [preorder, preorderHelper] at h
  | succ fuel ih =>
    intro root Q h
    rw [preorder_succ] at h ⊢
    cases hc : cm root with
    | none => rw [hc] at h; exact h
    | some children =>
      rw [hc] at h
      simp only at h ⊢
      cases hl : preorderChildren cm fuel [] children with
      | error e => rw [hl] at h; simp [Except.map] at h
      | ok L =>
        rw [hl] at h
        rw [preorderChildren_mono cm fuel ih children L hl]
        exact h

/-- A traversal that has returned returns the same list with any larger budget. -/
theorem preorder_mono (cm : cloud_map_t) (fuel fuel' : Nat) (h : fuel ≤ fuel') (root : vtbl_t)
    (Q : order_t) (hq : preorder cm fuel root = .ok Q) : preorder cm fuel' root = .ok Q := by
  induction h with
  | refl => exact hq
  | step _ ih => exact preorder_mono_succ cm _ root Q ih

theorem preorder_succ_inv (cm : cloud_map_t) (fuel : Nat) (root : vtbl_t) (Q : order_t)
    (h : preorder cm (fuel + 1) root = .ok Q) :
    (cm root = none ∧ Q = [root]) ∨
      ∃ children L, cm root = some children ∧
        preorderChildren cm fuel [] children = .ok L ∧ Q = root :: L := by
  rw [preorder_succ] at h
  cases hc : cm root with
  | none =>
    rw [hc] at h
    left
    simp only [Except.ok.injEq] at h
    exact ⟨rfl, h.symm⟩
  | some children =>
    rw [hc] at h
    simp only at h
    right
    cases hl : preorderChildren cm fuel [] children with
    | error e => rw [hl] at h; simp [Except.map] at h
    | ok L =>
      rw [hl] at h
      simp only [Except.map, Except.ok.injEq] at h
      exact ⟨children, L, rfl, hl, h.symm⟩

theorem preorderChildren_cons_inv (cm : cloud_map_t) (fuel : Nat) (n : vtbl_t)
    (rest : cloud_map_children_t) (L : order_t)
    (h : preorderChildren cm fuel [] (n :: rest) = .ok L) :
    ∃ Q L2, preorder cm fuel n = .ok Q ∧ preorderChildren cm fuel [] rest = .ok L2 ∧
      L = Q ++ L2 := by
  rw [preorderChildren_cons_nil] at h
  cases hq : preorder cm fuel n with
  | error e => rw [hq] at h; simp at h
  | ok Q =>
    rw [hq] at h
    cases hl : preorderChildren cm fuel [] rest with
    | error e => rw [hl] at h; simp [Except.map] at h
    | ok L2 =>
      rw [hl] at h
      simp only [Except.map, Except.ok.injEq] at h
      exact ⟨Q, L2, rfl, rfl, h.symm⟩

theorem preorder_head (cm : cloud_map_t) (fuel : Nat) (root : vtbl_t) (Q : order_t)
    (h : preorder cm fuel root = .ok Q) : ∃ L, Q = root :: L := by
  cases fuel with
  | zero => simp [preorder, preorderHelper] at h
  | succ fuel =>
    rcases preorder_succ_inv cm fuel root Q h with ⟨_, hq⟩ | ⟨_, L, _, _, hq⟩
    · exact ⟨[], hq⟩
    · exact ⟨L, hq⟩

theorem preorderChildren_subtree (cm : cloud_map_t) (fuel : Nat)
    (ih : ∀ root Q, preorder cm fuel root = .ok Q →
      ∀ y ∈ Q, ∃ Qy A B, preorder cm fuel y = .ok Qy ∧ Q = A ++ Qy ++ B) :
    ∀ (children : cloud_map_children_t) (L : order_t),
      preorderChildren cm fuel [] children = .ok L →
        ∀ y ∈ L, ∃ Qy A B, preorder cm fuel y = .ok Qy ∧ L = A ++ Qy ++ B := by
  intro children
  induction children with
  | nil =>
    intro L h y hy
    simp only [preorderChildren_nil, Except.ok.injEq] at h
    subst h
    exact absurd hy (List.not_mem_nil _)
  | cons n rest ihc =>
    intro L h y hy
    obtain ⟨Q, L2, hq, hl, rfl⟩ := preorderChildren_cons_inv cm fuel n rest L h
    rcases List.mem_append.1 hy with hyq | hyl
    · obtain ⟨Qy, A, B, h1, h2⟩ := ih n Q hq y hyq
      exact ⟨Qy, A, B ++ L2, h1, by rw [h2]; simp⟩
    · obtain ⟨Qy, A, B, h1, h2⟩ := ihc L2 hl y hyl
      exact ⟨Qy, Q ++ A, B, h1, by rw [h2]; simp⟩

/-- The traversal of every node of a traversal is a contiguous part of it. -/
theorem preorder_subtree (cm : cloud_map_t) :
    ∀ (fuel : Nat) (root : vtbl_t) (Q : order_t), preorder cm fuel root = .ok Q →
      ∀ y ∈ Q, ∃ Qy A B, preorder cm fuel y = .ok Qy ∧ Q = A ++ Qy ++ B := by
  intro fuel
  induction fuel with
  | zero => intro root Q h; simp [preorder, preorderHelper] at h
  | succ fuel ih =>
    intro root Q h y hy
    rcases preorder_succ_inv cm fuel root Q h with ⟨_, hq⟩ | ⟨children, L, _, hl, hq⟩
    · subst hq
      have hyr : y = root := by simpa using hy
      subst hyr
      exact ⟨[y], [], [], h, by simp⟩
    · subst hq
      rcases List.mem_cons.1 hy with hyr | hyl
      · subst hyr
        exact ⟨y :: L, [], [], h, by simp⟩
      · obtain ⟨Qy, A, B, h1, h2⟩ := preorderChildren_subtree cm fuel ih children L hl y hyl
        exact ⟨Qy, root :: A, B, preorder_mono_succ cm fuel y Qy h1, by rw [h2]; simp⟩

/-! ## calculateChildrenCounts -/

theorem calculateChildrenCounts_succ (cm : cloud_map_t) (fuel : Nat) (csm : cloud_size_map_t)
    (root : vtbl_t) :
    calculateChildrenCounts cm (fuel + 1) csm root =
      match (match cm root with
        | none => Except.ok (1, csm)
        | some children => countChildren cm fuel (1, csm) children) with
      | .error e => .error e
      | .ok r =>
        if root.2 = 0 then
          match r.2 root.1 with
          | some _ => .error .assertion
          | none => .ok (r.1, mapSet r.2 root.1 r.1)
        else .ok r := by
  simp only [calculateChildrenCounts, bind, Except.bind, pure, Except.pure, countChildren]
  cases cm root with
  | none => simp only
  | some children =>
    simp only
    split <;> rename_i h1 <;> split <;> rename_i h2 <;> simp_all

theorem countChildren_nil (cm : cloud_map_t) (fuel : Nat) (acc : Nat × cloud_size_map_t) :
    countChildren cm fuel acc [] = .ok acc := rfl

theorem countChildren_cons (cm : cloud_map_t) (fuel : Nat) (acc : Nat × cloud_size_map_t)
    (n : vtbl_t) (rest : cloud_map_children_t) :
    countChildren cm fuel acc (n :: rest) =
      match calculateChildrenCounts cm fuel acc.2 n with
      | .ok c => countChildren cm fuel (acc.1 + c.1, c.2) rest
      | .error e => .error e := by
  simp only [countChildren, List.foldlM_cons, bind, Except.bind, pure, Except.pure]
  cases calculateChildrenCounts cm fuel acc.2 n <;> rfl

theorem countChildren_spec (cm : cloud_map_t) (fuel : Nat)
    (ih : ∀ (x : vtbl_t) (Q : order_t) (csm : cloud_size_map_t), preorder cm fuel x = .ok Q →
      Q.Nodup → (∀ c, (c, 0) ∈ Q → csm c = none) →
      ∃ csm', calculateChildrenCounts cm fuel csm x = .ok (Q.length, csm') ∧
        (∀ c, (c, 0) ∉ Q → csm' c = csm c) ∧
        (∀ c, (c, 0) ∈ Q → ∃ Qc, preorder cm fuel (c, 0) = .ok Qc ∧ csm' c = some Qc.length)) :
    ∀ (children : cloud_map_children_t) (L : order_t) (acc : Nat × cloud_size_map_t),
      preorderChildren cm fuel [] children = .ok L → L.Nodup →
      (∀ c, (c, 0) ∈ L → acc.2 c = none) →
      ∃ csm', countChildren cm fuel acc children = .ok (acc.1 + L.length, csm') ∧
        (∀ c, (c, 0) ∉ L → csm' c = acc.2 c) ∧
        (∀ c, (c, 0) ∈ L → ∃ Qc, preorder cm fuel (c, 0) = .ok Qc ∧ csm' c = some Qc.length) := by
  intro children
  induction children with
  | nil =>
    intro L acc h _ _
    simp only [preorderChildren_nil, Except.ok.injEq] at h
    subst h
    exact ⟨acc.2, by simp [countChildren_nil], fun _ _ => rfl,
      fun c hc => absurd hc (List.not_mem_nil _)⟩
  | cons n rest ihc =>
    intro L acc h hnd hfresh
    obtain ⟨Q, L2, hq, hl, rfl⟩ := preorderChildren_cons_inv cm fuel n rest L h
    obtain ⟨hndQ, hndL, hdisj⟩ := List.nodup_append.1 hnd
    obtain ⟨csm1, h1, h1out, h1in⟩ := ih n Q acc.2 hq hndQ
      (fun c hc => hfresh c (List.mem_append_left _ hc))
    obtain ⟨csm2, h2, h2out, h2in⟩ := ihc L2 (acc.1 + Q.length, csm1) hl hndL
      (fun c hc => by
        have hnq : (c, 0) ∉ Q := fun hcq => hdisj hcq hc
        show csm1 c = none
        rw [h1out c hnq]
        exact hfresh c (List.mem_append_right _ hc))
    refine ⟨csm2, ?_, ?_, ?_⟩
    · rw [countChildren_cons, h1]
      simp only
      rw [h2, List.length_append, Nat.add_assoc]
    · intro c hc
      have hcq : (c, 0) ∉ Q := fun h => hc (List.mem_append_left _ h)
      have hcl : (c, 0) ∉ L2 := fun h => hc (List.mem_append_right _ h)
      rw [h2out c hcl]
      exact h1out c hcq
    · intro c hc
      by_cases hcl : (c, 0) ∈ L2
      · exact h2in c hcl
      · have hcq : (c, 0) ∈ Q := by
          rcases List.mem_append.1 hc with h | h
          · exact h
          · exact absurd h hcl
        obtain ⟨Qc, hQc, e⟩ := h1in c hcq
        exact ⟨Qc, hQc, by rw [h2out c hcl]; exact e⟩

/-- On a tree, `calculateChildrenCounts` returns the number of nodes of the
traversal and records, for every primary subvtable of the traversal, the
number of nodes of its own traversal; the assertion does not fire when none of
these classes has a size yet. -/
theorem calculateChildrenCounts_spec (cm : cloud_map_t) :
    ∀ (fuel : Nat) (x : vtbl_t) (Q : order_t) (csm : cloud_size_map_t),
      preorder cm fuel x = .ok Q → Q.Nodup → (∀ c, (c, 0) ∈ Q → csm c = none) →
      ∃ csm', calculateChildrenCounts cm fuel csm x = .ok (Q.length, csm') ∧
        (∀ c, (c, 0) ∉ Q → csm' c = csm c) ∧
        (∀ c, (c, 0) ∈ Q → ∃ Qc, preorder cm fuel (c, 0) = .ok Qc ∧ csm' c = some Qc.length) := by
  intro fuel
  induction fuel with
  | zero => intro x Q csm h; simp [preorder, preorderHelper] at h
  | succ fuel ih =>
    intro x Q csm h hnd hfresh
    have hxeta : x = (x.1, x.2) := rfl
    rcases preorder_succ_inv cm fuel x Q h with ⟨hcm, hq⟩ | ⟨children, L, hcm, hl, hq⟩
    · subst hq
      by_cases hx : x.2 = 0
      · have hx0 : (x.1, 0) = x := by rw [← hx]
        have hnone : csm x.1 = none := hfresh x.1 (by rw [hx0]; exact List.mem_singleton_self _)
        refine ⟨mapSet csm x.1 1, ?_, ?_, ?_⟩
        · rw [calculateChildrenCounts_succ, hcm]
          simp only [hx, if_true, hnone]
          rfl
        · intro c hc
          have hne : c ≠ x.1 := fun e => hc (by rw [e, hx0]; exact List.mem_singleton_self _)
          simp [mapSet, hne]
        · intro c hc
          have hcx : (c, 0) = x := List.mem_singleton.1 hc
          have hc1 : c = x.1 := by rw [← hcx]
          refine ⟨[x], by rw [hcx]; exact h, ?_⟩
          simp [mapSet, hc1]
      · refine ⟨csm, ?_, fun _ _ => rfl, ?_⟩
        · rw [calculateChildrenCounts_succ, hcm]
          simp only [hx, if_false]
          rfl
        · intro c hc
          have hcx : (c, 0) = x := List.mem_singleton.1 hc
          exact absurd (by rw [← hcx]) hx
    · subst hq
      obtain ⟨hxL, hndL⟩ := List.nodup_cons.1 hnd
      obtain ⟨csm1, h1, h1out, h1in⟩ := countChildren_spec cm fuel ih children L (1, csm) hl hndL
        (fun c hc => hfresh c (List.mem_cons_of_mem _ hc))
      have hlift : ∀ c, (c, 0) ∈ L →
          ∃ Qc, preorder cm (fuel + 1) (c, 0) = .ok Qc ∧ csm1 c = some Qc.length := by
        intro c hc
        obtain ⟨Qc, hQc, e⟩ := h1in c hc
        exact ⟨Qc, preorder_mono_succ cm fuel (c, 0) Qc hQc, e⟩
      by_cases hx : x.2 = 0
      · have hx0 : (x.1, 0) = x := by rw [← hx]
        have hnone : csm1 x.1 = none := by
          rw [h1out x.1 (by rw [hx0]; exact hxL)]
          exact hfresh x.1 (by rw [hx0]; exact List.mem_cons_self _ _)
        refine ⟨mapSet csm1 x.1 (1 + L.length), ?_, ?_, ?_⟩
        · rw [calculateChildrenCounts_succ, hcm]
          simp only [h1, hx, if_true, hnone, List.length_cons]
          rw [Nat.add_comm]
        · intro c hc
          have hne : c ≠ x.1 := fun e => hc (by rw [e, hx0]; exact List.mem_cons_self _ _)
          have hcl : (c, 0) ∉ L := fun h => hc (List.mem_cons_of_mem _ h)
          simp only [mapSet, hne, if_false]
          exact h1out c hcl
        · intro c hc
          rcases List.mem_cons.1 hc with hcx | hcl
          · have hc1 : c = x.1 := by rw [← hcx]
            refine ⟨x :: L, by rw [hcx]; exact h, ?_⟩
            simp [mapSet, hc1, Nat.add_comm]
          · have hne : c ≠ x.1 := fun e => hxL (by rw [← hx0, ← e]; exact hcl)
            obtain ⟨Qc, hQc, e⟩ := hlift c hcl
            exact ⟨Qc, hQc, by simp only [mapSet, hne, if_false]; exact e⟩
      · refine ⟨csm1, ?_, ?_, ?_⟩
        · rw [calculateChildrenCounts_succ, hcm]
          simp only [h1, hx, if_false, List.length_cons]
          rw [Nat.add_comm]
        · intro c hc
          exact h1out c (fun h => hc (List.mem_cons_of_mem _ h))
        · intro c hc
          rcases List.mem_cons.1 hc with hcx | hcl
          · exact absurd (by rw [← hcx]) hx
          · exact hlift c hcl

/-! ## calculateNewLayoutInds -/

theorem layoutIndsLoop_snd (vtbl : vtbl_name_t) (v : vtbl_t) :
    ∀ (l : interleaving_list_t) (c : Nat) (anc : ancestor_map_t) (nli : new_layout_inds_t),
      (layoutIndsLoop vtbl l c (anc, nli)).2 v =
        if positionsOf v l c = [] then nli v
        else some ((nli v).getD [] ++ positionsOf v l c) := by
  intro l
  induction l with
  | nil => intro c anc nli; simp [layoutIndsLoop, positionsOf]
  | cons x rest ih =>
    intro c anc nli
    rw [layoutIndsLoop, ih]
    by_cases hx : x.1 = v
    · subst hx
      simp only [positionsOf, if_true, mapSet]
      by_cases hp : positionsOf x.1 rest (c + 1) = []
      · simp [hp]
      · simp [hp]
    · have hx2 : v ≠ x.1 := fun e => hx e.symm
      simp only [positionsOf, hx, if_false, mapSet, hx2]

theorem positionsOf_get (v : vtbl_t) :
    ∀ (l : interleaving_list_t) (c j p : Nat), (positionsOf v l c).get? j = some p →
      c ≤ p ∧ ∃ i, (slotsOf v l).get? j = some i ∧ l.get? (p - c) = some (v, i) := by
  intro l
  induction l with
  | nil => intro c j p h; simp [positionsOf] at h
  | cons x rest ih =>
    intro c j p h
    obtain ⟨w, k⟩ := x
    by_cases hx : w = v
    · subst hx
      simp only [positionsOf, if_true] at h
      cases j with
      | zero =>
        simp only [List.get?_cons_zero, Option.some.injEq] at h
        subst h
        exact ⟨le_refl _, k, by simp [slotsOf], by simp⟩
      | succ j =>
        simp only [List.get?_cons_succ] at h
        obtain ⟨hle, i, h1, h2⟩ := ih (c + 1) j p h
        refine ⟨by omega, i, by simpa [slotsOf] using h1, ?_⟩
        obtain ⟨q, hq⟩ : ∃ q, p - c = q + 1 := ⟨p - c - 1, by omega⟩
        rw [hq, List.get?_cons_succ]
        have : p - (c + 1) = q := by omega
        rw [← this]; exact h2
    · simp only [positionsOf, hx, if_false] at h
      obtain ⟨hle, i, h1, h2⟩ := ih (c + 1) j p h
      refine ⟨by omega, i, by simpa [slotsOf, hx] using h1, ?_⟩
      obtain ⟨q, hq⟩ : ∃ q, p - c = q + 1 := ⟨p - c - 1, by omega⟩
      rw [hq, List.get?_cons_succ]
      have : p - (c + 1) = q := by omega
      rw [← this]; exact h2

theorem length_positionsOf (v : vtbl_t) :
    ∀ (l : interleaving_list_t) (c : Nat), (positionsOf v l c).length = (slotsOf v l).length := by
  intro l
  induction l with
  | nil => intro c; simp [positionsOf, slotsOf]
  | cons x rest ih =>
    intro c
    have := ih (c + 1)
    by_cases hx : x.1 = v
    · simp only [positionsOf, hx, if_true, List.length_cons, this]
      simp [slotsOf, hx]
    · simp only [positionsOf, hx, if_false, this]
      simp [slotsOf, hx]

theorem positionsOf_ge (v : vtbl_t) :
    ∀ (l : interleaving_list_t) (c j p : Nat), (positionsOf v l c).get? j = some p →
      c + j ≤ p := by
  intro l
  induction l with
  | nil => intro c j p h; simp [positionsOf] at h
  | cons x rest ih =>
    intro c j p h
    by_cases hx : x.1 = v
    · simp only [positionsOf, hx, if_true] at h
      cases j with
      | zero =>
        simp only [List.get?_cons_zero, Option.some.injEq] at h
        omega
      | succ j =>
        rw [List.get?_cons_succ] at h
        have := ih (c + 1) j p h
        omega
    · simp only [positionsOf, hx, if_false] at h
      have := ih (c + 1) j p h
      omega

/-- The positions of the elements of one member grow by at least one from an
element to the next. -/
theorem positionsOf_growth (v : vtbl_t) :
    ∀ (l : interleaving_list_t) (c j m p q : Nat), (positionsOf v l c).get? j = some p →
      (positionsOf v l c).get? (j + m) = some q → p + m ≤ q := by
  intro l
  induction l with
  | nil => intro c j m p q h; simp [positionsOf] at h
  | cons x rest ih =>
    intro c j m p q h1 h2
    by_cases hx : x.1 = v
    · simp only [positionsOf, hx, if_true] at h1 h2
      cases j with
      | zero =>
        simp only [List.get?_cons_zero, Option.some.injEq] at h1
        subst h1
        cases m with
        | zero =>
          simp only [Nat.add_zero, List.get?_cons_zero, Option.some.injEq] at h2
          omega
        | succ m =>
          rw [Nat.zero_add, List.get?_cons_succ] at h2
          have := positionsOf_ge v rest (c + 1) m q h2
          omega
      | succ j =>
        rw [Nat.add_right_comm, List.get?_cons_succ] at h2
        rw [List.get?_cons_succ] at h1
        exact ih (c + 1) j m p q h1 h2
    · simp only [positionsOf, hx, if_false] at h1 h2
      exact ih (c + 1) j m p q h1 h2

theorem positionsOf_of_all (v : vtbl_t) :
    ∀ (l : interleaving_list_t) (c : Nat), (∀ x ∈ l, x.1 = v) →
      positionsOf v l c = List.range' c l.length := by
  intro l
  induction l with
  | nil => intro c _; simp [positionsOf]
  | cons x rest ih =>
    intro c h
    have hx : x.1 = v := h x (List.mem_cons_self _ _)
    simp only [positionsOf, hx, if_true, List.length_cons, List.range'_succ]
    rw [ih (c + 1) (fun y hy => h y (List.mem_cons_of_mem _ hy))]

/-! ## One root of interleaveClouds -/

theorem interleaveRoot_spec (st : SDModule) (fuel : Nat) (r : vtbl_name_t) (P : order_t)
    (hroot : r ∈ st.roots) (hpre : preorder st.cloudMap fuel (r, 0) = .ok P) (hnd : P.Nodup)
    (hd : ∀ v ∈ P, hasLayoutData st v) (hb : ∀ v ∈ P, fitsInt64 st v)
    (hsize : ∀ c, (c, 0) ∈ P → st.cloudSizeMap c = none) :
    ∃ st', interleaveRoot st fuel r = .ok st' ∧
      st'.cloudMap = st.cloudMap ∧ st'.addrPtMap = st.addrPtMap ∧ st'.rangeMap = st.rangeMap ∧
      st'.interleavingMap r = some (mergedRef st P) ∧
      (∀ v, st'.newLayoutInds v =
        if positionsOf v (mergedRef st P) 0 = [] then st.newLayoutInds v
        else some ((st.newLayoutInds v).getD [] ++ positionsOf v (mergedRef st P) 0)) ∧
      (∀ c, (c, 0) ∈ P →
        ∃ Qc, preorder st.cloudMap fuel (c, 0) = .ok Qc ∧ st'.cloudSizeMap c = some Qc.length) := by
  obtain ⟨csm, hc, _, hcin⟩ :=
    calculateChildrenCounts_spec st.cloudMap fuel (r, 0) P st.cloudSizeMap hpre hnd hsize
  refine ⟨{ st with
      interleavingMap := mapSet st.interleavingMap r (mergedRef st P)
      ancestorMap := (layoutIndsLoop r (mergedRef st P) 0 (st.ancestorMap, st.newLayoutInds)).1
      newLayoutInds := (layoutIndsLoop r (mergedRef st P) 0 (st.ancestorMap, st.newLayoutInds)).2
      cloudSizeMap := csm }, ?_, rfl, rfl, rfl, ?_, ?_, hcin⟩
  · simp only [interleaveRoot, interleaveCloud_eq st fuel r P hroot hpre hnd hd hb, bind,
      Except.bind, calculateNewLayoutInds, mapSet, if_true, hc, pure, Except.pure]
  · simp [mapSet]
  · intro v
    exact layoutIndsLoop_snd r v (mergedRef st P) 0 st.ancestorMap st.newLayoutInds

theorem addressPoint_congr (st st' : SDModule) (h : st'.addrPtMap = st.addrPtMap) (v : vtbl_t) :
    addressPoint st' v = addressPoint st v := by
  simp [addressPoint, h]

theorem rangeStart_congr (st st' : SDModule) (h : st'.rangeMap = st.rangeMap) (v : vtbl_t) :
    rangeStart st' v = rangeStart st v := by
  simp [rangeStart, h]

theorem rangeEnd_congr (st st' : SDModule) (h : st'.rangeMap = st.rangeMap) (v : vtbl_t) :
    rangeEnd st' v = rangeEnd st v := by
  simp [rangeEnd, h]

theorem hasLayoutData_congr (st st' : SDModule) (h1 : st'.addrPtMap = st.addrPtMap)
    (h2 : st'.rangeMap = st.rangeMap) (v : vtbl_t) (h : hasLayoutData st v) :
    hasLayoutData st' v := by
  simpa [hasLayoutData, h1, h2] using h

/-! ## oldIndexToNew2 -/

theorem vecAt_eq_ok_getD {α : Type} (l : List α) (i : Nat) (a d : α) (h : vecAt l i = .ok a) :
    i < l.length ∧ l.getD i d = a := by
  rw [vecAt_eq_ok_iff, List.get?_eq_getElem?, List.getElem?_eq_some_iff] at h
  obtain ⟨hlt, e⟩ := h
  exact ⟨hlt, by rw [List.getD_eq_getElem _ d hlt, e]⟩

theorem rangeMap_nonempty_of_lt (st : SDModule) (v : vtbl_t)
    (h : v.2 < ((st.rangeMap v.1).getD []).length) :
    ∃ ranges, st.rangeMap v.1 = some ranges ∧ ¬ ranges.length = 0 := by
  cases hr : st.rangeMap v.1 with
  | none => rw [hr] at h; simp at h
  | some ranges =>
    rw [hr] at h
    simp only [Option.getD_some] at h
    exact ⟨ranges, rfl, by omega⟩

theorem rangeAt_of_lt (st : SDModule) (v : vtbl_t)
    (h : v.2 < ((st.rangeMap v.1).getD []).length) :
    rangeAt st.rangeMap v = .ok (rangeStart st v, rangeEnd st v) := by
  have := vecAt_of_lt ((st.rangeMap v.1).getD []) v.2 (0, 0) h
  simpa [rangeAt, rangeStart, rangeEnd] using this

/-- The absolute query returns the entry of the layout list at `offset`. -/
theorem oldIndexToNew2_abs_ok (st : SDModule) (v : vtbl_t) (off : Int) (newInds : List Nat)
    (a : Nat) (hn : st.newLayoutInds v = some newInds)
    (hr : v.2 < ((st.rangeMap v.1).getD []).length) (h0 : 0 ≤ off)
    (he : off.toNat ≤ rangeEnd st v) (ha : newInds.get? off.toNat = some a) :
    oldIndexToNew2 st v off false = .ok (a : Int) := by
  obtain ⟨ranges, hranges, hne⟩ := rangeMap_nonempty_of_lt st v hr
  have hva : vecAt newInds off.toNat = .ok a := (vecAt_eq_ok_iff _ _ _).2 ha
  simp only [oldIndexToNew2, hn, hranges, hne, if_false, Bool.false_eq_true, h0, if_true,
    rangeAt_of_lt st v hr, bind, Except.bind, he, hva, pure, Except.pure]

/-- The relative query returns the difference of the entries of the layout list
at `addressPoint + offset` and at `addressPoint`. -/
theorem oldIndexToNew2_rel_ok (st : SDModule) (v : vtbl_t) (k : Int) (newInds : List Nat)
    (a b : Nat) (hn : st.newLayoutInds v = some newInds) (hd : hasLayoutData st v)
    (h0 : 0 ≤ (addressPoint st v : Int) + k)
    (he : ((addressPoint st v : Int) + k).toNat ≤ rangeEnd st v)
    (ha : newInds.get? ((addressPoint st v : Int) + k).toNat = some a)
    (hb : newInds.get? (addressPoint st v) = some b) :
    oldIndexToNew2 st v k true = .ok ((a : Int) - (b : Int)) := by
  obtain ⟨ranges, hranges, hne⟩ := rangeMap_nonempty_of_lt st v hd.2
  have hva : vecAt newInds ((addressPoint st v : Int) + k).toNat = .ok a :=
    (vecAt_eq_ok_iff _ _ _).2 ha
  have hvb : vecAt newInds (addressPoint st v) = .ok b := (vecAt_eq_ok_iff _ _ _).2 hb
  have hk : k ≥ 0 ∨ (addressPoint st v : Int) ≥ -k := by omega
  simp only [oldIndexToNew2, hn, hranges, hne, if_false, if_true,
    addrPtAt_of_hasLayoutData st v hd, rangeAt_of_hasLayoutData st v hd, bind, Except.bind,
    hk, h0, he, hva, hvb, pure, Except.pure]

theorem oldIndexToNew2_abs_inv (st : SDModule) (v : vtbl_t) (off x : Int)
    (h : oldIndexToNew2 st v off false = .ok x) :
    ∃ (newInds : List Nat) (a : Nat), st.newLayoutInds v = some newInds ∧
      v.2 < ((st.rangeMap v.1).getD []).length ∧ 0 ≤ off ∧ off.toNat ≤ rangeEnd st v ∧
      newInds.get? off.toNat = some a ∧ x = (a : Int) := by
  unfold oldIndexToNew2 at h
  cases hn : st.newLayoutInds v with
  | none => rw [hn] at h; simp at h
  | some newInds =>
    rw [hn] at h
    cases hr : st.rangeMap v.1 with
    | none => rw [hr] at h; simp at h
    | some ranges =>
      rw [hr] at h
      simp only [Bool.false_eq_true, if_false] at h
      by_cases hl : ranges.length = 0
      · simp [hl] at h
      · simp only [hl, if_false] at h
        by_cases h0 : 0 ≤ off
        · simp only [h0, if_true, bind, Except.bind] at h
          cases hra : rangeAt st.rangeMap v with
          | error e => rw [hra] at h; simp at h
          | ok range =>
            rw [hra] at h
            simp only at h
            obtain ⟨hlt, hrange⟩ := vecAt_eq_ok_getD _ _ _ (0, 0) hra
            by_cases he : off.toNat ≤ range.2
            · simp only [he, if_true] at h
              cases hva : vecAt newInds off.toNat with
              | error e => rw [hva] at h; simp at h
              | ok a =>
                rw [hva] at h
                simp only [pure, Except.pure, Except.ok.injEq] at h
                refine ⟨newInds, a, rfl, by rw [hr] at hlt; exact hlt, h0, ?_,
                  (vecAt_eq_ok_iff _ _ _).1 hva, h.symm⟩
                rw [rangeEnd, hrange]; exact he
            · simp [he] at h
        · simp [h0] at h

theorem oldIndexToNew2_rel_inv (st : SDModule) (v : vtbl_t) (k x : Int)
    (h : oldIndexToNew2 st v k true = .ok x) :
    ∃ (newInds : List Nat) (a b : Nat), st.newLayoutInds v = some newInds ∧
      hasLayoutData st v ∧ (k ≥ 0 ∨ (addressPoint st v : Int) ≥ -k) ∧
      0 ≤ (addressPoint st v : Int) + k ∧
      ((addressPoint st v : Int) + k).toNat ≤ rangeEnd st v ∧
      newInds.get? ((addressPoint st v : Int) + k).toNat = some a ∧
      newInds.get? (addressPoint st v) = some b ∧ x = (a : Int) - (b : Int) := by
  unfold oldIndexToNew2 at h
  cases hn : st.newLayoutInds v with
  | none => rw [hn] at h; simp at h
  | some newInds =>
    rw [hn] at h
    cases hr : st.rangeMap v.1 with
    | none => rw [hr] at h; simp at h
    | some ranges =>
      rw [hr] at h
      simp only [if_true] at h
      by_cases hl : ranges.length = 0
      · simp [hl] at h
      · simp only [hl, if_false, bind, Except.bind] at h
        cases hap : addrPtAt st.addrPtMap v with
        | error e => rw [hap] at h; simp at h
        | ok ap =>
          rw [hap] at h
          simp only at h
          obtain ⟨hlt1, hapv⟩ := vecAt_eq_ok_getD _ _ _ 0 hap
          have hapv' : addressPoint st v = ap := hapv
          by_cases hk : k ≥ 0 ∨ (ap : Int) ≥ -k
          · simp only [hk, if_true] at h
            by_cases h0 : 0 ≤ (ap : Int) + k
            · simp only [h0, if_true] at h
              cases hra : rangeAt st.rangeMap v with
              | error e => rw [hra] at h; simp at h
              | ok range =>
                rw [hra] at h
                simp only at h
                obtain ⟨hlt2, hrange⟩ := vecAt_eq_ok_getD _ _ _ (0, 0) hra
                by_cases he : ((ap : Int) + k).toNat ≤ range.2
                · simp only [he, if_true] at h
                  cases hva : vecAt newInds ((ap : Int) + k).toNat with
                  | error e => rw [hva] at h; simp at h
                  | ok a =>
                    rw [hva] at h
                    simp only at h
                    cases hvb : vecAt newInds ap with
                    | error e => rw [hvb] at h; simp at h
                    | ok b =>
                      rw [hvb] at h
                      simp only [pure, Except.pure, Except.ok.injEq] at h
                      rw [hapv']
                      refine ⟨newInds, a, b, rfl, ⟨hlt1, hlt2⟩, hk, h0, ?_,
                        (vecAt_eq_ok_iff _ _ _).1 hva, (vecAt_eq_ok_iff _ _ _).1 hvb, h.symm⟩
                      rw [rangeEnd, hrange]; exact he
                · simp [he] at h
            · simp [h0] at h
          · simp [hk] at h

/-! ## The merged sequence is a partition of the slots (C1, C2, C3) -/

theorem count_range' (s n i : Nat) :
    (List.range' s n).count i = if s ≤ i ∧ i < s + n then 1 else 0 := by
  rw [List.count_eq_of_nodup (List.nodup_range' s n)]
  simp [List.mem_range'_1]

theorem count_mergedRef (st : SDModule) (P : order_t) (htree : P.Nodup)
    (hrange : ∀ v ∈ P, inRange st v) (v : vtbl_t) (i : Nat) :
    (mergedRef st P).count (v, i) =
      if v ∈ P ∧ rangeStart st v ≤ i ∧ i ≤ rangeEnd st v then 1 else 0 := by
  rw [count_eq_count_slotsOf]
  by_cases hv : v ∈ P
  · obtain ⟨_, h1, h2⟩ := hrange v hv
    rw [slotsOf_mergedRef_inRange st P htree v hv (hrange v hv), count_range']
    by_cases hi : rangeStart st v ≤ i ∧ i ≤ rangeEnd st v
    · rw [if_pos ⟨hi.1, by omega⟩, if_pos ⟨hv, hi⟩]
    · rw [if_neg (fun h => hi ⟨h.1, by omega⟩), if_neg (fun h => hi h.2)]
  · rw [slotsOf_mergedRef_of_not_mem st P v hv, if_neg (fun h => hv h.1)]
    rfl

theorem nodup_of_slotsOf :
    ∀ (l : interleaving_list_t), (∀ v, (slotsOf v l).Nodup) → l.Nodup := by
  intro l
  induction l with
  | nil => intro _; exact List.nodup_nil
  | cons x rest ih =>
    intro h
    obtain ⟨w, k⟩ := x
    have hw := h w
    simp only [slotsOf, List.filter_cons, decide_True, if_true, List.map_cons,
      List.nodup_cons] at hw
    refine List.nodup_cons.2 ⟨?_, ih (fun v => ?_)⟩
    · intro hmem
      apply hw.1
      simp only [List.mem_map, List.mem_filter, decide_eq_true_eq]
      exact ⟨(w, k), ⟨hmem, rfl⟩, rfl⟩
    · have hv := h v
      by_cases e : w = v
      · simp only [slotsOf, List.filter_cons, e, decide_True, if_true, List.map_cons,
          List.nodup_cons] at hv
        exact hv.2
      · simp only [slotsOf, List.filter_cons, e, decide_False] at hv
        exact hv

theorem mergedRef_nodup (st : SDModule) (P : order_t) (htree : P.Nodup)
    (hrange : ∀ v ∈ P, inRange st v) : (mergedRef st P).Nodup := by
  apply nodup_of_slotsOf
  intro v
  by_cases hv : v ∈ P
  · rw [slotsOf_mergedRef_inRange st P htree v hv (hrange v hv)]
    exact List.nodup_range' _ _
  · rw [slotsOf_mergedRef_of_not_mem st P v hv]
    exact List.nodup_nil

theorem get?_inj_of_nodup {α : Type} (l : List α) (h : l.Nodup) (i j : Nat) (x : α)
    (hi : l.get? i = some x) (hj : l.get? j = some x) : i = j := by
  rw [List.get?_eq_getElem?] at hi hj
  exact List.getElem?_inj (List.getElem?_eq_some_iff.1 hi).1 h (hi.trans hj.symm)

/-- C1, as stated, fails when the end of a range is not an `int64_t` value
that a position can step past. In `wideRangeUnit` the root `R` has range
`[0, 2^63]` and address point 0, so `start ≤ addressPoint ≤ end`;
`fillVtablePart` holds the range end as the `int64_t` value `-2^63`, no
position passes its check, and the merged sequence of `R` is empty: the slot
`(R, 0)` does not occur in it. In `lastIndexUnit` (range and address point
`2^63 - 1`) the round loop of the positive direction does not end, and
`interleaveCloud` stores no sequence at all. -/
theorem interleaveCloud_partition_counterexample :
    ("R" ∈ wideRangeUnit.roots ∧
      preorder wideRangeUnit.cloudMap 2 ("R", 0) = .ok [("R", 0)] ∧
      [(("R", 0) : vtbl_t)].Nodup ∧
      (∀ v ∈ [(("R", 0) : vtbl_t)], inRange wideRangeUnit v) ∧
      (interleaveCloud wideRangeUnit 2 "R").map (fun s => s.interleavingMap "R")
        = .ok (some []) ∧
      rangeStart wideRangeUnit ("R", 0) ≤ 0 ∧ 0 ≤ rangeEnd wideRangeUnit ("R", 0) ∧
      ([] : interleaving_list_t).count (("R", 0), 0) = 0) ∧
    ("R" ∈ lastIndexUnit.roots ∧
      preorder lastIndexUnit.cloudMap 2 ("R", 0) = .ok [("R", 0)] ∧
      (∀ v ∈ [(("R", 0) : vtbl_t)], inRange lastIndexUnit v) ∧
      (interleaveCloud lastIndexUnit 2 "R").map (fun s => s.interleavingMap "R")
        = .error .outOfFuel) := by
  decide

/-- C1, amended. For a root `r` whose cloud is a tree (its preorder `P` lists
no subvtable twice) and whose members all have
`start ≤ addressPoint ≤ end < 2^63 - 1`, `interleaveCloud r` succeeds and the
merged sequence it stores is a partition of the members' slots: the pair
`(v, i)` occurs exactly once when `v` is a member and `start v ≤ i ≤ end v`,
and does not occur otherwise. -/
theorem interleaveCloud_partition (st : SDModule) (fuel : Nat) (r : vtbl_name_t) (P : order_t)
    (hroot : r ∈ st.roots) (hpre : preorder st.cloudMap fuel (r, 0) = .ok P)
    (htree : P.Nodup) (hrange : ∀ v ∈ P, inRange st v)
    (hend : ∀ v ∈ P, rangeEnd st v + 1 < 2 ^ 63) :
    ∃ merged, (interleaveCloud st fuel r).map (fun s => s.interleavingMap r) = .ok (some merged) ∧
      ∀ (v : vtbl_t) (i : Nat), merged.count (v, i) =
        if v ∈ P ∧ rangeStart st v ≤ i ∧ i ≤ rangeEnd st v then 1 else 0 := by
  refine ⟨mergedRef st P, ?_, count_mergedRef st P htree hrange⟩
  rw [interleaveCloud_eq st fuel r P hroot hpre htree (fun v hv => (hrange v hv).1)
    (fun v hv => fitsInt64_of_inRange st v (hrange v hv) (hend v hv))]
  simp [Except.map, mapSet]

theorem interleaveCloud_partition_witness :
    ("R" ∈ scenarioA.roots ∧
      preorder scenarioA.cloudMap 2 ("R", 0) = .ok [("R", 0), ("C", 0)] ∧
      [(("R", 0) : vtbl_t), ("C", 0)].Nodup ∧
      (∀ v ∈ [(("R", 0) : vtbl_t), ("C", 0)], inRange scenarioA v) ∧
      ∀ v ∈ [(("R", 0) : vtbl_t), ("C", 0)], rangeEnd scenarioA v + 1 < 2 ^ 63) ∧
    ∃ merged, (interleaveCloud scenarioA 2 "R").map (fun s => s.interleavingMap "R")
        = .ok (some merged) ∧
      ∀ (v : vtbl_t) (i : Nat), merged.count (v, i) =
        if v ∈ [(("R", 0) : vtbl_t), ("C", 0)] ∧ rangeStart scenarioA v ≤ i ∧
          i ≤ rangeEnd scenarioA v then 1 else 0 :=
  ⟨⟨by decide, by decide, by decide, by decide, by decide⟩,
    interleaveCloud_partition scenarioA 2 "R" [("R", 0), ("C", 0)]
      (by decide) (by decide) (by decide) (by decide) (by decide)⟩

/-- C2, as stated, fails. In `outOfRangeUnit` (range `[0,0]`, address point 2)
the merged sequence of `R` has the two elements `R@0, R@1` while
`end - start + 1 = 1`; in `diamondUnit` the preorder of `A` lists `D` twice, the
merged sequence has 3 elements and the sum over the preorder is 4; in
`wideRangeUnit` (range `[0, 2^63]`, address point 0) the range end is held as
the `int64_t` value `-2^63`, the merged sequence of `R` is empty, and
`end - start + 1 = 2^63 + 1`; in `lastIndexUnit` (range and address point
`2^63 - 1`) the round loop of the positive direction does not end, and
`interleaveCloud` stores no sequence at all. -/
theorem interleaveCloud_length_counterexample :
    (preorder outOfRangeUnit.cloudMap 2 ("R", 0) = .ok [("R", 0)] ∧
      (interleaveCloud outOfRangeUnit 2 "R").map (fun s => s.interleavingMap "R")
        = .ok (some [(("R", 0), 0), (("R", 0), 1)]) ∧
      ([(("R", 0) : vtbl_t)].map
        (fun v => rangeEnd outOfRangeUnit v + 1 - rangeStart outOfRangeUnit v)).sum = 1) ∧
    (preorder diamondUnit.cloudMap 3 ("A", 0) = .ok [("A", 0), ("B", 0), ("D", 0), ("D", 0)] ∧
      (interleaveCloud diamondUnit 3 "A").map (fun s => s.interleavingMap "A")
        = .ok (some [(("A", 0), 0), (("B", 0), 0), (("D", 0), 0)]) ∧
      ([(("A", 0) : vtbl_t), ("B", 0), ("D", 0), ("D", 0)].map
        (fun v => rangeEnd diamondUnit v + 1 - rangeStart diamondUnit v)).sum = 4) ∧
    (preorder wideRangeUnit.cloudMap 2 ("R", 0) = .ok [("R", 0)] ∧
      (interleaveCloud wideRangeUnit 2 "R").map (fun s => s.interleavingMap "R")
        = .ok (some []) ∧
      ([(("R", 0) : vtbl_t)].map
        (fun v => rangeEnd wideRangeUnit v + 1 - rangeStart wideRangeUnit v)).sum = 2 ^ 63 + 1) ∧
    (preorder lastIndexUnit.cloudMap 2 ("R", 0) = .ok [("R", 0)] ∧
      (∀ v ∈ [(("R", 0) : vtbl_t)], inRange lastIndexUnit v) ∧
      (interleaveCloud lastIndexUnit 2 "R").map (fun s => s.interleavingMap "R")
        = .error .outOfFuel) := by
  exact ⟨by decide, by decide, by decide, by decide⟩

/-- C2, amended. For a root `r` whose cloud is a tree and whose members all
have their table entries, `start ≤ addressPoint ≤ end + 1` (in particular
when `start ≤ addressPoint ≤ end`) and `end < 2^63 - 1`, `interleaveCloud r`
succeeds and the length of the merged sequence is the sum over the members of
`end - start + 1` (written `end + 1 - start`, the same number without a
negative intermediate value). -/
theorem interleaveCloud_length (st : SDModule) (fuel : Nat) (r : vtbl_name_t) (P : order_t)
    (hroot : r ∈ st.roots) (hpre : preorder st.cloudMap fuel (r, 0) = .ok P)
    (htree : P.Nodup)
    (hrange : ∀ v ∈ P, hasLayoutData st v ∧ rangeStart st v ≤ addressPoint st v ∧
      addressPoint st v ≤ rangeEnd st v + 1)
    (hend : ∀ v ∈ P, rangeEnd st v + 1 < 2 ^ 63) :
    ∃ merged, (interleaveCloud st fuel r).map (fun s => s.interleavingMap r) = .ok (some merged) ∧
      merged.length = (P.map (fun v => rangeEnd st v + 1 - rangeStart st v)).sum := by
  refine ⟨mergedRef st P, ?_, length_mergedRef st P (fun v hv => (hrange v hv).2)⟩
  rw [interleaveCloud_eq st fuel r P hroot hpre htree (fun v hv => (hrange v hv).1)
    (fun v hv => fitsInt64_of_end st v (hrange v hv).2.1 (hrange v hv).2.2 (hend v hv))]
  simp [Except.map, mapSet]

theorem interleaveCloud_length_witness :
    ("R" ∈ metadataOnlyUnit.roots ∧
      preorder metadataOnlyUnit.cloudMap 2 ("R", 0) = .ok [("R", 0)] ∧
      [(("R", 0) : vtbl_t)].Nodup ∧
      (∀ v ∈ [(("R", 0) : vtbl_t)], hasLayoutData metadataOnlyUnit v ∧
        rangeStart metadataOnlyUnit v ≤ addressPoint metadataOnlyUnit v ∧
        addressPoint metadataOnlyUnit v ≤ rangeEnd metadataOnlyUnit v + 1) ∧
      ∀ v ∈ [(("R", 0) : vtbl_t)], rangeEnd metadataOnlyUnit v + 1 < 2 ^ 63) ∧
    ∃ merged, (interleaveCloud metadataOnlyUnit 2 "R").map (fun s => s.interleavingMap "R")
        = .ok (some merged) ∧
      merged.length = ([(("R", 0) : vtbl_t)].map
        (fun v => rangeEnd metadataOnlyUnit v + 1 - rangeStart metadataOnlyUnit v)).sum :=
  ⟨⟨by decide, by decide, by decide, by decide, by decide⟩,
    interleaveCloud_length metadataOnlyUnit 2 "R" [("R", 0)]
      (by decide) (by decide) (by decide) (by decide) (by decide)⟩

/-- C3, as stated, fails when the end of a range is not an `int64_t` value
that a position can step past. In `wideRangeUnit` the root `R` has range
`[0, 2^63]` and address point 0; there is no metadata slot (`N = 0`), and the
merged sequence of `R` is empty, so position `N + 0` does not hold the address
point of `R`. In `lastIndexUnit` (range and address point `2^63 - 1`) the round
loop of the positive direction does not end, and `interleaveCloud` stores no
sequence at all. -/
theorem interleaveCloud_addressPoint_block_counterexample :
    ("R" ∈ wideRangeUnit.roots ∧
      preorder wideRangeUnit.cloudMap 2 ("R", 0) = .ok [("R", 0)] ∧
      [(("R", 0) : vtbl_t)].Nodup ∧
      (∀ v ∈ [(("R", 0) : vtbl_t)], inRange wideRangeUnit v) ∧
      metadataCount wideRangeUnit [("R", 0)] = 0 ∧
      [(("R", 0) : vtbl_t)].get? 0 = some ("R", 0) ∧
      (interleaveCloud wideRangeUnit 2 "R").map
          (fun s => (s.interleavingMap "R").map (fun merged => merged.get? (0 + 0)))
        = .ok (some none)) ∧
    (preorder lastIndexUnit.cloudMap 2 ("R", 0) = .ok [("R", 0)] ∧
      (∀ v ∈ [(("R", 0) : vtbl_t)], inRange lastIndexUnit v) ∧
      (interleaveCloud lastIndexUnit 2 "R").map (fun s => s.interleavingMap "R")
        = .error .outOfFuel) := by
  exact ⟨by decide, by decide⟩

/-- C3, amended. For a root `r` whose cloud is a tree and whose members all
have `start ≤ addressPoint ≤ end < 2^63 - 1`, the address points of the members
occupy one contiguous block of the merged sequence, in preorder order, right
after the `N = Σ (addressPoint - start)` metadata slots: the slot at merged
position `N + k` is `(P[k], addressPoint P[k])` for every `k < |P|`. -/
theorem interleaveCloud_addressPoint_block (st : SDModule) (fuel : Nat) (r : vtbl_name_t)
    (P : order_t) (hroot : r ∈ st.roots) (hpre : preorder st.cloudMap fuel (r, 0) = .ok P)
    (htree : P.Nodup) (hrange : ∀ v ∈ P, inRange st v)
    (hend : ∀ v ∈ P, rangeEnd st v + 1 < 2 ^ 63) :
    ∃ merged, (interleaveCloud st fuel r).map (fun s => s.interleavingMap r) = .ok (some merged) ∧
      ∀ (k : Nat) (v : vtbl_t), P.get? k = some v →
        merged.get? (metadataCount st P + k) = some (v, addressPoint st v) := by
  refine ⟨mergedRef st P, ?_, fun k v hk => mergedRef_addressPoint st P hrange k v hk⟩
  rw [interleaveCloud_eq st fuel r P hroot hpre htree (fun v hv => (hrange v hv).1)
    (fun v hv => fitsInt64_of_inRange st v (hrange v hv) (hend v hv))]
  simp [Except.map, mapSet]

theorem interleaveCloud_addressPoint_block_witness :
    ("R" ∈ scenarioA.roots ∧
      preorder scenarioA.cloudMap 2 ("R", 0) = .ok [("R", 0), ("C", 0)] ∧
      [(("R", 0) : vtbl_t), ("C", 0)].Nodup ∧
      (∀ v ∈ [(("R", 0) : vtbl_t), ("C", 0)], inRange scenarioA v) ∧
      ∀ v ∈ [(("R", 0) : vtbl_t), ("C", 0)], rangeEnd scenarioA v + 1 < 2 ^ 63) ∧
    ∃ merged, (interleaveCloud scenarioA 2 "R").map (fun s => s.interleavingMap "R")
        = .ok (some merged) ∧
      ∀ (k : Nat) (v : vtbl_t), [(("R", 0) : vtbl_t), ("C", 0)].get? k = some v →
        merged.get? (metadataCount scenarioA [("R", 0), ("C", 0)] + k)
          = some (v, addressPoint scenarioA v) :=
  ⟨⟨by decide, by decide, by decide, by decide, by decide⟩,
    interleaveCloud_addressPoint_block scenarioA 2 "R" [("R", 0), ("C", 0)]
      (by decide) (by decide) (by decide) (by decide) (by decide)⟩

/-! ## The cloud size is the width of the block of address points (C4) -/

/-- C4, as stated, fails in two ways. In `wideRangeUnit` the root `R` has range
`[0, 2^63]` and address point 0; the range end is held as the `int64_t` value
`-2^63`, so the merged sequence of `R` is empty while the published size of
`R` is 1: no position holds the address point of `R`. In the unit built from
`duplicateRecords` the cloud of the root `B` is the tree `B, C` with
`start ≤ addressPoint ≤ end` everywhere, but `C` belongs to the cloud of `A`
too and has its size already when `B` is processed: the assertion of
`calculateChildrenCounts` stops the pass, and no size of `B` is published. -/
theorem cloudSize_is_block_width_counterexample :
    ("R" ∈ wideRangeUnit.roots ∧
      preorder wideRangeUnit.cloudMap 2 ("R", 0) = .ok [("R", 0)] ∧
      [(("R", 0) : vtbl_t)].Nodup ∧
      (∀ v ∈ [(("R", 0) : vtbl_t)], inRange wideRangeUnit v) ∧
      (interleaveRoot wideRangeUnit 2 "R").map
          (fun s => (s.cloudSizeMap "R", s.interleavingMap "R")) = .ok (some 1, some [])) ∧
    ("B" ∈ (built allPresent duplicateRecords).roots ∧
      preorder (built allPresent duplicateRecords).cloudMap 2 ("B", 0)
        = .ok [("B", 0), ("C", 0)] ∧
      [(("B", 0) : vtbl_t), ("C", 0)].Nodup ∧
      (∀ v ∈ [(("B", 0) : vtbl_t), ("C", 0)], inRange (built allPresent duplicateRecords) v) ∧
      (interleaveRoot (built allPresent duplicateRecords) 2 "A").map
          (fun s => (s.cloudSizeMap "C", (interleaveRoot s 2 "B").map (fun t => t.cloudSizeMap "B")))
        = .ok (some 1, .error .assertion) ∧
      (interleaveClouds (built allPresent duplicateRecords) 2).map (fun s => s.cloudSizeMap "B")
        = .error .assertion) := by
  exact ⟨by decide, by decide⟩

/-- C4, amended. Let `r` be a root whose cloud is a tree with
`start ≤ addressPoint ≤ end < 2^63 - 1` for every member, processed from a
state in which the classes of the cloud have no size yet. For every class `c`
whose primary subvtable lies in the cloud, with `Q` the traversal of the
subtree of `(c,0)`: the published size `cloudSizeMap[c]` is `|Q|`, and the
address points of the subvtables of `Q` sit at exactly the `|Q|` consecutive
merged positions `p0, p0+1, ..` that start at the position `p0` of the address
point of `(c,0)` itself. -/
theorem cloudSize_is_block_width (st : SDModule) (fuel : Nat) (r : vtbl_name_t) (P : order_t)
    (hroot : r ∈ st.roots) (hpre : preorder st.cloudMap fuel (r, 0) = .ok P)
    (htree : P.Nodup) (hrange : ∀ v ∈ P, inRange st v)
    (hend : ∀ v ∈ P, rangeEnd st v + 1 < 2 ^ 63)
    (hsize : ∀ c, (c, 0) ∈ P → st.cloudSizeMap c = none)
    (c : vtbl_name_t) (hc : (c, 0) ∈ P) :
    ∃ st' merged Q p0, interleaveRoot st fuel r = .ok st' ∧
      st'.interleavingMap r = some merged ∧
      preorder st.cloudMap fuel (c, 0) = .ok Q ∧
      st'.cloudSizeMap c = some Q.length ∧
      merged.get? p0 = some ((c, 0), addressPoint st (c, 0)) ∧
      (∀ j w, Q.get? j = some w → merged.get? (p0 + j) = some (w, addressPoint st w)) ∧
      (∀ w ∈ Q, ∀ p, merged.get? p = some (w, addressPoint st w) →
        p0 ≤ p ∧ p < p0 + Q.length) := by
  obtain ⟨st', hrun, _, _, _, hmerged, _, hcs⟩ :=
    interleaveRoot_spec st fuel r P hroot hpre htree (fun v hv => (hrange v hv).1)
      (fun v hv => fitsInt64_of_inRange st v (hrange v hv) (hend v hv)) hsize
  obtain ⟨Q, hQ, hsz⟩ := hcs c hc
  obtain ⟨Q', A, B, hQ', hP⟩ := preorder_subtree st.cloudMap fuel (r, 0) P hpre (c, 0) hc
  have hQQ : Q' = Q := by
    rw [hQ] at hQ'
    exact (Except.ok.inj hQ').symm
  subst hQQ
  obtain ⟨L, hL⟩ := preorder_head st.cloudMap fuel (c, 0) Q' hQ
  have hblock : ∀ j w, Q'.get? j = some w →
      (mergedRef st P).get? (metadataCount st P + A.length + j) = some (w, addressPoint st w) := by
    intro j w hj
    rw [Nat.add_assoc]
    apply mergedRef_addressPoint st P hrange
    have hjlt : j < Q'.length := by
      rw [List.get?_eq_getElem?] at hj
      exact (List.getElem?_eq_some_iff.1 hj).1
    rw [List.get?_eq_getElem?] at hj ⊢
    rw [hP, List.append_assoc, List.getElem?_append_right (by omega),
      Nat.add_sub_cancel_left, List.getElem?_append_left hjlt]
    exact hj
  refine ⟨st', mergedRef st P, Q', metadataCount st P + A.length, hrun, hmerged, hQ, hsz,
    ?_, hblock, ?_⟩
  · have := hblock 0 (c, 0) (by rw [hL]; rfl)
    simpa using this
  · intro w hw p hp
    obtain ⟨j, hj⟩ := List.mem_iff_get?.1 hw
    have hjlt : j < Q'.length := by
      rw [List.get?_eq_getElem?] at hj
      exact (List.getElem?_eq_some_iff.1 hj).1
    have := get?_inj_of_nodup _ (mergedRef_nodup st P htree hrange) _ _ _ hp (hblock j w hj)
    omega

theorem cloudSize_is_block_width_witness :
    ("R" ∈ scenarioA.roots ∧
      preorder scenarioA.cloudMap 2 ("R", 0) = .ok [("R", 0), ("C", 0)] ∧
      [(("R", 0) : vtbl_t), ("C", 0)].Nodup ∧
      (∀ v ∈ [(("R", 0) : vtbl_t), ("C", 0)], inRange scenarioA v) ∧
      (∀ v ∈ [(("R", 0) : vtbl_t), ("C", 0)], rangeEnd scenarioA v + 1 < 2 ^ 63) ∧
      (∀ c, ((c, 0) : vtbl_t) ∈ [(("R", 0) : vtbl_t), ("C", 0)] → scenarioA.cloudSizeMap c = none) ∧
      (("C", 0) : vtbl_t) ∈ [(("R", 0) : vtbl_t), ("C", 0)]) ∧
    ∃ st' merged Q p0, interleaveRoot scenarioA 2 "R" = .ok st' ∧
      st'.interleavingMap "R" = some merged ∧
      preorder scenarioA.cloudMap 2 ("C", 0) = .ok Q ∧
      st'.cloudSizeMap "C" = some Q.length ∧
      merged.get? p0 = some (("C", 0), addressPoint scenarioA ("C", 0)) ∧
      (∀ j w, Q.get? j = some w → merged.get? (p0 + j) = some (w, addressPoint scenarioA w)) ∧
      (∀ w ∈ Q, ∀ p, merged.get? p = some (w, addressPoint scenarioA w) →
        p0 ≤ p ∧ p < p0 + Q.length) :=
  ⟨⟨by decide, by decide, by decide, by decide, by decide, fun _ _ => rfl, by decide⟩,
    cloudSize_is_block_width scenarioA 2 "R" [("R", 0), ("C", 0)]
      (by decide) (by decide) (by decide) (by decide) (by decide) (fun _ _ => rfl) "C"
      (by decide)⟩

/-! ## The layout list of a member of a tree cloud -/

theorem fst_mem_of_mem_mergedRef (st : SDModule) (P : order_t) (x : interleaving_t)
    (hx : x ∈ mergedRef st P) : x.1 ∈ P := by
  by_contra hnot
  have h := slotsOf_mergedRef_of_not_mem st P x.1 hnot
  have hmem : x.2 ∈ slotsOf x.1 (mergedRef st P) := by
    simp only [slotsOf, List.mem_map, List.mem_filter, decide_eq_true_eq]
    exact ⟨x, ⟨hx, rfl⟩, rfl⟩
  rw [h] at hmem
  exact List.not_mem_nil _ hmem

theorem member_positions (st : SDModule) (P : order_t) (htree : P.Nodup)
    (hrange : ∀ v ∈ P, inRange st v) (v : vtbl_t) (hv : v ∈ P) :
    (positionsOf v (mergedRef st P) 0).length = rangeEnd st v - rangeStart st v + 1 ∧
      ∀ j p, (positionsOf v (mergedRef st P) 0).get? j = some p →
        (mergedRef st P).get? p = some (v, rangeStart st v + j) := by
  have hs := slotsOf_mergedRef_inRange st P htree v hv (hrange v hv)
  refine ⟨by rw [length_positionsOf, hs, List.length_range'], ?_⟩
  intro j p hj
  obtain ⟨_, i, h1, h2⟩ := positionsOf_get v (mergedRef st P) 0 j p hj
  rw [hs, List.get?_eq_getElem?] at h1
  have hjlt : j < rangeEnd st v - rangeStart st v + 1 := by
    have := (List.getElem?_eq_some_iff.1 h1).1
    simpa using this
  rw [List.getElem?_range' _ _ hjlt] at h1
  simp only [Option.some.injEq, Nat.one_mul] at h1
  rw [Nat.sub_zero] at h2
  rw [h2, h1]

theorem member_position_exists (st : SDModule) (P : order_t) (htree : P.Nodup)
    (hrange : ∀ v ∈ P, inRange st v) (v : vtbl_t) (hv : v ∈ P) (j : Nat)
    (hj : j ≤ rangeEnd st v - rangeStart st v) :
    ∃ p, (positionsOf v (mergedRef st P) 0).get? j = some p ∧
      (mergedRef st P).get? p = some (v, rangeStart st v + j) := by
  obtain ⟨hlen, hpos⟩ := member_positions st P htree hrange v hv
  have hlt : j < (positionsOf v (mergedRef st P) 0).length := by omega
  refine ⟨(positionsOf v (mergedRef st P) 0)[j], ?_, ?_⟩
  · rw [List.get?_eq_getElem?, List.getElem?_eq_getElem hlt]
  · apply hpos j
    rw [List.get?_eq_getElem?, List.getElem?_eq_getElem hlt]

theorem member_layout_after_root (st st' : SDModule) (P : order_t) (htree : P.Nodup)
    (hrange : ∀ v ∈ P, inRange st v) (v : vtbl_t) (hv : v ∈ P)
    (hfresh : st.newLayoutInds v = none)
    (hnew : ∀ v, st'.newLayoutInds v =
      if positionsOf v (mergedRef st P) 0 = [] then st.newLayoutInds v
      else some ((st.newLayoutInds v).getD [] ++ positionsOf v (mergedRef st P) 0)) :
    st'.newLayoutInds v = some (positionsOf v (mergedRef st P) 0) := by
  obtain ⟨hlen, _⟩ := member_positions st P htree hrange v hv
  have hne : positionsOf v (mergedRef st P) 0 ≠ [] := by
    intro h
    rw [h] at hlen
    simp at hlen
  rw [hnew v, if_neg hne, hfresh]
  simp

/-! ## Offsets relative to the address point (C5) -/

/-- C5, as stated, fails on Scenario A of the specification: after interleaving,
the slot `R@0` sits at merged position 0 and the address point `R@1` at
position 2, so the element one slot before the address point of `R` is two
positions before it in the merged sequence, and
`oldIndexToNew2((R,0), -1, true)` is `-2`, not `-1`. It also fails in
`wideRangeUnit` (range `[0, 2^63]`, address point 0): the range end is held as
the `int64_t` value `-2^63`, the merged sequence of `R` is empty, `(R,0)` gets
no layout list, and `oldIndexToNew2((R,0), 0, true)` stops at its assertion. -/
theorem relative_offset_counterexample :
    ((interleaveClouds scenarioA 2).map (fun s => s.interleavingMap "R")
        = .ok (some [(("R", 0), 0), (("C", 0), 0), (("R", 0), 1), (("C", 0), 1)]) ∧
      inRange scenarioA ("R", 0) ∧ addressPoint scenarioA ("R", 0) = 1 ∧
      (interleaveClouds scenarioA 2).map (fun s => oldIndexToNew2 s ("R", 0) (-1) true)
        = .ok (.ok (-2))) ∧
    (inRange wideRangeUnit ("R", 0) ∧
      (interleaveClouds wideRangeUnit 2).map (fun s => s.interleavingMap "R") = .ok (some []) ∧
      (interleaveClouds wideRangeUnit 2).map
          (fun s => (s.newLayoutInds ("R", 0), oldIndexToNew2 s ("R", 0) 0 true))
        = .ok (none, .error .assertion)) := by
  exact ⟨by decide, by decide, by decide, by decide⟩

/-- C5, amended. Interleaving keeps every element of a member on its side of
the member's address point and at least as far from it, not at the same
distance. Let `r` be a root whose cloud is a tree with
`start ≤ addressPoint ≤ end < 2^63 - 1` for every member, processed from a
state without layout entries and without cloud sizes for the cloud. For a
member `v` and an offset `k` with `start v ≤ addressPoint v + k ≤ end v`, let
`p` and `q` be the merged positions
of the slots `(v, addressPoint v + k)` and `(v, addressPoint v)`. Then
`k ≤ p - q` when `k ≥ 0` and `p - q ≤ k` when `k ≤ 0`; `p - q = k` when `v` is the
only member of the cloud; and when `start v = 0`,
`oldIndexToNew2(v, k, true)` succeeds and returns `p - q`. -/
theorem relative_offset_order (st : SDModule) (fuel : Nat) (r : vtbl_name_t) (P : order_t)
    (hroot : r ∈ st.roots) (hpre : preorder st.cloudMap fuel (r, 0) = .ok P)
    (htree : P.Nodup) (hrange : ∀ v ∈ P, inRange st v)
    (hend : ∀ v ∈ P, rangeEnd st v + 1 < 2 ^ 63)
    (hfresh : ∀ v ∈ P, st.newLayoutInds v = none)
    (hsize : ∀ c, (c, 0) ∈ P → st.cloudSizeMap c = none)
    (v : vtbl_t) (hv : v ∈ P) (k : Int)
    (hk1 : (rangeStart st v : Int) ≤ (addressPoint st v : Int) + k)
    (hk2 : (addressPoint st v : Int) + k ≤ (rangeEnd st v : Int)) :
    ∃ st' merged, ∃ p q : Nat, interleaveRoot st fuel r = .ok st' ∧
      st'.interleavingMap r = some merged ∧
      merged.get? p = some (v, ((addressPoint st v : Int) + k).toNat) ∧
      merged.get? q = some (v, addressPoint st v) ∧
      (0 ≤ k → k ≤ (p : Int) - (q : Int)) ∧
      (k ≤ 0 → (p : Int) - (q : Int) ≤ k) ∧
      (P = [v] → (p : Int) - (q : Int) = k) ∧
      (rangeStart st v = 0 → oldIndexToNew2 st' v k true = .ok ((p : Int) - (q : Int))) := by
  obtain ⟨st', hrun, _, hap, hrm, hmerged, hnew, _⟩ :=
    interleaveRoot_spec st fuel r P hroot hpre htree (fun v hv => (hrange v hv).1)
      (fun v hv => fitsInt64_of_inRange st v (hrange v hv) (hend v hv)) hsize
  obtain ⟨hdata, hs, he⟩ := hrange v hv
  have hjp : ((addressPoint st v : Int) + k).toNat - rangeStart st v
      ≤ rangeEnd st v - rangeStart st v := by omega
  have hjq : addressPoint st v - rangeStart st v ≤ rangeEnd st v - rangeStart st v := by omega
  obtain ⟨p, hp1, hp2⟩ := member_position_exists st P htree hrange v hv _ hjp
  obtain ⟨q, hq1, hq2⟩ := member_position_exists st P htree hrange v hv _ hjq
  have e1 : rangeStart st v + (((addressPoint st v : Int) + k).toNat - rangeStart st v)
      = ((addressPoint st v : Int) + k).toNat := by omega
  have e2 : rangeStart st v + (addressPoint st v - rangeStart st v) = addressPoint st v := by
    omega
  rw [e1] at hp2
  rw [e2] at hq2
  refine ⟨st', mergedRef st P, p, q, hrun, hmerged, hp2, hq2, ?_, ?_, ?_, ?_⟩
  · intro hk
    have e : ((addressPoint st v : Int) + k).toNat - rangeStart st v
        = (addressPoint st v - rangeStart st v) + k.toNat := by omega
    rw [e] at hp1
    have := positionsOf_growth v (mergedRef st P) 0 _ _ q p hq1 hp1
    omega
  · intro hk
    have e : addressPoint st v - rangeStart st v
        = (((addressPoint st v : Int) + k).toNat - rangeStart st v) + (-k).toNat := by omega
    rw [e] at hq1
    have := positionsOf_growth v (mergedRef st P) 0 _ _ p q hp1 hq1
    omega
  · intro hP
    have hall : ∀ x ∈ mergedRef st P, x.1 = v := by
      intro x hx
      have := fst_mem_of_mem_mergedRef st P x hx
      rw [hP] at this
      exact List.mem_singleton.1 this
    rw [positionsOf_of_all v _ 0 hall, List.get?_eq_getElem?] at hp1 hq1
    have hplt := (List.getElem?_eq_some_iff.1 hp1).1
    have hqlt := (List.getElem?_eq_some_iff.1 hq1).1
    rw [List.length_range'] at hplt hqlt
    rw [List.getElem?_range' _ _ hplt] at hp1
    rw [List.getElem?_range' _ _ hqlt] at hq1
    simp only [Option.some.injEq] at hp1 hq1
    omega
  · intro hs0
    have hl := member_layout_after_root st st' P htree hrange v hv (hfresh v hv) hnew
    have hd' := hasLayoutData_congr st st' hap hrm v hdata
    apply oldIndexToNew2_rel_ok st' v k _ p q hl hd'
    · rw [addressPoint_congr st st' hap]; omega
    · rw [addressPoint_congr st st' hap, rangeEnd_congr st st' hrm]; omega
    · rw [addressPoint_congr st st' hap]
      have e : ((addressPoint st v : Int) + k).toNat - rangeStart st v
          = ((addressPoint st v : Int) + k).toNat := by omega
      rw [← e]; exact hp1
    · rw [addressPoint_congr st st' hap]
      have e : addressPoint st v - rangeStart st v = addressPoint st v := by omega
      rw [← e]; exact hq1

theorem relative_offset_order_witness :
    ("R" ∈ scenarioA.roots ∧
      preorder scenarioA.cloudMap 2 ("R", 0) = .ok [("R", 0), ("C", 0)] ∧
      [(("R", 0) : vtbl_t), ("C", 0)].Nodup ∧
      (∀ v ∈ [(("R", 0) : vtbl_t), ("C", 0)], inRange scenarioA v) ∧
      (∀ v ∈ [(("R", 0) : vtbl_t), ("C", 0)], rangeEnd scenarioA v + 1 < 2 ^ 63) ∧
      (∀ v ∈ [(("R", 0) : vtbl_t), ("C", 0)], scenarioA.newLayoutInds v = none) ∧
      (∀ c, ((c, 0) : vtbl_t) ∈ [(("R", 0) : vtbl_t), ("C", 0)] → scenarioA.cloudSizeMap c = none) ∧
      (("R", 0) : vtbl_t) ∈ [(("R", 0) : vtbl_t), ("C", 0)] ∧
      (rangeStart scenarioA ("R", 0) : Int) ≤ (addressPoint scenarioA ("R", 0) : Int) + (-1) ∧
      (addressPoint scenarioA ("R", 0) : Int) + (-1) ≤ (rangeEnd scenarioA ("R", 0) : Int)) ∧
    ∃ st' merged, ∃ p q : Nat, interleaveRoot scenarioA 2 "R" = .ok st' ∧
      st'.interleavingMap "R" = some merged ∧
      merged.get? p = some (("R", 0), ((addressPoint scenarioA ("R", 0) : Int) + (-1)).toNat) ∧
      merged.get? q = some (("R", 0), addressPoint scenarioA ("R", 0)) ∧
      (0 ≤ (-1 : Int) → (-1 : Int) ≤ (p : Int) - (q : Int)) ∧
      ((-1 : Int) ≤ 0 → (p : Int) - (q : Int) ≤ -1) ∧
      ([(("R", 0) : vtbl_t), ("C", 0)] = [("R", 0)] → (p : Int) - (q : Int) = -1) ∧
      (rangeStart scenarioA ("R", 0) = 0 →
        oldIndexToNew2 st' ("R", 0) (-1) true = .ok ((p : Int) - (q : Int))) :=
  ⟨⟨by decide, by decide, by decide, by decide, by decide, fun _ _ => rfl, fun _ _ => rfl,
      by decide, by decide, by decide⟩,
    relative_offset_order scenarioA 2 "R" [("R", 0), ("C", 0)]
      (by decide) (by decide) (by decide) (by decide) (by decide) (fun _ _ => rfl)
      (fun _ _ => rfl) ("R", 0) (by decide) (-1) (by decide) (by decide)⟩

/-! ## The layout list is indexed from the range start (C6) -/

/-- C6, as stated, fails for a subvtable that does not start at index 0. In
`multipleInheritanceUnit` the secondary subvtable `(D,1)` has range `[1,3]`; in
the merged sequence of `B` the slot `(D,1)@1` sits at position 1, yet
`oldIndexToNew2((D,1), 1, false)` returns 3, the position of `(D,1)@2`, and the
query for the original index 3 reads the three-element layout list at index 3.
It also fails in `wideRangeUnit` (range `[0, 2^63]`, address point 0): the
range end is held as the `int64_t` value `-2^63`, the merged sequence of `R` is
empty, `(R,0)` gets no layout list, and `oldIndexToNew2((R,0), 0, false)` stops
at its assertion. -/
theorem layout_index_counterexample :
    ((interleaveClouds multipleInheritanceUnit 2).map (fun s => s.interleavingMap "B")
        = .ok (some [(("B", 0), 0), (("D", 1), 1), (("B", 0), 1), (("D", 1), 2), (("D", 1), 3)]) ∧
      preorder multipleInheritanceUnit.cloudMap 2 ("B", 0) = .ok [("B", 0), ("D", 1)] ∧
      rangeStart multipleInheritanceUnit ("D", 1) = 1 ∧
      rangeEnd multipleInheritanceUnit ("D", 1) = 3 ∧
      (interleaveClouds multipleInheritanceUnit 2).map
          (fun s => (s.newLayoutInds ("D", 1), oldIndexToNew2 s ("D", 1) 1 false,
            oldIndexToNew2 s ("D", 1) 3 false))
        = .ok (some [1, 3, 4], .ok 3, .error .outOfBounds)) ∧
    (preorder wideRangeUnit.cloudMap 2 ("R", 0) = .ok [("R", 0)] ∧
      rangeStart wideRangeUnit ("R", 0) = 0 ∧ 0 ≤ rangeEnd wideRangeUnit ("R", 0) ∧
      (interleaveClouds wideRangeUnit 2).map (fun s => s.interleavingMap "R") = .ok (some []) ∧
      (interleaveClouds wideRangeUnit 2).map
          (fun s => (s.newLayoutInds ("R", 0), oldIndexToNew2 s ("R", 0) 0 false))
        = .ok (none, .error .assertion)) := by
  exact ⟨by decide, by decide⟩

/-- C6, amended. The layout list of a member is indexed from the start of its
range. Let `r` be a root whose cloud is a tree with
`start ≤ addressPoint ≤ end < 2^63 - 1` for every member, processed from a
state without layout entries and without cloud sizes for the cloud. For every
member `v` and every `j ≤ end v - start v`, the non-relative query
`oldIndexToNew2(v, j, false)`
succeeds and returns the merged position of the slot `(v, start v + j)`; when
`start v = 0` this is the slot of original index `j`. -/
theorem layout_index_from_start (st : SDModule) (fuel : Nat) (r : vtbl_name_t) (P : order_t)
    (hroot : r ∈ st.roots) (hpre : preorder st.cloudMap fuel (r, 0) = .ok P)
    (htree : P.Nodup) (hrange : ∀ v ∈ P, inRange st v)
    (hend : ∀ v ∈ P, rangeEnd st v + 1 < 2 ^ 63)
    (hfresh : ∀ v ∈ P, st.newLayoutInds v = none)
    (hsize : ∀ c, (c, 0) ∈ P → st.cloudSizeMap c = none)
    (v : vtbl_t) (hv : v ∈ P) (j : Nat) (hj : j ≤ rangeEnd st v - rangeStart st v) :
    ∃ st' merged, ∃ p : Nat, interleaveRoot st fuel r = .ok st' ∧
      st'.interleavingMap r = some merged ∧
      oldIndexToNew2 st' v (j : Int) false = .ok (p : Int) ∧
      merged.get? p = some (v, rangeStart st v + j) := by
  obtain ⟨st', hrun, _, hap, hrm, hmerged, hnew, _⟩ :=
    interleaveRoot_spec st fuel r P hroot hpre htree (fun v hv => (hrange v hv).1)
      (fun v hv => fitsInt64_of_inRange st v (hrange v hv) (hend v hv)) hsize
  obtain ⟨hdata, hs, he⟩ := hrange v hv
  obtain ⟨p, hp1, hp2⟩ := member_position_exists st P htree hrange v hv j hj
  have hl := member_layout_after_root st st' P htree hrange v hv (hfresh v hv) hnew
  have hd' := hasLayoutData_congr st st' hap hrm v hdata
  refine ⟨st', mergedRef st P, p, hrun, hmerged, ?_, hp2⟩
  apply oldIndexToNew2_abs_ok st' v (j : Int) _ p hl hd'.2 (by omega)
  · rw [rangeEnd_congr st st' hrm]; simp only [Int.toNat_ofNat]; omega
  · simp only [Int.toNat_ofNat]; exact hp1

theorem layout_index_from_start_witness :
    ("B" ∈ multipleInheritanceUnit.roots ∧
      preorder multipleInheritanceUnit.cloudMap 2 ("B", 0) = .ok [("B", 0), ("D", 1)] ∧
      [(("B", 0) : vtbl_t), ("D", 1)].Nodup ∧
      (∀ v ∈ [(("B", 0) : vtbl_t), ("D", 1)], inRange multipleInheritanceUnit v) ∧
      (∀ v ∈ [(("B", 0) : vtbl_t), ("D", 1)], rangeEnd multipleInheritanceUnit v + 1 < 2 ^ 63) ∧
      (∀ v ∈ [(("B", 0) : vtbl_t), ("D", 1)], multipleInheritanceUnit.newLayoutInds v = none) ∧
      (∀ c, ((c, 0) : vtbl_t) ∈ [(("B", 0) : vtbl_t), ("D", 1)] →
        multipleInheritanceUnit.cloudSizeMap c = none) ∧
      (("D", 1) : vtbl_t) ∈ [(("B", 0) : vtbl_t), ("D", 1)] ∧
      1 ≤ rangeEnd multipleInheritanceUnit ("D", 1) - rangeStart multipleInheritanceUnit ("D", 1)) ∧
    ∃ st' merged, ∃ p : Nat, interleaveRoot multipleInheritanceUnit 2 "B" = .ok st' ∧
      st'.interleavingMap "B" = some merged ∧
      oldIndexToNew2 st' ("D", 1) ((1 : Nat) : Int) false = .ok (p : Int) ∧
      merged.get? p = some (("D", 1), rangeStart multipleInheritanceUnit ("D", 1) + 1) :=
  ⟨⟨by decide, by decide, by decide, by decide, by decide, fun _ _ => rfl, fun _ _ => rfl,
      by decide, by decide⟩,
    layout_index_from_start multipleInheritanceUnit 2 "B" [("B", 0), ("D", 1)]
      (by decide) (by decide) (by decide) (by decide) (by decide) (fun _ _ => rfl)
      (fun _ _ => rfl) ("D", 1) (by decide) 1 (by decide)⟩

/-! ## Relative and absolute queries (C7) -/

/-- C7, as stated, fails when the address point lies past the range end. In
`sharedSecondaryUnit` the subvtable `(C,1)` (range `[0,0]`, address point 1)
gets a layout list of two entries; the relative query with offset `-1`
succeeds, but the absolute query at the address point fails its range
assertion. -/
theorem relative_absolute_counterexample :
    addressPoint sharedSecondaryUnit ("C", 1) = 1 ∧
    rangeEnd sharedSecondaryUnit ("C", 1) = 0 ∧
    (interleaveClouds sharedSecondaryUnit 2).map
        (fun s => (s.newLayoutInds ("C", 1), oldIndexToNew2 s ("C", 1) (-1) true,
          oldIndexToNew2 s ("C", 1) (1 + (-1)) false, oldIndexToNew2 s ("C", 1) 1 false))
      = .ok (some [0, 0], .ok 0, .ok 0, .error .assertion) := by
  decide

/-- C7, amended. For every subvtable `v` and every offset `k` for which
`oldIndexToNew2(v, k, true)` succeeds, provided `k ≥ 0` or
`addressPoint v ≤ end v`: both absolute queries
`oldIndexToNew2(v, addressPoint v + k, false)` and
`oldIndexToNew2(v, addressPoint v, false)` succeed, and the relative result is
the first minus the second. -/
theorem relative_eq_absolute_difference (st : SDModule) (v : vtbl_t) (k x : Int)
    (h : oldIndexToNew2 st v k true = .ok x)
    (hk : 0 ≤ k ∨ addressPoint st v ≤ rangeEnd st v) :
    ∃ a b : Int, oldIndexToNew2 st v ((addressPoint st v : Int) + k) false = .ok a ∧
      oldIndexToNew2 st v (addressPoint st v : Int) false = .ok b ∧ x = a - b := by
  obtain ⟨newInds, a, b, hn, hd, _, h0, he, ha, hb, hx⟩ := oldIndexToNew2_rel_inv st v k x h
  refine ⟨(a : Int), (b : Int), ?_, ?_, hx⟩
  · exact oldIndexToNew2_abs_ok st v _ newInds a hn hd.2 h0 he ha
  · apply oldIndexToNew2_abs_ok st v _ newInds b hn hd.2 (by omega)
    · simp only [Int.toNat_ofNat]; omega
    · simp only [Int.toNat_ofNat]; exact hb

theorem relative_eq_absolute_difference_witness :
    (oldIndexToNew2 (interleaved scenarioA 2) ("R", 0) (-1) true = .ok (-2) ∧
      ((0 : Int) ≤ -1 ∨ addressPoint (interleaved scenarioA 2) ("R", 0)
        ≤ rangeEnd (interleaved scenarioA 2) ("R", 0))) ∧
    ∃ a b : Int, oldIndexToNew2 (interleaved scenarioA 2) ("R", 0)
        ((addressPoint (interleaved scenarioA 2) ("R", 0) : Int) + (-1)) false = .ok a ∧
      oldIndexToNew2 (interleaved scenarioA 2) ("R", 0)
        (addressPoint (interleaved scenarioA 2) ("R", 0) : Int) false = .ok b ∧
      (-2 : Int) = a - b :=
  ⟨⟨by decide, by decide⟩,
    relative_eq_absolute_difference (interleaved scenarioA 2) ("R", 0) (-1) (-2)
      (by decide) (by decide)⟩

/-! ## oldIndexToNew on the address point itself (C8) -/

/-- C9, as stated, fails: the guards compare with 0, not with the range start.
In `multipleInheritanceUnit` the subvtable `(D,1)` has range `[1,3]` and address
point 2; the absolute query for index 0 and the relative query for offset `-2`
(absolute index 0) both return a value although 0 lies below the range. -/
theorem translate_guard_counterexample :
    rangeStart multipleInheritanceUnit ("D", 1) = 1 ∧
    addressPoint multipleInheritanceUnit ("D", 1) = 2 ∧
    (interleaveClouds multipleInheritanceUnit 2).map
        (fun s => (oldIndexToNew2 s ("D", 1) 0 false, oldIndexToNew2 s ("D", 1) (-2) true))
      = .ok (.ok 1, .ok (-3)) := by
  decide

/-- C9, amended. `oldIndexToNew2` rejects every index that is negative or past
the end of the range: when `oldIndexToNew2(v, offset, true)` returns a value,
`offset ≥ 0 ∨ addressPoint v ≥ -offset` and
`0 ≤ addressPoint v + offset ≤ end v`; when `oldIndexToNew2(v, offset, false)`
returns a value, `0 ≤ offset ≤ end v`. -/
theorem translate_guard (st : SDModule) (v : vtbl_t) (offset x : Int) (isRelative : Bool)
    (h : oldIndexToNew2 st v offset isRelative = .ok x) :
    if isRelative = true then
      (offset ≥ 0 ∨ (addressPoint st v : Int) ≥ -offset) ∧
        0 ≤ (addressPoint st v : Int) + offset ∧
        (addressPoint st v : Int) + offset ≤ (rangeEnd st v : Int)
    else 0 ≤ offset ∧ offset ≤ (rangeEnd st v : Int) := by
  cases isRelative with
  | true =>
    obtain ⟨_, _, _, _, _, hk, h0, he, _, _, _⟩ := oldIndexToNew2_rel_inv st v offset x h
    simp only [if_true]
    exact ⟨hk, h0, by omega⟩
  | false =>
    obtain ⟨_, _, _, _, h0, he, _, _⟩ := oldIndexToNew2_abs_inv st v offset x h
    simp only [Bool.false_eq_true, if_false]
    exact ⟨h0, by omega⟩

theorem translate_guard_witness :
    oldIndexToNew2 (interleaved scenarioA 2) ("R", 0) (-1) true = .ok (-2) ∧
    (if true = true then
      ((-1 : Int) ≥ 0 ∨ (addressPoint (interleaved scenarioA 2) ("R", 0) : Int) ≥ -(-1)) ∧
        0 ≤ (addressPoint (interleaved scenarioA 2) ("R", 0) : Int) + (-1) ∧
        (addressPoint (interleaved scenarioA 2) ("R", 0) : Int) + (-1)
          ≤ (rangeEnd (interleaved scenarioA 2) ("R", 0) : Int)
    else 0 ≤ (-1 : Int) ∧ (-1 : Int) ≤ (rangeEnd (interleaved scenarioA 2) ("R", 0) : Int)) :=
  ⟨by decide, translate_guard (interleaved scenarioA 2) ("R", 0) (-1) (-2) true (by decide)⟩

/-! ## oldIndexToNew on an unknown class (C10) -/

/-- C10, as stated, fails: for a class unknown to the clouds, a relative query
with a non-negative offset returns the offset. After interleaving Scenario A the
class `X` has no layout entry and is not a key of the cloud map, and
`oldIndexToNew(X, 5, true)` returns 5. -/
theorem translate_unknown_counterexample :
    (interleaveClouds scenarioA 2).map
        (fun s => (s.newLayoutInds ("X", 0), oldIndexToNew s "X" 5 true)) = .ok (none, .ok 5) ∧
    (interleaveClouds scenarioA 2).map (fun s => s.cloudMap ("X", 0)) = .ok none := by
  decide

/-- C10, amended. For every class name unknown to the built clouds (its primary
subvtable has no layout entry and is not a key of the cloud map),
`oldIndexToNew(className, offset, isRelative)` stops at its assertion unless
the query is relative with `offset ≥ 0`, in which case it returns `offset`
unchanged. -/
theorem translate_unknown (st : SDModule) (vtbl : vtbl_name_t) (offset : Int)
    (isRelative : Bool) (hlayout : st.newLayoutInds (vtbl, 0) = none)
    (hcloud : st.cloudMap (vtbl, 0) = none) :
    oldIndexToNew st vtbl offset isRelative =
      if isRelative = true ∧ offset ≥ 0 then .ok offset else .error .assertion := by
  simp only [oldIndexToNew, hlayout, hcloud]

theorem translate_unknown_witness :
    ((interleaved scenarioA 2).newLayoutInds ("X", 0) = none ∧
      (interleaved scenarioA 2).cloudMap ("X", 0) = none) ∧
    oldIndexToNew (interleaved scenarioA 2) "X" 5 true =
      if true = true ∧ (5 : Int) ≥ 0 then .ok 5 else .error .assertion :=
  ⟨⟨by decide, by decide⟩,
    translate_unknown (interleaved scenarioA 2) "X" 5 true (by decide) (by decide)⟩

/-! ## Failures of buildClouds -/

theorem buildSubVTable_ok_or (cn : vtbl_name_t) (ind : Nat) (sub : nmd_sub_t) (st : SDModule) :
    (sub.parentName = "" ∧ ind ≠ 0 ∧ buildSubVTable cn ind sub st = .error .assertion) ∨
      (¬ (sub.parentName = "" ∧ ind ≠ 0) ∧ ∃ st1, buildSubVTable cn ind sub st = .ok st1) := by
  unfold buildSubVTable
  by_cases hp : sub.parentName = ""
  · by_cases hi : ind = 0
    · right
      refine ⟨fun h => h.2 hi, ?_⟩
      simp [hp, hi]
      exact ⟨_, rfl⟩
    · left
      refine ⟨hp, hi, ?_⟩
      simp [hp, hi]
  · right
    refine ⟨fun h => hp h.1, ?_⟩
    simp [hp]
    exact ⟨_, rfl⟩

theorem buildSubVTables_error_iff (cn : vtbl_name_t) :
    ∀ (subs : List nmd_sub_t) (ind : Nat) (st : SDModule),
      ((∃ e, buildSubVTables cn ind subs st = .error e) ↔
        ∃ k sub, subs.get? k = some sub ∧ sub.parentName = "" ∧ 0 < ind + k) ∧
      (∀ e, buildSubVTables cn ind subs st = .error e → e = .assertion) := by
  intro subs
  induction subs with
  | nil =>
    intro ind st
    simp [buildSubVTables]
  | cons sub rest ih =>
    intro ind st
    rcases buildSubVTable_ok_or cn ind sub st with ⟨hp, hi, herr⟩ | ⟨hno, st1, hok⟩
    · simp only [buildSubVTables, herr]
      refine ⟨⟨fun _ => ⟨0, sub, rfl, hp, by omega⟩, fun _ => ⟨_, rfl⟩⟩, ?_⟩
      intro e he
      exact (Except.error.inj he).symm
    · simp only [buildSubVTables, hok]
      obtain ⟨ih1, ih2⟩ := ih (ind + 1) st1
      refine ⟨?_, ih2⟩
      rw [ih1]
      constructor
      · rintro ⟨k, s, hk, hs, _⟩
        exact ⟨k + 1, s, by simpa using hk, hs, by omega⟩
      · rintro ⟨k, s, hk, hs, hpos⟩
        cases k with
        | zero =>
          simp at hk
          subst hk
          exact absurd ⟨hs, by omega⟩ hno
        | succ k => exact ⟨k, s, by simpa using hk, hs, by omega⟩

theorem buildRecord_error_iff (globals : vtbl_name_t → Option Unit) (st : SDModule) (info : nmd_t) :
    ((∃ e, buildRecord globals st info = .error e) ↔
      globals info.className = none ∨ ∃ i, 0 < i ∧ declaredParent info i = some "") ∧
    (∀ e, buildRecord globals st info = .error e → e = .assertion) := by
  unfold buildRecord
  cases hg : globals info.className with
  | none =>
    simp only [true_or, iff_true]
    exact ⟨⟨_, rfl⟩, fun e he => (Except.error.inj he).symm⟩
  | some vtable =>
    obtain ⟨h1, h2⟩ := buildSubVTables_error_iff info.className info.subVTables 0
      { st with oldVTables := mapSet st.oldVTables info.className vtable }
    refine ⟨?_, h2⟩
    rw [h1]
    constructor
    · rintro ⟨k, s, hk, hs, hpos⟩
      exact Or.inr ⟨k, by omega, by simp only [declaredParent, hk, Option.map_some', hs]⟩
    · rintro (h | ⟨i, hpos, hd⟩)
      · cases h
      simp only [declaredParent, Option.map_eq_some'] at hd
      obtain ⟨s, hk, hs⟩ := hd
      exact ⟨i, s, hk, hs, by omega⟩

theorem buildClouds_nil (globals : vtbl_name_t → Option Unit) (st : SDModule) :
    buildClouds globals [] st = .ok st := rfl

theorem buildClouds_cons (globals : vtbl_name_t → Option Unit) (info : nmd_t)
    (rest : List nmd_t) (st : SDModule) :
    buildClouds globals (info :: rest) st =
      match buildRecord globals st info with
      | .ok st1 => buildClouds globals rest st1
      | .error e => .error e := by
  simp only [buildClouds, List.foldlM_cons]
  cases buildRecord globals st info <;> rfl

theorem buildClouds_error_iff (globals : vtbl_name_t → Option Unit) :
    ∀ (records : List nmd_t) (st : SDModule),
      ((∃ e, buildClouds globals records st = .error e) ↔
        ∃ info ∈ records, globals info.className = none ∨
          ∃ i, 0 < i ∧ declaredParent info i = some "") ∧
      (∀ e, buildClouds globals records st = .error e → e = .assertion) := by
  intro records
  induction records with
  | nil =>
    intro st
    simp [buildClouds_nil]
  | cons info rest ih =>
    intro st
    obtain ⟨h1, h2⟩ := buildRecord_error_iff globals st info
    rw [buildClouds_cons]
    cases hrec : buildRecord globals st info with
    | error e =>
      simp only
      have := h1.1 ⟨e, hrec⟩
      refine ⟨⟨fun _ => ⟨info, List.mem_cons_self _ _, this⟩, fun _ => ⟨e, rfl⟩⟩, ?_⟩
      intro e' he'
      rw [← Except.error.inj he']
      exact h2 e hrec
    | ok st1 =>
      simp only
      obtain ⟨ih1, ih2⟩ := ih st1
      refine ⟨?_, ih2⟩
      rw [ih1]
      constructor
      · rintro ⟨i, hi, h⟩
        exact ⟨i, List.mem_cons_of_mem _ hi, h⟩
      · rintro ⟨i, hi, h⟩
        rcases List.mem_cons.1 hi with rfl | hi
        · have := h1.2 h
          rw [hrec] at this
          obtain ⟨e, he⟩ := this
          cases he
        · exact ⟨i, hi, h⟩

/-! ## Claims on the failures of buildClouds and on Scenario A -/

/-- C11 (amended): for a class `c` whose primary subvtable `(c,0)` has no
layout entry but has a non-empty child set (iterated in ascending order, as a
`std::set` is), `oldIndexToNew(c, offset, isRelative)` substitutes the least
child of `(c,0)`: in relative mode with `offset ≥ 0` it returns exactly what
`oldIndexToNew2(child, offset, isRelative)` returns; in absolute mode, and
for a negative offset, it stops on its assertion. -/
theorem translate_substitutes_child (st : SDModule) (c : vtbl_name_t)
    (children : cloud_map_children_t) (offset : Int) (isRelative : Bool)
    (hnone : st.newLayoutInds (c, 0) = none)
    (hchildren : st.cloudMap (c, 0) = some children)
    (hne : children ≠ []) (hset : children.Pairwise vtbl_lt) :
    ∃ child ∈ children, (∀ x ∈ children, x = child ∨ vtbl_lt child x) ∧
      oldIndexToNew st c offset isRelative =
        if isRelative = true ∧ offset ≥ 0 then oldIndexToNew2 st child offset isRelative
        else .error .assertion := by
  cases children with
  | nil => exact absurd rfl hne
  | cons child rest =>
    refine ⟨child, List.mem_cons_self _ _, ?_, ?_⟩
    · intro x hx
      rcases List.mem_cons.1 hx with h | h
      · exact Or.inl h
      · exact Or.inr (List.rel_of_pairwise_cons hset h)
    · simp only [oldIndexToNew, hnone, hchildren]

theorem translate_substitutes_child_witness :
    ((analysed allPresent interfaceRecords 2).newLayoutInds ("I", 0) = none ∧
      (analysed allPresent interfaceRecords 2).cloudMap ("I", 0) = some [("D", 0)] ∧
      [(("D", 0) : vtbl_t)] ≠ [] ∧ [(("D", 0) : vtbl_t)].Pairwise vtbl_lt) ∧
    ∃ child ∈ [(("D", 0) : vtbl_t)], (∀ x ∈ [(("D", 0) : vtbl_t)], x = child ∨ vtbl_lt child x) ∧
      oldIndexToNew (analysed allPresent interfaceRecords 2) "I" 0 true =
        if true = true ∧ (0 : Int) ≥ 0
        then oldIndexToNew2 (analysed allPresent interfaceRecords 2) child 0 true
        else .error .assertion :=
  ⟨⟨by decide, by decide, by decide, by decide⟩,
    translate_substitutes_child (analysed allPresent interfaceRecords 2) "I" [("D", 0)] 0 true
      (by decide) (by decide) (by decide) (by decide)⟩

/-- C11 as stated fails: in the unit whose root `I` has an empty range and the
child `D`, `(I,0)` has no layout entry and the child set `[(D,0)]`, and
`oldIndexToNew2((D,0), ..)` returns `-1` for the relative offset `-1` and `0`
for the absolute index `0`, yet `oldIndexToNew(I, ..)` stops on its assertion
for both. -/
theorem translate_substitutes_child_counterexample :
    (analysed allPresent interfaceRecords 2).newLayoutInds ("I", 0) = none ∧
    (analysed allPresent interfaceRecords 2).cloudMap ("I", 0) = some [("D", 0)] ∧
    oldIndexToNew2 (analysed allPresent interfaceRecords 2) ("D", 0) (-1) true = .ok (-1) ∧
    oldIndexToNew (analysed allPresent interfaceRecords 2) "I" (-1) true = .error .assertion ∧
    oldIndexToNew2 (analysed allPresent interfaceRecords 2) ("D", 0) 0 false = .ok 0 ∧
    oldIndexToNew (analysed allPresent interfaceRecords 2) "I" 0 false = .error .assertion := by
  decide

/-- C12: over records whose compiled tables are all present, `buildClouds`
stops on an assertion if and only if some record has a subvtable at a position
`i > 0` that declares no parent, and returns a state otherwise; in particular
a record with a parentless subvtable at position 2 makes it fail. -/
theorem buildClouds_fails_iff_malformed (globals : vtbl_name_t → Option Unit)
    (records : List nmd_t) (st : SDModule)
    (hpresent : ∀ info ∈ records, globals info.className ≠ none) :
    (buildClouds globals records st = .error .assertion ↔
      ∃ info ∈ records, ∃ i, 0 < i ∧ declaredParent info i = some "") ∧
    ((∃ st1, buildClouds globals records st = .ok st1) ↔
      ¬ ∃ info ∈ records, ∃ i, 0 < i ∧ declaredParent info i = some "") ∧
    (∀ info ∈ records, declaredParent info 2 = some "" →
      buildClouds globals records st = .error .assertion) := by
  obtain ⟨h1, h2⟩ := buildClouds_error_iff globals records st
  have hiff : (∃ e, buildClouds globals records st = .error e) ↔
      ∃ info ∈ records, ∃ i, 0 < i ∧ declaredParent info i = some "" := by
    rw [h1]
    constructor
    · rintro ⟨info, hmem, h | h⟩
      · exact absurd h (hpresent info hmem)
      · exact ⟨info, hmem, h⟩
    · rintro ⟨info, hmem, h⟩
      exact ⟨info, hmem, Or.inr h⟩
  have hass : buildClouds globals records st = .error .assertion ↔
      ∃ info ∈ records, ∃ i, 0 < i ∧ declaredParent info i = some "" := by
    rw [← hiff]
    constructor
    · intro h
      exact ⟨_, h⟩
    · rintro ⟨e, he⟩
      rw [he, h2 e he]
  refine ⟨hass, ?_, ?_⟩
  · rw [← hiff]
    cases hb : buildClouds globals records st with
    | ok s => simp
    | error e => simp
  · intro info hmem h
    exact hass.2 ⟨info, hmem, 2, by decide, h⟩

theorem buildClouds_fails_iff_malformed_witness :
    (∀ info ∈ scenarioCRecords, allPresent info.className ≠ none) ∧
    (buildClouds allPresent scenarioCRecords initialState = .error .assertion ↔
      ∃ info ∈ scenarioCRecords, ∃ i, 0 < i ∧ declaredParent info i = some "") ∧
    ((∃ st1, buildClouds allPresent scenarioCRecords initialState = .ok st1) ↔
      ¬ ∃ info ∈ scenarioCRecords, ∃ i, 0 < i ∧ declaredParent info i = some "") ∧
    (∀ info ∈ scenarioCRecords, declaredParent info 2 = some "" →
      buildClouds allPresent scenarioCRecords initialState = .error .assertion) :=
  ⟨by decide, buildClouds_fails_iff_malformed allPresent scenarioCRecords initialState
    (by decide)⟩

/-- C18, Scenario A: for the records `R` (one parentless subvtable, range
`[0,1]`, address point 1) and `C` (one subvtable with parent `R`, range
`[0,1]`, address point 1), the traversal of `(R,0)` is `[R, C]`, the merged
sequence of `R` is `[R@0, C@0, R@1, C@1]`, the layout lists are `R = [0,2]`
and `C = [1,3]`, `oldIndexToNew(R, 0, true) = 0`,
`oldIndexToNew(R, -1, true) = -2`, and the cloud size of `R` is 2. -/
theorem scenarioA_values :
    (buildClouds allPresent scenarioARecords initialState).bind
      (fun s => preorder s.cloudMap 2 ("R", 0)) = .ok [("R", 0), ("C", 0)] ∧
    (runOnModule allPresent scenarioARecords 2).map (fun s => s.interleavingMap "R") =
      .ok (some [(("R", 0), 0), (("C", 0), 0), (("R", 0), 1), (("C", 0), 1)]) ∧
    (runOnModule allPresent scenarioARecords 2).map (fun s => s.newLayoutInds ("R", 0)) =
      .ok (some [0, 2]) ∧
    (runOnModule allPresent scenarioARecords 2).map (fun s => s.newLayoutInds ("C", 0)) =
      .ok (some [1, 3]) ∧
    (runOnModule allPresent scenarioARecords 2).bind (fun s => oldIndexToNew s "R" 0 true) =
      .ok 0 ∧
    (runOnModule allPresent scenarioARecords 2).bind (fun s => oldIndexToNew s "R" (-1) true) =
      .ok (-2) ∧
    (runOnModule allPresent scenarioARecords 2).map (fun s => s.cloudSizeMap "R") =
      .ok (some 2) := by
  decide

/-- C20 (amended): `buildClouds` does not tolerate a class without a compiled
table: whenever the class of some record has none, it stops on its assertion
and returns no tables, whatever the other records are. -/
theorem buildClouds_missing_table (globals : vtbl_name_t → Option Unit)
    (records : List nmd_t) (st : SDModule) (info : nmd_t) (hmem : info ∈ records)
    (habsent : globals info.className = none) :
    buildClouds globals records st = .error .assertion := by
  obtain ⟨h1, h2⟩ := buildClouds_error_iff globals records st
  obtain ⟨e, he⟩ := h1.2 ⟨info, hmem, Or.inl habsent⟩
  rw [he, h2 e he]

theorem buildClouds_missing_table_witness :
    ((⟨"C", [⟨0, "R", 0, 1, 1⟩]⟩ : nmd_t) ∈ scenarioARecords ∧ missingTableOfC "C" = none) ∧
    buildClouds missingTableOfC scenarioARecords initialState = .error .assertion :=
  ⟨⟨by decide, by decide⟩,
    buildClouds_missing_table missingTableOfC scenarioARecords initialState
      ⟨"C", [⟨0, "R", 0, 1, 1⟩]⟩ (by decide) (by decide)⟩

/-- C20 as stated fails: with the records of Scenario A and the compiled table
of `C` absent, `buildClouds` returns no state. -/
theorem buildClouds_missing_table_counterexample :
    missingTableOfC "C" = none ∧
    ¬ ∃ st, buildClouds missingTableOfC scenarioARecords initialState = .ok st := by
  refine ⟨by decide, ?_⟩
  rintro ⟨st, h⟩
  have h2 : (buildClouds missingTableOfC scenarioARecords initialState).map (fun s => s.roots) =
      .error .assertion := by decide
  rw [h] at h2
  cases h2

/-! ## Sets in ascending order -/

theorem mem_setInsert {α : Type} [DecidableEq α] (lt : α → α → Prop) [DecidableRel lt]
    (x y : α) : ∀ l : List α, y ∈ setInsert lt x l ↔ y = x ∨ y ∈ l := by
  intro l
  induction l with
  | nil => simp [setInsert]
  | cons z rest ih =>
    simp only [setInsert]
    split
    · rename_i h
      subst h
      simp only [List.mem_cons]
      tauto
    · split
      · simp only [List.mem_cons]
      · simp only [List.mem_cons, ih]
        tauto

theorem setInsert_pairwise {α : Type} [DecidableEq α] (lt : α → α → Prop) [DecidableRel lt]
    (htrans : ∀ a b c, lt a b → lt b c → lt a c)
    (htotal : ∀ a b, ¬ lt a b → a ≠ b → lt b a)
    (x : α) : ∀ l : List α, l.Pairwise lt → (setInsert lt x l).Pairwise lt := by
  intro l
  induction l with
  | nil =>
    intro _
    simp [setInsert]
  | cons z rest ih =>
    intro hl
    simp only [setInsert]
    split
    · exact hl
    · rename_i hne
      split
      · rename_i hlt
        refine List.Pairwise.cons ?_ hl
        intro a ha
        rcases List.mem_cons.1 ha with rfl | ha
        · exact hlt
        · exact htrans _ _ _ hlt (List.rel_of_pairwise_cons hl ha)
      · rename_i hnlt
        refine List.Pairwise.cons ?_ (ih (List.Pairwise.of_cons hl))
        intro a ha
        rcases (mem_setInsert lt x a rest).1 ha with rfl | ha
        · exact htotal _ _ hnlt hne
        · exact List.rel_of_pairwise_cons hl ha

theorem name_lt_iff (a b : vtbl_name_t) : name_lt a b ↔ a < b :=
  (String.lt_iff_toList_lt).symm

theorem name_lt_trans (a b c : vtbl_name_t) (h1 : name_lt a b) (h2 : name_lt b c) :
    name_lt a c := by
  rw [name_lt_iff] at *
  exact lt_trans h1 h2

theorem name_lt_irrefl (a : vtbl_name_t) : ¬ name_lt a a := by
  rw [name_lt_iff]
  exact lt_irrefl a

theorem name_lt_total (a b : vtbl_name_t) (h1 : ¬ name_lt a b) (h2 : a ≠ b) : name_lt b a := by
  rw [name_lt_iff] at *
  exact lt_of_le_of_ne (not_lt.mp h1) (Ne.symm h2)

theorem vtbl_lt_irrefl (a : vtbl_t) : ¬ vtbl_lt a a := by
  rintro (h | ⟨_, h⟩)
  · exact name_lt_irrefl _ h
  · exact Nat.lt_irrefl _ h

theorem vtbl_lt_trans (a b c : vtbl_t) (h1 : vtbl_lt a b) (h2 : vtbl_lt b c) : vtbl_lt a c := by
  rcases h1 with h1 | ⟨e1, h1⟩ <;> rcases h2 with h2 | ⟨e2, h2⟩
  · exact Or.inl (name_lt_trans _ _ _ h1 h2)
  · exact Or.inl (e2 ▸ h1)
  · exact Or.inl (e1 ▸ h2)
  · exact Or.inr ⟨e1.trans e2, Nat.lt_trans h1 h2⟩

theorem vtbl_lt_total (a b : vtbl_t) (h1 : ¬ vtbl_lt a b) (h2 : a ≠ b) : vtbl_lt b a := by
  by_cases hn : a.1 = b.1
  · have h3 : ¬ a.2 < b.2 := fun h => h1 (Or.inr ⟨hn, h⟩)
    have h4 : a.2 ≠ b.2 := fun h => h2 (Prod.ext hn h)
    exact Or.inr ⟨hn.symm, by omega⟩
  · exact Or.inl (name_lt_total _ _ (fun h => h1 (Or.inl h)) hn)

theorem nodup_of_pairwise_vtbl_lt (l : List vtbl_t) (h : l.Pairwise vtbl_lt) : l.Nodup := by
  refine List.Pairwise.imp ?_ h
  intro a b hab heq
  subst heq
  exact vtbl_lt_irrefl _ hab

/-! ## What buildClouds records -/

theorem getD_mapSet {κ ν : Type} [DecidableEq κ] (m : κ → Option (List ν)) (k k' : κ)
    (v : List ν) : (mapSet m k v k').getD [] = if k' = k then v else (m k').getD [] := by
  unfold mapSet
  split <;> rfl

theorem buildSubVTable_spec (cn : vtbl_name_t) (ind : Nat) (sub : nmd_sub_t)
    (st st1 : SDModule) (h : buildSubVTable cn ind sub st = .ok st1) :
    (sub.parentName = "" → ind = 0) ∧
    (∀ q y, y ∈ (st1.cloudMap q).getD [] ↔ y ∈ (st.cloudMap q).getD [] ∨
      (sub.parentName ≠ "" ∧ q = (sub.parentName, 0) ∧ y = (cn, ind))) ∧
    (∀ c, c ∈ st1.roots ↔ c ∈ st.roots ∨ (sub.parentName = "" ∧ c = cn)) ∧
    (∀ c, (st1.addrPtMap c).getD [] =
      (st.addrPtMap c).getD [] ++ if c = cn then [sub.addressPoint] else []) ∧
    (∀ c, (st1.rangeMap c).getD [] =
      (st.rangeMap c).getD [] ++ if c = cn then [(sub.start, sub.end_)] else []) ∧
    ((∀ q, ((st.cloudMap q).getD []).Pairwise vtbl_lt) →
      ∀ q, ((st1.cloudMap q).getD []).Pairwise vtbl_lt) ∧
    (st1.newLayoutInds = st.newLayoutInds ∧ st1.cloudSizeMap = st.cloudSizeMap ∧
      st1.interleavingMap = st.interleavingMap) := by
  unfold buildSubVTable at h
  have htab : ∀ (s : SDModule),
      (∀ c, ((mapSet s.addrPtMap cn ((s.addrPtMap cn).getD [] ++ [sub.addressPoint])) c).getD [] =
        (s.addrPtMap c).getD [] ++ if c = cn then [sub.addressPoint] else []) ∧
      (∀ c, ((mapSet s.rangeMap cn ((s.rangeMap cn).getD [] ++ [(sub.start, sub.end_)])) c).getD [] =
        (s.rangeMap c).getD [] ++ if c = cn then [(sub.start, sub.end_)] else []) := by
    intro s
    constructor <;> intro c <;> rw [getD_mapSet] <;> by_cases hc : c = cn <;> simp [hc]
  by_cases hp : sub.parentName = ""
  · by_cases hi : ind = 0
    · simp only [hp, ne_eq, not_true_eq_false, if_false, hi, if_true] at h
      have h := Except.ok.inj h
      subst h
      subst hi
      refine ⟨fun _ => rfl, ?_, ?_, (htab _).1, (htab _).2, ?_, rfl, rfl, rfl⟩
      · intro q y
        simp only [hp, ne_eq, not_true_eq_false, false_and, or_false]
        cases hc : st.cloudMap (cn, 0) with
        | none =>
          simp only
          rw [getD_mapSet]
          split
          · rename_i hq
            rw [hq, hc]
            rfl
          · rfl
        | some _ => rfl
      · intro c
        simp only [hp, true_and]
        rw [mem_setInsert]
        tauto
      · intro hs q
        cases hc : st.cloudMap (cn, 0) with
        | none =>
          simp only
          rw [getD_mapSet]
          split
          · exact List.Pairwise.nil
          · exact hs q
        | some _ => exact hs q
    · simp [hp, hi] at h
  · simp only [ne_eq, hp, not_false_eq_true, if_true] at h
    have h := Except.ok.inj h
    subst h
    refine ⟨fun h => absurd h hp, ?_, ?_, (htab _).1, (htab _).2, ?_, rfl, rfl, rfl⟩
    · intro q y
      simp only [ne_eq, hp, not_false_eq_true, true_and]
      show y ∈ ((mapSet st.cloudMap (sub.parentName, 0) _) q).getD [] ↔ _
      rw [getD_mapSet]
      split
      · rename_i hq
        rw [mem_setInsert, hq]
        tauto
      · rename_i hq
        simp [hq]
    · intro c
      simp only [hp, false_and, or_false]
    · intro hs q
      show (((mapSet st.cloudMap (sub.parentName, 0) _) q).getD []).Pairwise vtbl_lt
      rw [getD_mapSet]
      split
      · exact setInsert_pairwise vtbl_lt vtbl_lt_trans vtbl_lt_total _ _ (hs _)
      · exact hs q

theorem exists_get?_cons {α : Type} (a : α) (l : List α) (P : Nat → α → Prop) :
    (∃ k x, (a :: l).get? k = some x ∧ P k x) ↔
      P 0 a ∨ ∃ k x, l.get? k = some x ∧ P (k + 1) x := by
  constructor
  · rintro ⟨k, x, hk, hP⟩
    cases k with
    | zero =>
      simp only [List.get?_cons_zero, Option.some.injEq] at hk
      subst hk
      exact Or.inl hP
    | succ k => exact Or.inr ⟨k, x, by simpa using hk, hP⟩
  · rintro (h | ⟨k, x, hk, hP⟩)
    · exact ⟨0, a, rfl, h⟩
    · exact ⟨k + 1, x, by simpa using hk, hP⟩

theorem buildSubVTables_spec (cn : vtbl_name_t) :
    ∀ (subs : List nmd_sub_t) (ind : Nat) (st st1 : SDModule),
      buildSubVTables cn ind subs st = .ok st1 →
      (∀ q y, y ∈ (st1.cloudMap q).getD [] ↔ y ∈ (st.cloudMap q).getD [] ∨
        ∃ k sub, subs.get? k = some sub ∧
          (sub.parentName ≠ "" ∧ q = (sub.parentName, 0) ∧ y = (cn, ind + k))) ∧
      (∀ c, c ∈ st1.roots ↔ c ∈ st.roots ∨
        ∃ k sub, subs.get? k = some sub ∧ (sub.parentName = "" ∧ ind + k = 0 ∧ c = cn)) ∧
      (∀ c, (st1.addrPtMap c).getD [] =
        (st.addrPtMap c).getD [] ++
          if c = cn then subs.map (fun sub => sub.addressPoint) else []) ∧
      (∀ c, (st1.rangeMap c).getD [] =
        (st.rangeMap c).getD [] ++
          if c = cn then subs.map (fun sub => (sub.start, sub.end_)) else []) ∧
      ((∀ q, ((st.cloudMap q).getD []).Pairwise vtbl_lt) →
        ∀ q, ((st1.cloudMap q).getD []).Pairwise vtbl_lt) ∧
      (st1.newLayoutInds = st.newLayoutInds ∧ st1.cloudSizeMap = st.cloudSizeMap ∧
        st1.interleavingMap = st.interleavingMap) := by
  intro subs
  induction subs with
  | nil =>
    intro ind st st1 h
    simp only [buildSubVTables] at h
    have h := Except.ok.inj h
    subst h
    simp
  | cons sub rest ih =>
    intro ind st st2 h
    simp only [buildSubVTables] at h
    cases hstep : buildSubVTable cn ind sub st with
    | error e =>
      rw [hstep] at h
      cases h
    | ok st1 =>
      rw [hstep] at h
      simp only at h
      obtain ⟨s0, s1, s2, s3, s4, s5, s6, s7, s8⟩ := buildSubVTable_spec cn ind sub st st1 hstep
      obtain ⟨t1, t2, t3, t4, t5, t6, t7, t8⟩ := ih (ind + 1) st1 st2 h
      refine ⟨?_, ?_, ?_, ?_, fun hs => t5 (s5 hs), t6.trans s6, t7.trans s7, t8.trans s8⟩
      · intro q y
        rw [t1, s1, exists_get?_cons, or_assoc]
        simp only [Nat.add_zero, Nat.add_assoc, Nat.add_comm 1]
      · intro c
        rw [t2, s2, exists_get?_cons, or_assoc]
        simp only [Nat.add_zero, Nat.add_assoc, Nat.add_comm 1]
        constructor
        · rintro (h | h | h)
          · exact Or.inl h
          · exact Or.inr (Or.inl ⟨h.1, s0 h.1, h.2⟩)
          · exact Or.inr (Or.inr h)
        · rintro (h | h | h)
          · exact Or.inl h
          · exact Or.inr (Or.inl ⟨h.1, h.2.2⟩)
          · exact Or.inr (Or.inr h)
      · intro c
        rw [t3, s3, List.append_assoc]
        by_cases hc : c = cn <;> simp [hc]
      · intro c
        rw [t4, s4, List.append_assoc]
        by_cases hc : c = cn <;> simp [hc]

theorem buildRecord_spec (globals : vtbl_name_t → Option Unit) (st st1 : SDModule)
    (info : nmd_t) (h : buildRecord globals st info = .ok st1) :
    (∀ q y, y ∈ (st1.cloudMap q).getD [] ↔ y ∈ (st.cloudMap q).getD [] ∨
      ∃ p, declaredParent info y.2 = some p ∧ p ≠ "" ∧ q = (p, 0) ∧ y.1 = info.className) ∧
    (∀ c, c ∈ st1.roots ↔ c ∈ st.roots ∨
      (info.className = c ∧ declaredParent info 0 = some "")) ∧
    (∀ c, (st1.addrPtMap c).getD [] =
      (st.addrPtMap c).getD [] ++
        if info.className = c then info.subVTables.map (fun sub => sub.addressPoint) else []) ∧
    (∀ c, (st1.rangeMap c).getD [] =
      (st.rangeMap c).getD [] ++
        if info.className = c then info.subVTables.map (fun sub => (sub.start, sub.end_))
        else []) ∧
    ((∀ q, ((st.cloudMap q).getD []).Pairwise vtbl_lt) →
      ∀ q, ((st1.cloudMap q).getD []).Pairwise vtbl_lt) ∧
    (st1.newLayoutInds = st.newLayoutInds ∧ st1.cloudSizeMap = st.cloudSizeMap ∧
      st1.interleavingMap = st.interleavingMap) := by
  unfold buildRecord at h
  cases hg : globals info.className with
  | none =>
    rw [hg] at h
    cases h
  | some vtable =>
    rw [hg] at h
    simp only at h
    obtain ⟨t1, t2, t3, t4, t5, t6, t7, t8⟩ :=
      buildSubVTables_spec info.className info.subVTables 0 _ st1 h
    refine ⟨?_, ?_, ?_, ?_, t5, t6, t7, t8⟩
    · intro q y
      rw [t1]
      apply or_congr Iff.rfl
      simp only [declaredParent, Option.map_eq_some', Nat.zero_add]
      constructor
      · rintro ⟨k, sub, hk, hp, hq, hy⟩
        subst hy
        exact ⟨sub.parentName, ⟨sub, hk, rfl⟩, hp, hq, rfl⟩
      · rintro ⟨p, ⟨sub, hk, hs⟩, hp, hq, hy⟩
        subst hs
        exact ⟨y.2, sub, hk, hp, hq, Prod.ext hy rfl⟩
    · intro c
      rw [t2]
      apply or_congr Iff.rfl
      simp only [declaredParent, Option.map_eq_some', Nat.zero_add]
      constructor
      · rintro ⟨k, sub, hk, hp, h0, hc⟩
        subst h0
        exact ⟨hc.symm, sub, hk, hp⟩
      · rintro ⟨hc, sub, hk, hp⟩
        exact ⟨0, sub, hk, hp, rfl, hc.symm⟩
    · intro c
      rw [t3]
      by_cases hc : c = info.className
      · subst hc
        simp
      · simp [hc, Ne.symm hc]
    · intro c
      rw [t4]
      by_cases hc : c = info.className
      · subst hc
        simp
      · simp [hc, Ne.symm hc]

theorem buildClouds_spec (globals : vtbl_name_t → Option Unit) :
    ∀ (records : List nmd_t) (st st1 : SDModule),
      buildClouds globals records st = .ok st1 →
      (∀ q y, y ∈ (st1.cloudMap q).getD [] ↔ y ∈ (st.cloudMap q).getD [] ∨
        ∃ info ∈ records, ∃ p, declaredParent info y.2 = some p ∧ p ≠ "" ∧ q = (p, 0) ∧
          y.1 = info.className) ∧
      (∀ c, c ∈ st1.roots ↔ c ∈ st.roots ∨
        ∃ info ∈ records, info.className = c ∧ declaredParent info 0 = some "") ∧
      (∀ c, (st1.addrPtMap c).getD [] =
        (st.addrPtMap c).getD [] ++ records.flatMap (fun info =>
          if info.className = c then info.subVTables.map (fun sub => sub.addressPoint)
          else [])) ∧
      (∀ c, (st1.rangeMap c).getD [] =
        (st.rangeMap c).getD [] ++ records.flatMap (fun info =>
          if info.className = c then info.subVTables.map (fun sub => (sub.start, sub.end_))
          else [])) ∧
      ((∀ q, ((st.cloudMap q).getD []).Pairwise vtbl_lt) →
        ∀ q, ((st1.cloudMap q).getD []).Pairwise vtbl_lt) ∧
      (st1.newLayoutInds = st.newLayoutInds ∧ st1.cloudSizeMap = st.cloudSizeMap ∧
        st1.interleavingMap = st.interleavingMap) := by
  intro records
  induction records with
  | nil =>
    intro st st1 h
    rw [buildClouds_nil] at h
    have h := Except.ok.inj h
    subst h
    simp
  | cons info rest ih =>
    intro st st2 h
    rw [buildClouds_cons] at h
    cases hstep : buildRecord globals st info with
    | error e =>
      rw [hstep] at h
      cases h
    | ok st1 =>
      rw [hstep] at h
      simp only at h
      obtain ⟨s1, s2, s3, s4, s5, s6, s7, s8⟩ := buildRecord_spec globals st st1 info hstep
      obtain ⟨t1, t2, t3, t4, t5, t6, t7, t8⟩ := ih st1 st2 h
      refine ⟨?_, ?_, ?_, ?_, fun hs => t5 (s5 hs), t6.trans s6, t7.trans s7, t8.trans s8⟩
      · intro q y
        rw [t1, s1, or_assoc]
        simp only [List.mem_cons, exists_eq_or_imp]
      · intro c
        rw [t2, s2, or_assoc]
        simp only [List.mem_cons, exists_eq_or_imp]
      · intro c
        rw [t3, s3, List.append_assoc, List.flatMap_cons]
      · intro c
        rw [t4, s4, List.append_assoc, List.flatMap_cons]

theorem buildClouds_initial (globals : vtbl_name_t → Option Unit) (records : List nmd_t)
    (st : SDModule) (h : buildClouds globals records initialState = .ok st) :
    (∀ q y, isChild st.cloudMap q y ↔
      ∃ info ∈ records, ∃ p, declaredParent info y.2 = some p ∧ p ≠ "" ∧ q = (p, 0) ∧
        y.1 = info.className) ∧
    (∀ c, c ∈ st.roots ↔ ∃ info ∈ records, info.className = c ∧ declaredParent info 0 = some "") ∧
    (∀ c, (st.addrPtMap c).getD [] = records.flatMap (fun info =>
        if info.className = c then info.subVTables.map (fun sub => sub.addressPoint) else [])) ∧
    (∀ c, (st.rangeMap c).getD [] = records.flatMap (fun info =>
        if info.className = c then info.subVTables.map (fun sub => (sub.start, sub.end_))
        else [])) ∧
    (∀ q, ((st.cloudMap q).getD []).Pairwise vtbl_lt) ∧
    (st.newLayoutInds = fun _ => none) ∧ (st.cloudSizeMap = fun _ => none) ∧
    (st.interleavingMap = fun _ => none) := by
  obtain ⟨t1, t2, t3, t4, t5, t6, t7, t8⟩ := buildClouds_spec globals records initialState st h
  refine ⟨?_, ?_, ?_, ?_, t5 (fun _ => List.Pairwise.nil), t6, t7, t8⟩
  · intro q y
    unfold isChild
    rw [t1]
    simp [initialState]
  · intro c
    rw [t2]
    simp [initialState]
  · intro c
    rw [t3]
    simp [initialState]
  · intro c
    rw [t4]
    simp [initialState]

theorem flatMap_of_distinct {α β γ : Type} [DecidableEq β] (f : α → β) (g : α → List γ) :
    ∀ (l : List α) (a : α), (l.map f).Nodup → a ∈ l →
      l.flatMap (fun b => if f b = f a then g b else []) = g a := by
  intro l
  induction l with
  | nil =>
    intro a _ ha
    cases ha
  | cons b rest ih =>
    intro a hnd ha
    rw [List.map_cons, List.nodup_cons] at hnd
    rw [List.flatMap_cons]
    rcases List.mem_cons.1 ha with rfl | ha
    · have hrest : rest.flatMap (fun b => if f b = f a then g b else []) = [] := by
        rw [List.flatMap_eq_nil_iff]
        intro x hx
        have hne : f x ≠ f a := fun e => hnd.1 (e ▸ List.mem_map_of_mem f hx)
        simp [hne]
      simp [hrest]
    · have hne : f b ≠ f a := fun e => hnd.1 (e ▸ List.mem_map_of_mem f ha)
      simp only [hne, if_false, List.nil_append]
      exact ih a hnd.2 ha

theorem record_unique (records : List nmd_t) (hdistinct : distinctNames records)
    (a b : nmd_t) (ha : a ∈ records) (hb : b ∈ records) (hab : a.className = b.className) :
    a = b :=
  List.inj_on_of_nodup_map hdistinct ha hb hab

/-- C13: when `buildClouds` succeeds on a fresh `SDModule`, the forest it
leaves is exactly the declared one: `(c,i)` is in the child set of `(p,0)` if
and only if `p` is not empty and some record of class `c` declares `p` as the
parent of its subvtable at position `i`; no node `(p,k)` with `k ≠ 0` has a
child; and a class is in `roots` if and only if some record of that class has
a first subvtable that declares no parent. -/
theorem buildClouds_forest (globals : vtbl_name_t → Option Unit) (records : List nmd_t)
    (st : SDModule) (hbuild : buildClouds globals records initialState = .ok st) :
    (∀ c i p, (c, i) ∈ (st.cloudMap (p, 0)).getD [] ↔
      (p ≠ "" ∧ ∃ info ∈ records, info.className = c ∧ declaredParent info i = some p)) ∧
    (∀ p k, k ≠ 0 → (st.cloudMap (p, k)).getD [] = []) ∧
    (∀ c, c ∈ st.roots ↔
      ∃ info ∈ records, info.className = c ∧ declaredParent info 0 = some "") := by
  obtain ⟨t1, t2, -⟩ := buildClouds_initial globals records st hbuild
  refine ⟨?_, ?_, t2⟩
  · intro c i p
    have := t1 (p, 0) (c, i)
    unfold isChild at this
    rw [this]
    constructor
    · rintro ⟨info, hmem, p', hd, hp, hq, hc⟩
      have hpp : p = p' := congrArg Prod.fst hq
      subst hpp
      exact ⟨hp, info, hmem, hc.symm, hd⟩
    · rintro ⟨hp, info, hmem, hc, hd⟩
      exact ⟨info, hmem, p, hd, hp, rfl, hc.symm⟩
  · intro p k hk
    rw [List.eq_nil_iff_forall_not_mem]
    intro y hy
    obtain ⟨info, _, p', _, _, hq, _⟩ := (t1 (p, k) y).1 hy
    exact hk (congrArg Prod.snd hq)

theorem buildClouds_forest_witness :
    buildClouds allPresent scenarioARecords initialState =
      .ok (built allPresent scenarioARecords) ∧
    (∀ c i p, (c, i) ∈ ((built allPresent scenarioARecords).cloudMap (p, 0)).getD [] ↔
      (p ≠ "" ∧ ∃ info ∈ scenarioARecords, info.className = c ∧
        declaredParent info i = some p)) ∧
    (∀ p k, k ≠ 0 → ((built allPresent scenarioARecords).cloudMap (p, k)).getD [] = []) ∧
    (∀ c, c ∈ (built allPresent scenarioARecords).roots ↔
      ∃ info ∈ scenarioARecords, info.className = c ∧ declaredParent info 0 = some "") :=
  ⟨rfl, buildClouds_forest allPresent scenarioARecords (built allPresent scenarioARecords) rfl⟩

/-- C14: when `buildClouds` succeeds on a fresh `SDModule` and records with
pairwise distinct class names, then for every record, of class `c` with `n`
subvtables, `addrPtMap[c]` and `rangeMap[c]` both have length `n`, and for
every `i < n` the read `addrPtMap[c][i]` gives the address point of the `i`-th
subvtable and `rangeMap[c][i]` its `(start, end)`. -/
theorem buildClouds_tables (globals : vtbl_name_t → Option Unit) (records : List nmd_t)
    (st : SDModule) (hdistinct : distinctNames records)
    (hbuild : buildClouds globals records initialState = .ok st)
    (info : nmd_t) (hmem : info ∈ records) :
    ((st.addrPtMap info.className).getD []).length = info.subVTables.length ∧
    ((st.rangeMap info.className).getD []).length = info.subVTables.length ∧
    ∀ i sub, info.subVTables.get? i = some sub →
      addrPtAt st.addrPtMap (info.className, i) = .ok sub.addressPoint ∧
      rangeAt st.rangeMap (info.className, i) = .ok (sub.start, sub.end_) := by
  obtain ⟨-, -, t3, t4, -⟩ := buildClouds_initial globals records st hbuild
  have h3 := t3 info.className
  have h4 := t4 info.className
  rw [flatMap_of_distinct (fun i : nmd_t => i.className) _ records info hdistinct hmem] at h3 h4
  refine ⟨by rw [h3, List.length_map], by rw [h4, List.length_map], ?_⟩
  intro i sub hi
  rw [List.get?_eq_getElem?] at hi
  constructor
  · simp only [addrPtAt, vecAt, h3, List.get?_eq_getElem?, List.getElem?_map, hi, Option.map_some']
  · simp only [rangeAt, vecAt, h4, List.get?_eq_getElem?, List.getElem?_map, hi, Option.map_some']

theorem buildClouds_tables_witness :
    (distinctNames scenarioARecords ∧
      buildClouds allPresent scenarioARecords initialState =
        .ok (built allPresent scenarioARecords) ∧
      (⟨"C", [⟨0, "R", 0, 1, 1⟩]⟩ : nmd_t) ∈ scenarioARecords) ∧
    (((built allPresent scenarioARecords).addrPtMap "C").getD []).length = 1 ∧
    (((built allPresent scenarioARecords).rangeMap "C").getD []).length = 1 ∧
    ∀ i sub, [(⟨0, "R", 0, 1, 1⟩ : nmd_sub_t)].get? i = some sub →
      addrPtAt (built allPresent scenarioARecords).addrPtMap ("C", i) = .ok sub.addressPoint ∧
      rangeAt (built allPresent scenarioARecords).rangeMap ("C", i) =
        .ok (sub.start, sub.end_) :=
  ⟨⟨by decide, rfl, by decide⟩,
    buildClouds_tables allPresent scenarioARecords (built allPresent scenarioARecords)
      (by decide) rfl ⟨"C", [⟨0, "R", 0, 1, 1⟩]⟩ (by decide)⟩

/-- C16, tree property: in the cloud map that `buildClouds` leaves for records
with pairwise distinct class names, every subvtable that occurs in some child
set occurs in the child set of exactly one parent node, and once in it; and
the primary subvtable of a root occurs in no child set. -/
theorem buildClouds_tree_property (globals : vtbl_name_t → Option Unit) (records : List nmd_t)
    (st : SDModule) (hdistinct : distinctNames records)
    (hbuild : buildClouds globals records initialState = .ok st) :
    (∀ x, (∃ p, x ∈ (st.cloudMap p).getD []) → ∃! p, x ∈ (st.cloudMap p).getD []) ∧
    (∀ p, ((st.cloudMap p).getD []).Nodup) ∧
    (∀ r ∈ st.roots, ∀ p, (r, 0) ∉ (st.cloudMap p).getD []) := by
  obtain ⟨t1, t2, -, -, t5, -⟩ := buildClouds_initial globals records st hbuild
  unfold isChild at t1
  refine ⟨?_, fun p => nodup_of_pairwise_vtbl_lt _ (t5 p), ?_⟩
  · rintro x ⟨p, hp⟩
    refine ⟨p, hp, ?_⟩
    intro q hq
    obtain ⟨i1, hm1, p1, hd1, -, hq1, hc1⟩ := (t1 p x).1 hp
    obtain ⟨i2, hm2, p2, hd2, -, hq2, hc2⟩ := (t1 q x).1 hq
    have := record_unique records hdistinct i1 i2 hm1 hm2 (hc1.symm.trans hc2)
    subst this
    rw [hd1] at hd2
    have := Option.some.inj hd2
    subst this
    rw [hq1, hq2]
  · intro r hr p hp
    obtain ⟨i1, hm1, hc1, hd1⟩ := (t2 r).1 hr
    obtain ⟨i2, hm2, p2, hd2, hne, -, hc2⟩ := (t1 p (r, 0)).1 hp
    have := record_unique records hdistinct i1 i2 hm1 hm2 (hc1.trans hc2)
    subst this
    rw [hd1] at hd2
    exact hne (Option.some.inj hd2).symm

theorem buildClouds_tree_property_witness :
    (distinctNames scenarioARecords ∧
      buildClouds allPresent scenarioARecords initialState =
        .ok (built allPresent scenarioARecords)) ∧
    (∀ x, (∃ p, x ∈ ((built allPresent scenarioARecords).cloudMap p).getD []) →
      ∃! p, x ∈ ((built allPresent scenarioARecords).cloudMap p).getD []) ∧
    (∀ p, (((built allPresent scenarioARecords).cloudMap p).getD []).Nodup) ∧
    (∀ r ∈ (built allPresent scenarioARecords).roots, ∀ p,
      (r, 0) ∉ ((built allPresent scenarioARecords).cloudMap p).getD []) :=
  ⟨⟨by decide, rfl⟩,
    buildClouds_tree_property allPresent scenarioARecords (built allPresent scenarioARecords)
      (by decide) rfl⟩

/-! ## Trees -/

theorem isPathTo_cons (cm : cloud_map_t) (v x c : vtbl_t) (anc : List vtbl_t)
    (hp : isPathTo cm v (x :: anc)) (hc : isChild cm x c) : isPathTo cm v (c :: x :: anc) :=
  ⟨hc, hp⟩

theorem isPathTo_mem (cm : cloud_map_t) (v : vtbl_t) (nodes : List vtbl_t)
    (htree : isTree cm v nodes) :
    ∀ l : List vtbl_t, isPathTo cm v l → ∀ y ∈ l, y ∈ nodes := by
  intro l
  induction l with
  | nil =>
    intro _ y hy
    cases hy
  | cons x rest ih =>
    intro hp y hy
    cases rest with
    | nil =>
      have hx : x = v := hp
      rcases List.mem_cons.1 hy with rfl | hy
      · rw [hx]
        exact htree.1
      · cases hy
    | cons p r =>
      have hp' : isChild cm p x ∧ isPathTo cm v (p :: r) := hp
      rcases List.mem_cons.1 hy with rfl | hy
      · exact htree.2.1 p (ih hp'.2 p (List.mem_cons_self _ _)) _ hp'.1
      · exact ih hp'.2 y hy

theorem isPathTo_unique (cm : cloud_map_t) (v : vtbl_t) (nodes : List vtbl_t)
    (htree : isTree cm v nodes) :
    ∀ (a1 a2 : List vtbl_t) (x : vtbl_t),
      isPathTo cm v (x :: a1) → isPathTo cm v (x :: a2) → a1 = a2 := by
  intro a1
  induction a1 with
  | nil =>
    intro a2 x h1 h2
    have hx : x = v := h1
    cases a2 with
    | nil => rfl
    | cons p r =>
      have h2' : isChild cm p x ∧ isPathTo cm v (p :: r) := h2
      have hp := isPathTo_mem cm v nodes htree _ h2'.2 p (List.mem_cons_self _ _)
      rw [hx] at h2'
      exact absurd h2'.1 (htree.2.2.2.1 p hp)
  | cons p1 r1 ih =>
    intro a2 x h1 h2
    have h1' : isChild cm p1 x ∧ isPathTo cm v (p1 :: r1) := h1
    have hp1 := isPathTo_mem cm v nodes htree _ h1'.2 p1 (List.mem_cons_self _ _)
    cases a2 with
    | nil =>
      have hx : x = v := h2
      rw [hx] at h1'
      exact absurd h1'.1 (htree.2.2.2.1 p1 hp1)
    | cons p2 r2 =>
      have h2' : isChild cm p2 x ∧ isPathTo cm v (p2 :: r2) := h2
      have hp2 := isPathTo_mem cm v nodes htree _ h2'.2 p2 (List.mem_cons_self _ _)
      have hpp : p1 = p2 := htree.2.2.1 p1 hp1 p2 hp2 x h1'.1 h2'.1
      subst hpp
      rw [ih r2 p1 h1'.2 h2'.2]

theorem isPathTo_suffix (cm : cloud_map_t) (v : vtbl_t) :
    ∀ (l1 : List vtbl_t) (x : vtbl_t) (l2 : List vtbl_t),
      isPathTo cm v (l1 ++ x :: l2) → isPathTo cm v (x :: l2) := by
  intro l1
  induction l1 with
  | nil =>
    intro x l2 h
    exact h
  | cons a r ih =>
    intro x l2 h
    cases r with
    | nil =>
      have h' : isChild cm x a ∧ isPathTo cm v (x :: l2) := h
      exact h'.2
    | cons b r' =>
      have h' : isChild cm b a ∧ isPathTo cm v (b :: (r' ++ x :: l2)) := h
      exact ih x l2 h'.2

theorem child_not_mem_path (cm : cloud_map_t) (v : vtbl_t) (nodes : List vtbl_t)
    (htree : isTree cm v nodes) (x c : vtbl_t) (anc : List vtbl_t)
    (hp : isPathTo cm v (x :: anc)) (hc : isChild cm x c) : c ∉ x :: anc := by
  intro hmem
  obtain ⟨l1, l2, hsplit⟩ := List.append_of_mem hmem
  have h1 : isPathTo cm v (c :: l2) := by
    apply isPathTo_suffix cm v l1
    rw [← hsplit]
    exact hp
  have h2 := isPathTo_unique cm v nodes htree _ _ c h1 (isPathTo_cons cm v x c anc hp hc)
  have hlen := congrArg List.length hsplit
  rw [h2] at hlen
  simp only [List.length_append, List.length_cons] at hlen
  omega

theorem isPathTo_nodup (cm : cloud_map_t) (v : vtbl_t) (nodes : List vtbl_t)
    (htree : isTree cm v nodes) :
    ∀ l : List vtbl_t, isPathTo cm v l → l.Nodup := by
  intro l
  induction l with
  | nil =>
    intro _
    exact List.nodup_nil
  | cons x rest ih =>
    intro hp
    cases rest with
    | nil => exact List.nodup_singleton _
    | cons p r =>
      have hp' : isChild cm p x ∧ isPathTo cm v (p :: r) := hp
      exact List.nodup_cons.2 ⟨child_not_mem_path cm v nodes htree p x r hp'.2 hp'.1, ih hp'.2⟩

theorem isPathTo_length (cm : cloud_map_t) (v : vtbl_t) (nodes : List vtbl_t)
    (htree : isTree cm v nodes) (l : List vtbl_t) (hp : isPathTo cm v l) :
    l.length ≤ nodes.length :=
  (List.subperm_of_subset (isPathTo_nodup cm v nodes htree l hp)
    (isPathTo_mem cm v nodes htree l hp)).length_le

theorem path_of_reachable (cm : cloud_map_t) (v x : vtbl_t) (anc : List vtbl_t)
    (hp : isPathTo cm v (x :: anc)) (z : vtbl_t) (hz : reachable cm x z) :
    ∃ d, isPathTo cm v (z :: d) ∧ (x :: anc) <:+ (z :: d) := by
  induction hz with
  | refl => exact ⟨anc, hp, List.suffix_refl _⟩
  | tail _ hstep ih =>
    obtain ⟨d, hd, hs⟩ := ih
    exact ⟨_ :: d, isPathTo_cons cm v _ _ d hd hstep, hs.trans (List.suffix_cons _ _)⟩

theorem subtrees_disjoint (cm : cloud_map_t) (v : vtbl_t) (nodes : List vtbl_t)
    (htree : isTree cm v nodes) (x c1 c2 : vtbl_t) (anc : List vtbl_t)
    (hp : isPathTo cm v (x :: anc)) (h1 : isChild cm x c1) (h2 : isChild cm x c2)
    (z : vtbl_t) (hz1 : reachable cm c1 z) (hz2 : reachable cm c2 z) : c1 = c2 := by
  obtain ⟨d1, hd1, hs1⟩ := path_of_reachable cm v c1 _ (isPathTo_cons cm v x c1 anc hp h1) z hz1
  obtain ⟨d2, hd2, hs2⟩ := path_of_reachable cm v c2 _ (isPathTo_cons cm v x c2 anc hp h2) z hz2
  have hdd := isPathTo_unique cm v nodes htree d1 d2 z hd1 hd2
  subst hdd
  have hlen : (c1 :: x :: anc).length = (c2 :: x :: anc).length := rfl
  rcases List.suffix_or_suffix_of_suffix hs1 hs2 with h | h
  · exact List.head_eq_of_cons_eq (h.eq_of_length hlen)
  · exact (List.head_eq_of_cons_eq (h.eq_of_length hlen.symm)).symm

theorem not_reachable_parent (cm : cloud_map_t) (v : vtbl_t) (nodes : List vtbl_t)
    (htree : isTree cm v nodes) (x c : vtbl_t) (anc : List vtbl_t)
    (hp : isPathTo cm v (x :: anc)) (hc : isChild cm x c) : ¬ reachable cm c x := by
  intro hr
  obtain ⟨d, hd, hs⟩ := path_of_reachable cm v c _ (isPathTo_cons cm v x c anc hp hc) x hr
  have hdd := isPathTo_unique cm v nodes htree d anc x hd hp
  subst hdd
  have := hs.length_le
  simp only [List.length_cons] at this
  omega

/-! ## The traversal lists what is reachable -/

theorem preorder_zero (cm : cloud_map_t) (x : vtbl_t) : preorder cm 0 x = .error .outOfFuel := rfl

theorem isChild_of_mem (cm : cloud_map_t) (x c : vtbl_t) (children : cloud_map_children_t)
    (hcm : cm x = some children) (hc : c ∈ children) : isChild cm x c := by
  unfold isChild
  rw [hcm]
  exact hc

theorem preorderChildren_reachable (cm : cloud_map_t) (fuel : Nat)
    (ih : ∀ x Q, preorder cm fuel x = .ok Q → ∀ z ∈ Q, reachable cm x z) :
    ∀ (cs : cloud_map_children_t) (L : order_t), preorderChildren cm fuel [] cs = .ok L →
      ∀ z ∈ L, ∃ c ∈ cs, reachable cm c z := by
  intro cs
  induction cs with
  | nil =>
    intro L h z hz
    rw [preorderChildren_nil] at h
    rw [← Except.ok.inj h] at hz
    cases hz
  | cons c rest ihl =>
    intro L h z hz
    obtain ⟨Q, L2, hQ, hL2, hL⟩ := preorderChildren_cons_inv cm fuel c rest L h
    rw [hL] at hz
    rcases List.mem_append.1 hz with hz | hz
    · exact ⟨c, List.mem_cons_self _ _, ih c Q hQ z hz⟩
    · obtain ⟨c', hc', hr⟩ := ihl L2 hL2 z hz
      exact ⟨c', List.mem_cons_of_mem _ hc', hr⟩

theorem preorder_reachable (cm : cloud_map_t) :
    ∀ (fuel : Nat) (x : vtbl_t) (Q : order_t), preorder cm fuel x = .ok Q →
      ∀ z ∈ Q, reachable cm x z := by
  intro fuel
  induction fuel with
  | zero =>
    intro x Q h
    rw [preorder_zero] at h
    cases h
  | succ fuel ih =>
    intro x Q h z hz
    rcases preorder_succ_inv cm fuel x Q h with ⟨_, hQ⟩ | ⟨children, L, hcm, hL, hQ⟩
    · rw [hQ] at hz
      rw [List.mem_singleton.1 hz]
      exact Relation.ReflTransGen.refl
    · rw [hQ] at hz
      rcases List.mem_cons.1 hz with hz | hz
      · rw [hz]
        exact Relation.ReflTransGen.refl
      · obtain ⟨c, hc, hr⟩ := preorderChildren_reachable cm fuel ih children L hL z hz
        exact Relation.ReflTransGen.head (isChild_of_mem cm x c children hcm hc) hr

theorem preorderChildren_mem (cm : cloud_map_t) (fuel : Nat) :
    ∀ (cs : cloud_map_children_t) (L : order_t), preorderChildren cm fuel [] cs = .ok L →
      ∀ c ∈ cs, c ∈ L := by
  intro cs
  induction cs with
  | nil =>
    intro L _ c hc
    cases hc
  | cons c0 rest ihl =>
    intro L h c hc
    obtain ⟨Q, L2, hQ, hL2, hL⟩ := preorderChildren_cons_inv cm fuel c0 rest L h
    rw [hL]
    rcases List.mem_cons.1 hc with rfl | hc
    · obtain ⟨T, hT⟩ := preorder_head cm fuel c Q hQ
      rw [hT]
      exact List.mem_append_left _ (List.mem_cons_self _ _)
    · exact List.mem_append_right _ (ihl L2 hL2 c hc)

theorem preorder_child_mem (cm : cloud_map_t) (fuel : Nat) (x : vtbl_t) (Q : order_t)
    (h : preorder cm fuel x = .ok Q) (c : vtbl_t) (hc : isChild cm x c) :
    ∃ T, Q = x :: T ∧ c ∈ T := by
  cases fuel with
  | zero =>
    rw [preorder_zero] at h
    cases h
  | succ fuel =>
    rcases preorder_succ_inv cm fuel x Q h with ⟨hcm, _⟩ | ⟨children, L, hcm, hL, hQ⟩
    · unfold isChild at hc
      rw [hcm] at hc
      cases hc
    · unfold isChild at hc
      rw [hcm] at hc
      exact ⟨L, hQ, preorderChildren_mem cm fuel children L hL c hc⟩

theorem preorder_closed (cm : cloud_map_t) (fuel : Nat) (x : vtbl_t) (Q : order_t)
    (h : preorder cm fuel x = .ok Q) (y : vtbl_t) (hy : y ∈ Q) (c : vtbl_t)
    (hc : isChild cm y c) : c ∈ Q := by
  obtain ⟨Qy, A, B, hQy, hsplit⟩ := preorder_subtree cm fuel x Q h y hy
  obtain ⟨T, hT, hmem⟩ := preorder_child_mem cm fuel y Qy hQy c hc
  rw [hsplit, hT]
  exact List.mem_append_left _ (List.mem_append_right _ (List.mem_cons_of_mem _ hmem))

theorem preorder_mem_iff (cm : cloud_map_t) (fuel : Nat) (x : vtbl_t) (Q : order_t)
    (h : preorder cm fuel x = .ok Q) (z : vtbl_t) : z ∈ Q ↔ reachable cm x z := by
  constructor
  · exact preorder_reachable cm fuel x Q h z
  · intro hz
    induction hz with
    | refl =>
      obtain ⟨T, hT⟩ := preorder_head cm fuel x Q h
      rw [hT]
      exact List.mem_cons_self _ _
    | tail _ hstep ih => exact preorder_closed cm fuel x Q h _ ih _ hstep

/-! ## The traversal of a tree -/

theorem preorderChildren_tree (cm : cloud_map_t) (v : vtbl_t) (nodes : List vtbl_t)
    (htree : isTree cm v nodes) (fuel : Nat) (x : vtbl_t) (anc : List vtbl_t)
    (hp : isPathTo cm v (x :: anc))
    (ih : ∀ c, isChild cm x c → ∃ Q, preorder cm fuel c = .ok Q ∧ Q.Nodup) :
    ∀ cs : cloud_map_children_t, (∀ c ∈ cs, isChild cm x c) → cs.Nodup →
      ∃ L, preorderChildren cm fuel [] cs = .ok L ∧ L.Nodup ∧
        ∀ z ∈ L, ∃ c ∈ cs, reachable cm c z := by
  intro cs
  induction cs with
  | nil =>
    intro _ _
    exact ⟨[], rfl, List.nodup_nil, fun z hz => by cases hz⟩
  | cons c rest ihl =>
    intro hch hnd
    obtain ⟨Q, hQ, hQnd⟩ := ih c (hch c (List.mem_cons_self _ _))
    obtain ⟨L2, hL2, hL2nd, hL2r⟩ :=
      ihl (fun c' hc' => hch c' (List.mem_cons_of_mem _ hc')) (List.nodup_cons.1 hnd).2
    refine ⟨Q ++ L2, ?_, ?_, ?_⟩
    · rw [preorderChildren_cons_nil, hQ]
      simp only [hL2]
      rfl
    · refine List.nodup_append.2 ⟨hQnd, hL2nd, ?_⟩
      intro z hz1 hz2
      obtain ⟨c', hc', hr⟩ := hL2r z hz2
      have := subtrees_disjoint cm v nodes htree x c c' anc hp
        (hch c (List.mem_cons_self _ _)) (hch c' (List.mem_cons_of_mem _ hc')) z
        (preorder_reachable cm fuel c Q hQ z hz1) hr
      subst this
      exact (List.nodup_cons.1 hnd).1 hc'
    · intro z hz
      rcases List.mem_append.1 hz with hz | hz
      · exact ⟨c, List.mem_cons_self _ _, preorder_reachable cm fuel c Q hQ z hz⟩
      · obtain ⟨c', hc', hr⟩ := hL2r z hz
        exact ⟨c', List.mem_cons_of_mem _ hc', hr⟩

theorem preorder_tree (cm : cloud_map_t) (v : vtbl_t) (nodes : List vtbl_t)
    (htree : isTree cm v nodes) :
    ∀ (fuel : Nat) (x : vtbl_t) (anc : List vtbl_t), isPathTo cm v (x :: anc) →
      nodes.length ≤ fuel + anc.length → ∃ Q, preorder cm fuel x = .ok Q ∧ Q.Nodup := by
  intro fuel
  induction fuel with
  | zero =>
    intro x anc hp hlen
    have := isPathTo_length cm v nodes htree _ hp
    simp only [List.length_cons] at this
    omega
  | succ fuel ih =>
    intro x anc hp hlen
    rw [preorder_succ]
    cases hcm : cm x with
    | none => exact ⟨[x], rfl, List.nodup_singleton _⟩
    | some children =>
      have hx : x ∈ nodes := isPathTo_mem cm v nodes htree _ hp x (List.mem_cons_self _ _)
      have hsorted := htree.2.2.2.2 x hx
      rw [hcm] at hsorted
      obtain ⟨L, hL, hLnd, hLr⟩ := preorderChildren_tree cm v nodes htree fuel x anc hp
        (fun c hc => ih c (x :: anc) (isPathTo_cons cm v x c anc hp hc)
          (by simp only [List.length_cons]; omega))
        children (fun c hc => isChild_of_mem cm x c children hcm hc)
        (nodup_of_pairwise_vtbl_lt _ hsorted)
      refine ⟨x :: L, ?_, List.nodup_cons.2 ⟨?_, hLnd⟩⟩
      · simp only [hL]
        rfl
      · intro hxL
        obtain ⟨c, hc, hr⟩ := hLr x hxL
        exact not_reachable_parent cm v nodes htree x c anc hp
          (isChild_of_mem cm x c children hcm hc) hr

theorem preorder_of_isTree (cm : cloud_map_t) (v : vtbl_t) (nodes : List vtbl_t)
    (htree : isTree cm v nodes) :
    ∃ Q, (∀ fuel, nodes.length ≤ fuel → preorder cm fuel v = .ok Q) ∧ Q.Nodup ∧
      ∀ z, z ∈ Q ↔ reachable cm v z := by
  obtain ⟨Q, hQ, hnd⟩ := preorder_tree cm v nodes htree nodes.length v [] rfl (Nat.le_add_right _ _)
  exact ⟨Q, fun fuel hf => preorder_mono cm _ fuel hf v Q hQ, hnd,
    preorder_mem_iff cm _ v Q hQ⟩

theorem preorderChildren_forall₂ (cm : cloud_map_t) (fuel : Nat) :
    ∀ (cs : cloud_map_children_t) (L : order_t), preorderChildren cm fuel [] cs = .ok L →
      ∃ Qs, List.Forall₂ (fun c Qc => preorder cm fuel c = .ok Qc) cs Qs ∧ L = Qs.flatten := by
  intro cs
  induction cs with
  | nil =>
    intro L h
    rw [preorderChildren_nil] at h
    exact ⟨[], List.Forall₂.nil, (Except.ok.inj h).symm⟩
  | cons c rest ih =>
    intro L h
    obtain ⟨Q, L2, hQ, hL2, hL⟩ := preorderChildren_cons_inv cm fuel c rest L h
    obtain ⟨Qs, hQs, hflat⟩ := ih L2 hL2
    exact ⟨Q :: Qs, List.Forall₂.cons hQ hQs, by rw [hL, hflat, List.flatten_cons]⟩

/-- C19: `preorder` is the deterministic parent-first traversal. For every
node `v` from which the child relation is a finite tree (within the finite
node set `nodes`), `preorder(v)` returns one list `Q` for every fuel of at
least `|nodes|`, and `Q` is `v` followed by the concatenation of the
traversals of the children of `v`, taken in ascending `(className, order)`
order. Hence `Q` lists exactly the nodes reachable from `v`, each once; a
child stands after its parent; and for every member `y` the traversal of `y`,
which lists exactly the nodes reachable from `y`, is a contiguous block of
`Q`. -/
theorem preorder_parent_first (cm : cloud_map_t) (v : vtbl_t) (nodes : List vtbl_t)
    (htree : isTree cm v nodes) :
    ∃ Q : order_t,
      (∀ fuel, nodes.length ≤ fuel → preorder cm fuel v = .ok Q) ∧
      (∃ cs Qs, (∀ c, c ∈ cs ↔ isChild cm v c) ∧ cs.Pairwise vtbl_lt ∧
        List.Forall₂ (fun c Qc => ∀ fuel, nodes.length ≤ fuel → preorder cm fuel c = .ok Qc)
          cs Qs ∧
        Q = v :: Qs.flatten) ∧
      Q.Nodup ∧ (∀ z, z ∈ Q ↔ reachable cm v z) ∧
      (∀ p c, p ∈ Q → isChild cm p c →
        ∃ i j, i < j ∧ Q.get? i = some p ∧ Q.get? j = some c) ∧
      (∀ y ∈ Q, ∃ Qy A B, (∀ fuel, nodes.length ≤ fuel → preorder cm fuel y = .ok Qy) ∧
        (∀ z, z ∈ Qy ↔ reachable cm y z) ∧ Q = A ++ Qy ++ B) := by
  obtain ⟨Q, hQ, hnd, hreach⟩ := preorder_of_isTree cm v nodes htree
  have hsub : ∀ y ∈ Q, ∃ Qy A B, (∀ fuel, nodes.length ≤ fuel → preorder cm fuel y = .ok Qy) ∧
      (∀ z, z ∈ Qy ↔ reachable cm y z) ∧ Q = A ++ Qy ++ B := by
    intro y hy
    obtain ⟨Qy, A, B, hQy, hsplit⟩ :=
      preorder_subtree cm nodes.length v Q (hQ _ (Nat.le_refl _)) y hy
    exact ⟨Qy, A, B, fun fuel hf => preorder_mono cm _ fuel hf y Qy hQy,
      preorder_mem_iff cm _ y Qy hQy, hsplit⟩
  refine ⟨Q, hQ, ?_, hnd, hreach, ?_, hsub⟩
  · have hQ1 := hQ (nodes.length + 1) (Nat.le_succ _)
    have hsorted := htree.2.2.2.2 v htree.1
    rcases preorder_succ_inv cm nodes.length v Q hQ1 with ⟨hcm, hQv⟩ | ⟨children, L, hcm, hL, hQv⟩
    · refine ⟨[], [], ?_, List.Pairwise.nil, List.Forall₂.nil, hQv⟩
      intro c
      unfold isChild
      rw [hcm]
      exact Iff.rfl
    · obtain ⟨Qs, hQs, hflat⟩ := preorderChildren_forall₂ cm nodes.length children L hL
      rw [hcm] at hsorted
      refine ⟨children, Qs, ?_, hsorted, ?_, by rw [hQv, hflat]⟩
      · intro c
        unfold isChild
        rw [hcm]
        exact Iff.rfl
      · exact hQs.imp (fun c Qc h fuel hf => preorder_mono cm _ fuel hf c Qc h)
  · intro p c hp hc
    obtain ⟨Qp, A, B, hQp, -, hsplit⟩ := hsub p hp
    obtain ⟨T, hT, hmem⟩ := preorder_child_mem cm nodes.length p Qp (hQp _ (Nat.le_refl _)) c hc
    obtain ⟨k, hk⟩ := List.mem_iff_get?.1 hmem
    rw [List.get?_eq_getElem?] at hk
    have hklt : k < T.length := (List.getElem?_eq_some_iff.1 hk).1
    refine ⟨A.length, A.length + (k + 1), by omega, ?_, ?_⟩
    · rw [hsplit, hT, List.get?_eq_getElem?, List.append_assoc,
        List.getElem?_append_right (Nat.le_refl _), Nat.sub_self, List.cons_append,
        List.getElem?_cons_zero]
    · rw [hsplit, hT, List.get?_eq_getElem?, List.append_assoc,
        List.getElem?_append_right (Nat.le_add_right _ _), Nat.add_sub_cancel_left,
        List.cons_append, List.getElem?_cons_succ, List.getElem?_append_left hklt]
      exact hk

theorem preorder_parent_first_witness :
    isTree (built allPresent scenarioARecords).cloudMap ("R", 0)
      (declaredNodes scenarioARecords) ∧
    ∃ Q : order_t,
      (∀ fuel, (declaredNodes scenarioARecords).length ≤ fuel →
        preorder (built allPresent scenarioARecords).cloudMap fuel ("R", 0) = .ok Q) ∧
      (∃ cs Qs, (∀ c, c ∈ cs ↔ isChild (built allPresent scenarioARecords).cloudMap ("R", 0) c) ∧
        cs.Pairwise vtbl_lt ∧
        List.Forall₂ (fun c Qc => ∀ fuel, (declaredNodes scenarioARecords).length ≤ fuel →
          preorder (built allPresent scenarioARecords).cloudMap fuel c = .ok Qc) cs Qs ∧
        Q = ("R", 0) :: Qs.flatten) ∧
      Q.Nodup ∧ (∀ z, z ∈ Q ↔ reachable (built allPresent scenarioARecords).cloudMap ("R", 0) z) ∧
      (∀ p c, p ∈ Q → isChild (built allPresent scenarioARecords).cloudMap p c →
        ∃ i j, i < j ∧ Q.get? i = some p ∧ Q.get? j = some c) ∧
      (∀ y ∈ Q, ∃ Qy A B, (∀ fuel, (declaredNodes scenarioARecords).length ≤ fuel →
          preorder (built allPresent scenarioARecords).cloudMap fuel y = .ok Qy) ∧
        (∀ z, z ∈ Qy ↔ reachable (built allPresent scenarioARecords).cloudMap y z) ∧
        Q = A ++ Qy ++ B) :=
  ⟨by decide, preorder_parent_first (built allPresent scenarioARecords).cloudMap ("R", 0)
    (declaredNodes scenarioARecords) (by decide)⟩

theorem mem_declaredNodes (records : List nmd_t) (y : vtbl_t) :
    y ∈ declaredNodes records ↔
      ∃ info ∈ records, y.1 = info.className ∧ y.2 < info.subVTables.length := by
  unfold declaredNodes
  simp only [List.mem_flatMap, List.mem_map, List.mem_range]
  constructor
  · rintro ⟨info, hmem, i, hi, rfl⟩
    exact ⟨info, hmem, rfl, hi⟩
  · rintro ⟨info, hmem, h1, h2⟩
    exact ⟨info, hmem, y.2, h2, Prod.ext h1.symm rfl⟩

theorem lt_length_of_declaredParent (info : nmd_t) (i : Nat) (p : vtbl_name_t)
    (h : declaredParent info i = some p) : i < info.subVTables.length := by
  simp only [declaredParent, Option.map_eq_some', List.get?_eq_getElem?] at h
  obtain ⟨sub, hsub, -⟩ := h
  exact (List.getElem?_eq_some_iff.1 hsub).1

theorem buildClouds_isTree (globals : vtbl_name_t → Option Unit) (records : List nmd_t)
    (st : SDModule) (hdistinct : distinctNames records)
    (hbuild : buildClouds globals records initialState = .ok st)
    (r : vtbl_name_t) (hr : r ∈ st.roots) :
    isTree st.cloudMap (r, 0) (declaredNodes records) := by
  obtain ⟨t1, t2, -, -, t5, -⟩ := buildClouds_initial globals records st hbuild
  unfold isChild at t1
  refine ⟨?_, ?_, ?_, ?_, fun p _ => t5 p⟩
  · obtain ⟨info, hmem, hc, hd⟩ := (t2 r).1 hr
    exact (mem_declaredNodes records _).2
      ⟨info, hmem, hc.symm, lt_length_of_declaredParent info 0 _ hd⟩
  · intro p _ c hc
    obtain ⟨info, hmem, p1, hd, -, -, hcn⟩ := (t1 p c).1 hc
    exact (mem_declaredNodes records _).2
      ⟨info, hmem, hcn, lt_length_of_declaredParent info _ _ hd⟩
  · intro p _ q _ c hp hq
    obtain ⟨i1, hm1, p1, hd1, -, hq1, hc1⟩ := (t1 p c).1 hp
    obtain ⟨i2, hm2, p2, hd2, -, hq2, hc2⟩ := (t1 q c).1 hq
    have := record_unique records hdistinct i1 i2 hm1 hm2 (hc1.symm.trans hc2)
    subst this
    rw [hd1] at hd2
    have := Option.some.inj hd2
    subst this
    rw [hq1, hq2]
  · intro p _ hp
    obtain ⟨i1, hm1, hc1, hd1⟩ := (t2 r).1 hr
    obtain ⟨i2, hm2, p2, hd2, hne, -, hc2⟩ := (t1 p (r, 0)).1 hp
    have := record_unique records hdistinct i1 i2 hm1 hm2 (hc1.trans hc2)
    subst this
    rw [hd1] at hd2
    exact hne (Option.some.inj hd2).symm

theorem root_unique_of_reachable (cm : cloud_map_t) (roots : List vtbl_name_t)
    (hparent : ∀ x p q, isChild cm p x → isChild cm q x → p = q)
    (hroot : ∀ r ∈ roots, ∀ p, ¬ isChild cm p (r, 0))
    (r1 r2 : vtbl_name_t) (h1 : r1 ∈ roots) (h2 : r2 ∈ roots) (x : vtbl_t)
    (hx1 : reachable cm (r1, 0) x) : reachable cm (r2, 0) x → r1 = r2 := by
  induction hx1 with
  | refl =>
    intro hx2
    rcases Relation.ReflTransGen.cases_tail hx2 with h | ⟨y, _, hy⟩
    · exact (congrArg Prod.fst h)
    · exact absurd hy (hroot r1 h1 y)
  | tail _ hstep ih =>
    intro hx2
    rcases Relation.ReflTransGen.cases_tail hx2 with h | ⟨y, hy1, hy⟩
    · rw [h] at hstep
      exact absurd hstep (hroot r2 h2 _)
    · have := hparent _ _ _ hstep hy
      subst this
      exact ih hy1

/-- C17 (amended): after `buildClouds` succeeds on a fresh `SDModule` and
records with pairwise distinct class names, `preorder((r,0))` returns for
every root `r` (with any fuel of at least the number of declared subvtables)
and lists exactly the nodes reachable from `(r,0)` along child edges, each
once; and a node reachable from the primary subvtables of two roots has the
two roots equal. So every subvtable occurs in the traversal of at most one
root, and of exactly one when it is reachable from some root. -/
theorem cloud_membership (globals : vtbl_name_t → Option Unit) (records : List nmd_t)
    (st : SDModule) (hdistinct : distinctNames records)
    (hbuild : buildClouds globals records initialState = .ok st) :
    (∀ r ∈ st.roots, ∃ Q : order_t,
      (∀ fuel, (declaredNodes records).length ≤ fuel →
        preorder st.cloudMap fuel (r, 0) = .ok Q) ∧
      Q.Nodup ∧ ∀ x, x ∈ Q ↔ reachable st.cloudMap (r, 0) x) ∧
    (∀ x r1 r2, r1 ∈ st.roots → r2 ∈ st.roots →
      reachable st.cloudMap (r1, 0) x → reachable st.cloudMap (r2, 0) x → r1 = r2) := by
  refine ⟨fun r hr => preorder_of_isTree st.cloudMap (r, 0) (declaredNodes records)
    (buildClouds_isTree globals records st hdistinct hbuild r hr), ?_⟩
  obtain ⟨t1, t2, -⟩ := buildClouds_initial globals records st hbuild
  have hparent : ∀ x p q, isChild st.cloudMap p x → isChild st.cloudMap q x → p = q := by
    intro x p q hp hq
    obtain ⟨i1, hm1, p1, hd1, -, hq1, hc1⟩ := (t1 p x).1 hp
    obtain ⟨i2, hm2, p2, hd2, -, hq2, hc2⟩ := (t1 q x).1 hq
    have := record_unique records hdistinct i1 i2 hm1 hm2 (hc1.symm.trans hc2)
    subst this
    rw [hd1] at hd2
    have := Option.some.inj hd2
    subst this
    rw [hq1, hq2]
  have hroot : ∀ r ∈ st.roots, ∀ p, ¬ isChild st.cloudMap p (r, 0) := by
    intro r hr p hp
    obtain ⟨i1, hm1, hc1, hd1⟩ := (t2 r).1 hr
    obtain ⟨i2, hm2, p2, hd2, hne, -, hc2⟩ := (t1 p (r, 0)).1 hp
    have := record_unique records hdistinct i1 i2 hm1 hm2 (hc1.trans hc2)
    subst this
    rw [hd1] at hd2
    exact hne (Option.some.inj hd2).symm
  intro x r1 r2 h1 h2 hx1 hx2
  exact root_unique_of_reachable st.cloudMap st.roots hparent hroot r1 r2 h1 h2 x hx1 hx2

theorem cloud_membership_witness :
    (distinctNames scenarioARecords ∧
      buildClouds allPresent scenarioARecords initialState =
        .ok (built allPresent scenarioARecords)) ∧
    (∀ r ∈ (built allPresent scenarioARecords).roots, ∃ Q : order_t,
      (∀ fuel, (declaredNodes scenarioARecords).length ≤ fuel →
        preorder (built allPresent scenarioARecords).cloudMap fuel (r, 0) = .ok Q) ∧
      Q.Nodup ∧ ∀ x, x ∈ Q ↔ reachable (built allPresent scenarioARecords).cloudMap (r, 0) x) ∧
    (∀ x r1 r2, r1 ∈ (built allPresent scenarioARecords).roots →
      r2 ∈ (built allPresent scenarioARecords).roots →
      reachable (built allPresent scenarioARecords).cloudMap (r1, 0) x →
      reachable (built allPresent scenarioARecords).cloudMap (r2, 0) x → r1 = r2) :=
  ⟨⟨by decide, rfl⟩,
    cloud_membership allPresent scenarioARecords (built allPresent scenarioARecords)
      (by decide) rfl⟩

/-- C17 as stated fails. With the single record `C` whose declared parent `X`
has no record, `buildClouds` succeeds and leaves no root, so `(C,0)` occurs in
the traversal of no root. With two records of the class name `C`, one under
the root `A` and one under the root `B`, `(C,0)` occurs in the traversals of
both roots. -/
theorem cloud_membership_counterexample :
    ((buildClouds allPresent orphanRecords initialState).map (fun s => s.roots) = .ok [] ∧
      (⟨"C", [⟨0, "X", 0, 0, 0⟩]⟩ : nmd_t) ∈ orphanRecords ∧
      ¬ ∃ r ∈ (built allPresent orphanRecords).roots, ∃ fuel Q,
        preorder (built allPresent orphanRecords).cloudMap fuel (r, 0) = .ok Q ∧
          (("C", 0) : vtbl_t) ∈ Q) ∧
    ((buildClouds allPresent duplicateRecords initialState).map (fun s => s.roots) =
        .ok ["A", "B"] ∧
      (⟨"C", [⟨0, "A", 0, 0, 0⟩]⟩ : nmd_t) ∈ duplicateRecords ∧
      preorder (built allPresent duplicateRecords).cloudMap 2 ("A", 0) =
        .ok [("A", 0), ("C", 0)] ∧
      preorder (built allPresent duplicateRecords).cloudMap 2 ("B", 0) =
        .ok [("B", 0), ("C", 0)]) := by
  refine ⟨⟨by decide, by decide, ?_⟩, by decide, by decide, by decide, by decide⟩
  rintro ⟨r, hr, -⟩
  have hroots : (built allPresent orphanRecords).roots = [] := by decide
  rw [hroots] at hr
  cases hr

/-! ## clearAnalysisResults (C22) -/

theorem clearAnalysisResults_eq (st : SDModule) : clearAnalysisResults st = initialState := rfl

/-- C22: no cross-unit state survives. After `clearAnalysisResults`, whatever
the state was, every analysis map (`cloudMap`, `roots`, `addrPtMap`,
`rangeMap`, `ancestorMap`, `newLayoutInds`, `interleavingMap`, `oldVTables`,
`cloudSizeMap`) is empty, and building and interleaving a unit from the
cleared state gives exactly what `runOnModule` gives from a freshly
constructed `SDModule`. -/
theorem clear_leaves_fresh_state (st : SDModule) (globals : vtbl_name_t → Option Unit)
    (records : List nmd_t) (fuel : Nat) :
    ((clearAnalysisResults st).cloudMap = fun _ => none) ∧
    (clearAnalysisResults st).roots = [] ∧
    ((clearAnalysisResults st).addrPtMap = fun _ => none) ∧
    ((clearAnalysisResults st).rangeMap = fun _ => none) ∧
    ((clearAnalysisResults st).ancestorMap = fun _ => none) ∧
    ((clearAnalysisResults st).newLayoutInds = fun _ => none) ∧
    ((clearAnalysisResults st).interleavingMap = fun _ => none) ∧
    ((clearAnalysisResults st).oldVTables = fun _ => none) ∧
    ((clearAnalysisResults st).cloudSizeMap = fun _ => none) ∧
    clearAnalysisResults st = initialState ∧
    (buildClouds globals records (clearAnalysisResults st)).bind
        (fun s => interleaveClouds s fuel) =
      runOnModule globals records fuel :=
  ⟨rfl, rfl, rfl, rfl, rfl, rfl, rfl, rfl, rfl, rfl, rfl⟩

/-! ## Names of compiled tables (C24) -/

theorem startswith_iff (s pre : String) : startswith s pre = true ↔ pre.data <+: s.data := by
  unfold startswith
  exact List.isPrefixOf_iff_prefix

theorem sd_isVtableName_examples :
    sd_isVtableName_ref "_ZTV1A" = true ∧ sd_isVtableName_ref "_ZTC1D0_1B" = true ∧
    sd_isVtableName_ref "_ZTV" = false ∧ sd_isVtableName_ref "_ZTS1A" = false ∧
    sd_isVtableName_ref "_ZTVSt9exception" = false ∧
    sd_isVtableName_ref "_ZTVN10__cxxabiv117__class_type_infoE" = false ∧
    sd_isVtableName_ref "_ZTVN1A1BE" = true := by
  decide

/-- C24: `sd_isVtableName_ref(name)` is true if and only if `name` is longer
than 4 characters, starts with `_ZTV` or `_ZTC`, and the remainder after
those 4 characters starts neither with `S` nor with `N10__cxxabiv`; and
`sd_isVtableName` agrees with it on every string. -/
theorem sd_isVtableName_ref_iff (name : String) :
    (sd_isVtableName_ref name = true ↔
      4 < name.length ∧
      ∃ rest : List Char,
        (name.data = "_ZTV".data ++ rest ∨ name.data = "_ZTC".data ++ rest) ∧
        ¬ "S".data <+: rest ∧ ¬ "N10__cxxabiv".data <+: rest) ∧
    sd_isVtableName name = sd_isVtableName_ref name := by
  refine ⟨?_, rfl⟩
  unfold sd_isVtableName_ref
  by_cases hlen : name.length ≤ 4
  · simp only [hlen, if_true, Bool.false_eq_true, false_iff]
    rintro ⟨h, -⟩
    omega
  · simp only [hlen, if_false]
    have hdrop : ∀ (pre rest : List Char), pre.length = 4 → name.data = pre ++ rest →
        (drop_front name 4).data = rest := by
      intro pre rest hp h
      simp only [drop_front, h]
      rw [← hp, List.drop_left]
    by_cases hpre : (startswith name "_ZTV" || startswith name "_ZTC") = true
    · simp only [hpre, if_true, Bool.and_eq_true, Bool.not_eq_true', ← Bool.not_eq_true,
        startswith_iff]
      rw [Bool.or_eq_true, startswith_iff, startswith_iff] at hpre
      constructor
      · rintro ⟨h1, h2⟩
        refine ⟨by omega, (drop_front name 4).data, ?_, h1, h2⟩
        rcases hpre with ⟨t, ht⟩ | ⟨t, ht⟩
        · left
          rw [hdrop "_ZTV".data t rfl ht.symm]
          exact ht.symm
        · right
          rw [hdrop "_ZTC".data t rfl ht.symm]
          exact ht.symm
      · rintro ⟨-, rest, hr, h1, h2⟩
        rcases hr with hr | hr
        · rw [hdrop "_ZTV".data rest rfl hr]
          exact ⟨h1, h2⟩
        · rw [hdrop "_ZTC".data rest rfl hr]
          exact ⟨h1, h2⟩
    · simp only [hpre, if_false, Bool.false_eq_true, false_iff]
      rintro ⟨-, rest, hr, -⟩
      apply hpre
      rw [Bool.or_eq_true, startswith_iff, startswith_iff]
      rcases hr with hr | hr
      · exact Or.inl ⟨rest, hr.symm⟩
      · exact Or.inr ⟨rest, hr.symm⟩

/-! ## The merged sequence, round by round (C23) -/

theorem batch_false_eq (st : SDModule) (order : order_t) (j : Nat) :
    batch st false order j = negativeBatch st order (j + 1) := by
  unfold batch negativeBatch
  congr 1
  funext m
  simp only [slotCount, slotIndex, Bool.false_eq_true, if_false]
  by_cases h : j < addressPoint st m - rangeStart st m
  · rw [if_pos h, if_pos (by push_cast; omega)]
    congr 2
    omega
  · rw [if_neg h, if_neg (by push_cast; omega)]

theorem batch_true_eq (st : SDModule) (order : order_t) (j : Nat) :
    batch st true order j = positiveBatch st order j := by
  unfold batch positiveBatch
  congr 1
  funext m
  simp only [slotCount, slotIndex, if_true]
  by_cases h : j < rangeEnd st m + 1 - addressPoint st m
  · rw [if_pos h, if_pos (by omega)]
  · rw [if_neg h, if_neg (by omega)]

theorem batchesFwd_eq (st : SDModule) (order : order_t) :
    ∀ d j, batchesFwd st order j d = (List.range' j d).flatMap (positiveBatch st order) := by
  intro d
  induction d with
  | zero =>
    intro j
    rfl
  | succ d ih =>
    intro j
    rw [batchesFwd, ih, batch_true_eq, List.range'_succ, List.flatMap_cons]

theorem batchesBwd_eq (st : SDModule) (order : order_t) :
    ∀ d j, batchesBwd st order j d =
      (List.range' (j + 1) d).reverse.flatMap (negativeBatch st order) := by
  intro d
  induction d with
  | zero =>
    intro j
    rfl
  | succ d ih =>
    intro j
    rw [batchesBwd, ih, batch_false_eq, List.range'_succ, List.reverse_cons, List.flatMap_append]
    simp

theorem negativeRef_split (st : SDModule) (order : order_t) (R : Nat)
    (h : R = 0 → negativeBatch st order 1 = []) :
    ∃ X, negativeRef st order R = X ++ negativeBatch st order 1 := by
  cases R with
  | zero => exact ⟨[], by rw [h rfl]; rfl⟩
  | succ R =>
    refine ⟨(List.range' 2 R).reverse.flatMap (negativeBatch st order), ?_⟩
    unfold negativeRef
    rw [List.range'_succ, List.reverse_cons, List.flatMap_append]
    simp

theorem positiveRef_split (st : SDModule) (order : order_t) (n : Nat)
    (h : n = 0 → positiveBatch st order 0 = []) :
    ∃ Y, positiveRef st order n = positiveBatch st order 0 ++ Y := by
  cases n with
  | zero => exact ⟨[], by rw [h rfl]; rfl⟩
  | succ n =>
    refine ⟨(List.range' 1 n).flatMap (positiveBatch st order), ?_⟩
    unfold positiveRef
    rw [List.range_eq_range', List.range'_succ, List.flatMap_cons]

/-- C23, as stated, fails when a bound is not an `int64_t` value. In
`wrappedStartUnit` the root `R` has range start `2^64 - 1`, range end 0 and
address point 0. No batch `B_r` of the reference holds an element, since
`addressPoint - r ≥ start` holds for no `r`; but `fillVtablePart` holds both
`addressPoint - 1` and the range start as the `int64_t` value `-1`, and its
negative part is the one slot `(R, 2^64 - 1)`. In `wideRangeUnit` (range
`[0, 2^63]`, address point 0) the batch `A_0` of the reference is the slot
`(R, 0)`, but `fillVtablePart` holds the range end as `-2^63` and its positive
part is empty. -/
theorem fillVtablePart_reference_counterexample :
    ([(("R", 0) : vtbl_t)].Nodup ∧
      fillVtablePart wrappedStartUnit [] [("R", 0)] false = .ok [(("R", 0), 2 ^ 64 - 1)] ∧
      ∀ R, negativeRef wrappedStartUnit [("R", 0)] R = []) ∧
    (fillVtablePart wideRangeUnit [] [("R", 0)] true = .ok [] ∧
      positiveBatch wideRangeUnit [("R", 0)] 0 = [(("R", 0), 0)]) := by
  refine ⟨⟨by decide, by decide, ?_⟩, by decide, by decide⟩
  have hap : addressPoint wrappedStartUnit ("R", 0) = 0 := by decide
  have hst : rangeStart wrappedStartUnit ("R", 0) = 2 ^ 64 - 1 := by decide
  have hbatch : ∀ r, negativeBatch wrappedStartUnit [("R", 0)] r = [] := by
    intro r
    have hlt : ¬ ((addressPoint wrappedStartUnit ("R", 0) : Int) - (r : Int)
        ≥ (rangeStart wrappedStartUnit ("R", 0) : Int)) := by
      rw [hap, hst]
      omega
    simp only [negativeBatch, List.filterMap_cons, List.filterMap_nil, if_neg hlt]
  intro R
  unfold negativeRef
  rw [List.flatMap_eq_nil_iff]
  intro r _
  exact hbatch r

/-- C23, amended: `fillVtablePart` equals its round-by-round reference
definition below the `int64_t` bounds. For every member list `order` without
repetitions whose members have their table entries, address points and range
starts below `2^63` and range ends below `2^63 - 1`, the negative part is `B_R ++ .. ++ B_2 ++ B_1` with
`B_r = [(m, addressPoint(m) - r) | m in order, addressPoint(m) - r ≥ start(m)]`
and `R` the last round with a non-empty batch, and the positive part is
`A_0 ++ A_1 ++ ..` (up to the last non-empty batch) with
`A_r = [(m, addressPoint(m) + r) | m in order, addressPoint(m) + r ≤ end(m)]`.
When `order` is the traversal of a root, `interleaveCloud` stores the negative
part followed by the positive part, in which the batch `B_1` of the distance-1
metadata slots stands immediately before the address-point batch `A_0`. -/
theorem fillVtablePart_reference (st : SDModule) (order : order_t) (hnd : order.Nodup)
    (hd : ∀ n ∈ order, hasLayoutData st n) (hb : ∀ n ∈ order, fitsInt64 st n) :
    ∃ R n : Nat,
      fillVtablePart st [] order false = .ok (negativeRef st order R) ∧
      (∀ r, 1 ≤ r → (negativeBatch st order r ≠ [] ↔ r ≤ R)) ∧
      fillVtablePart st [] order true = .ok (positiveRef st order n) ∧
      (∀ r, positiveBatch st order r ≠ [] ↔ r < n) ∧
      (∀ fuel r, r ∈ st.roots → preorder st.cloudMap fuel (r, 0) = .ok order →
        interleaveCloud st fuel r = .ok { st with
          interleavingMap := mapSet st.interleavingMap r
            (negativeRef st order R ++ positiveRef st order n) }) ∧
      ∃ X Y, negativeRef st order R ++ positiveRef st order n =
        X ++ negativeBatch st order 1 ++ positiveBatch st order 0 ++ Y := by
  have hneg : ∀ r, 1 ≤ r → (negativeBatch st order r ≠ [] ↔ r ≤ roundCount st false order) := by
    intro r hr
    obtain ⟨j, rfl⟩ : ∃ j, r = j + 1 := ⟨r - 1, by omega⟩
    rw [← batch_false_eq, Ne, batch_eq_nil_iff]
    omega
  have hpos : ∀ r, positiveBatch st order r ≠ [] ↔ r < roundCount st true order := by
    intro r
    rw [← batch_true_eq, Ne, batch_eq_nil_iff]
    omega
  have hN : batchesBwd st order 0 (roundCount st false order) =
      negativeRef st order (roundCount st false order) := batchesBwd_eq st order _ 0
  have hP : batchesFwd st order 0 (roundCount st true order) =
      positiveRef st order (roundCount st true order) := by
    rw [batchesFwd_eq, positiveRef, List.range_eq_range']
  refine ⟨roundCount st false order, roundCount st true order, ?_, hneg, ?_, hpos, ?_, ?_⟩
  · rw [fillVtablePart_spec st false order hnd hd hb []]
    simp only [Bool.false_eq_true, if_false, List.append_nil, hN]
  · rw [fillVtablePart_spec st true order hnd hd hb []]
    simp only [if_true, List.nil_append, hP]
  · intro fuel r hroot hpre
    rw [interleaveCloud_eq st fuel r order hroot hpre hnd hd hb, mergedRef, hN, hP]
  · obtain ⟨X, hX⟩ := negativeRef_split st order (roundCount st false order) (fun h => by
      by_contra hne
      have := (hneg 1 (Nat.le_refl 1)).1 hne
      omega)
    obtain ⟨Y, hY⟩ := positiveRef_split st order (roundCount st true order) (fun h => by
      by_contra hne
      have := (hpos 0).1 hne
      omega)
    exact ⟨X, Y, by rw [hX, hY]; simp only [List.append_assoc]⟩

theorem fillVtablePart_reference_witness :
    ([(("R", 0) : vtbl_t), ("C", 0)].Nodup ∧
      (∀ n ∈ [(("R", 0) : vtbl_t), ("C", 0)], hasLayoutData scenarioA n) ∧
      ∀ n ∈ [(("R", 0) : vtbl_t), ("C", 0)], fitsInt64 scenarioA n) ∧
    ∃ R n : Nat,
      fillVtablePart scenarioA [] [("R", 0), ("C", 0)] false =
        .ok (negativeRef scenarioA [("R", 0), ("C", 0)] R) ∧
      (∀ r, 1 ≤ r → (negativeBatch scenarioA [("R", 0), ("C", 0)] r ≠ [] ↔ r ≤ R)) ∧
      fillVtablePart scenarioA [] [("R", 0), ("C", 0)] true =
        .ok (positiveRef scenarioA [("R", 0), ("C", 0)] n) ∧
      (∀ r, positiveBatch scenarioA [("R", 0), ("C", 0)] r ≠ [] ↔ r < n) ∧
      (∀ fuel r, r ∈ scenarioA.roots →
        preorder scenarioA.cloudMap fuel (r, 0) = .ok [("R", 0), ("C", 0)] →
        interleaveCloud scenarioA fuel r = .ok { scenarioA with
          interleavingMap := mapSet scenarioA.interleavingMap r
            (negativeRef scenarioA [("R", 0), ("C", 0)] R ++
              positiveRef scenarioA [("R", 0), ("C", 0)] n) }) ∧
      ∃ X Y, negativeRef scenarioA [("R", 0), ("C", 0)] R ++
          positiveRef scenarioA [("R", 0), ("C", 0)] n =
        X ++ negativeBatch scenarioA [("R", 0), ("C", 0)] 1 ++
          positiveBatch scenarioA [("R", 0), ("C", 0)] 0 ++ Y :=
  ⟨⟨by decide, by decide, by decide⟩,
    fillVtablePart_reference scenarioA [("R", 0), ("C", 0)] (by decide) (by decide) (by decide)⟩

theorem reference_scenarioA :
    negativeRef scenarioA [("R", 0), ("C", 0)] 1 = [(("R", 0), 0), (("C", 0), 0)] ∧
    positiveRef scenarioA [("R", 0), ("C", 0)] 1 = [(("R", 0), 1), (("C", 0), 1)] := by
  decide

/-! ## The rounds of fillVtablePart (C29) -/

theorem fillLoop_outOfFuel (st : SDModule) (b : Bool) (order : order_t) (hnd : order.Nodup)
    (hb : ∀ n ∈ order, fitsInt64 st n)
    (lm : vtbl_t → Int) (hlm : ∀ n ∈ order, lm n = lastPos st b n) :
    ∀ (fuel j : Nat) (pm : vtbl_t → Int) (part : interleaving_list_t),
      (∀ n ∈ order, pm n = stagePos st b j n) → j + fuel ≤ roundCount st b order →
      fillLoop b order lm fuel pm part = .error .outOfFuel := by
  intro fuel
  induction fuel with
  | zero =>
    intro j pm part _ _
    rfl
  | succ f ih =>
    intro j pm part hpm hj
    obtain ⟨h1, h2, _⟩ := fillRound_spec st b j lm order hnd hb hlm pm [] hpm
    have hne : batch st b order j ≠ [] := fun h => by
      have := (batch_eq_nil_iff st b order j).1 h
      omega
    have hlen : ¬ (batch st b order j).length = 0 := fun h => hne (List.length_eq_zero.1 h)
    simp only [fillLoop, h1, List.nil_append, hlen, if_false]
    exact ih (j + 1) _ _ (by simpa [h1] using h2) (by omega)

/-- `fillVtablePart` returns exactly when the position of every member can step
past its last position. -/
theorem fillVtablePart_returns_iff (st : SDModule) (b : Bool) (order : order_t)
    (hd : ∀ n ∈ order, hasLayoutData st n) (part : interleaving_list_t) :
    (∃ res, fillVtablePart st part order b = .ok res) ↔
      ∀ n ∈ order, stepsPast b (toInt64 (if b then rangeEnd st n else rangeStart st n)) := by
  obtain ⟨maps, hmaps, hval⟩ := fillInit_values st b order hd (fun _ => 0) (fun _ => 0)
  have hp : ∀ k, isInt64 (maps.1 k) :=
    fillInit_isInt64 st b order _ _ maps hmaps (fun _ => by unfold isInt64; omega)
  have hrun : fillVtablePart st part order b =
      fillLoop b order maps.2 (fillFuel b order maps.1 maps.2) maps.1 part := by
    simp only [fillVtablePart, hmaps, bind, Except.bind]
  rw [hrun]
  constructor
  · rintro ⟨res, hres⟩ n hn
    by_contra hnot
    rw [← (hval n hn).2] at hnot
    rw [fillLoop_diverges b order maps.2 n hn hnot _ maps.1 part hp] at hres
    cases hres
  · intro hl
    refine fillLoop_returns b order maps.2 ?_ _ maps.1 part hp (by unfold fillFuel; omega)
    intro n hn
    rw [(hval n hn).2]
    exact hl n hn

/-- C29, as stated, fails. In `lastIndexUnit` the root `R` has the range end
`2^63 - 1`, the largest `int64_t` value, which is also its address point: in the
positive direction no position exceeds the last position, the check passes in
every round, and the loop does not end with any number of rounds. In
`wrappedStartUnit` (range start `2^64 - 1`, address point 0) the member
contributes `addressPoint - start = 0` slots (truncated at 0), but the negative
pass holds `addressPoint - 1` and the range start as the `int64_t` value `-1`
and runs one round that produces an element. -/
theorem fillLoop_rounds_counterexample :
    (∃ maps, fillInit lastIndexUnit true [("R", 0)] (fun _ => 0, fun _ => 0) = .ok maps ∧
      ∀ fuel part, fillLoop true [("R", 0)] maps.2 fuel maps.1 part = .error .outOfFuel) ∧
    (fillVtablePart wrappedStartUnit [] [("R", 0)] false = .ok [(("R", 0), 2 ^ 64 - 1)] ∧
      ([(("R", 0) : vtbl_t)].map (slotCount wrappedStartUnit false)).foldr max 0 = 0) := by
  refine ⟨?_, by decide, by decide⟩
  obtain ⟨maps, hmaps, hval⟩ := fillInit_values lastIndexUnit true [("R", 0)] (by decide)
    (fun _ => 0) (fun _ => 0)
  have hp : ∀ k, isInt64 (maps.1 k) :=
    fillInit_isInt64 lastIndexUnit true _ _ _ maps hmaps (fun _ => by unfold isInt64; omega)
  refine ⟨maps, hmaps, fun fuel part =>
    fillLoop_diverges true [("R", 0)] maps.2 ("R", 0) (List.mem_singleton_self _) ?_ fuel
      maps.1 part hp⟩
  rw [(hval ("R", 0) (List.mem_singleton_self _)).2]
  decide

/-- C29, amended. For every member list (with or without repetitions) whose
members have their table entries, the round loop of `fillVtablePart` ends, in
the direction `b`, exactly when no member has a last position that the
`int64_t` position cannot step past: the range end `2^63 - 1` in the positive
direction, the range start `2^63` (the `int64_t` value `-2^63`) in the negative
one; otherwise it does not end with any number of rounds. In particular it
ends in both directions when every member has address point and range start
below `2^63` and range end below `2^63 - 1`; for such a list without
repetitions the loop, run on the positions that the first loop of
`fillVtablePart` computes, returns exactly when its budget of rounds exceeds
`M`, the maximum over the members of the number of slots a member contributes
(`addressPoint - start` in the negative pass, `end + 1 - addressPoint` in the
positive pass, truncated at 0): it runs `M` rounds that produce an element and
one last, empty round. -/
theorem fillLoop_rounds (st : SDModule) (b : Bool) (order : order_t)
    (hd : ∀ n ∈ order, hasLayoutData st n) :
    (∀ part, (∃ res, fillVtablePart st part order b = .ok res) ↔
      ∀ n ∈ order, stepsPast b (toInt64 (if b then rangeEnd st n else rangeStart st n))) ∧
    (∀ part, (¬ ∃ res, fillVtablePart st part order b = .ok res) →
      ∃ maps, fillInit st b order (fun _ => 0, fun _ => 0) = .ok maps ∧
        ∀ fuel, fillLoop b order maps.2 fuel maps.1 part = .error .outOfFuel) ∧
    ((∀ n ∈ order, fitsInt64 st n) →
      (∀ part, ∃ res, fillVtablePart st part order b = .ok res) ∧
      (order.Nodup →
        ∃ maps, fillInit st b order (fun _ => 0, fun _ => 0) = .ok maps ∧
          ∀ (fuel : Nat) (part : interleaving_list_t),
            (∃ res, fillLoop b order maps.2 fuel maps.1 part = .ok res) ↔
              (order.map (slotCount st b)).foldr max 0 < fuel)) := by
  refine ⟨fun part => fillVtablePart_returns_iff st b order hd part, ?_, ?_⟩
  · intro part hnot
    apply (fillVtablePart_outOfFuel_iff st part order b).1
    cases hrun : fillVtablePart st part order b with
    | ok res => exact absurd ⟨res, hrun⟩ hnot
    | error e => rw [fillVtablePart_error st b order hd part e hrun]
  · intro hb
    refine ⟨fun part => fillVtablePart_returns st b order hd hb part, ?_⟩
    intro hnd
    obtain ⟨maps, hmaps, hval⟩ := fillInit_spec st b order hd hb (fun _ => 0) (fun _ => 0)
    refine ⟨maps, hmaps, ?_⟩
    intro fuel part
    show _ ↔ roundCount st b order < fuel
    constructor
    · rintro ⟨res, hres⟩
      by_contra hle
      rw [fillLoop_outOfFuel st b order hnd hb maps.2 (fun n hn => (hval n hn).2) fuel 0 maps.1
        part (fun n hn => (hval n hn).1) (by omega)] at hres
      cases hres
    · intro hlt
      exact ⟨_, fillLoop_spec st b order hnd hb maps.2 (fun n hn => (hval n hn).2)
        (roundCount st b order) 0 fuel maps.1 part (fun n hn => (hval n hn).1) (by omega) hlt⟩

theorem fillLoop_rounds_witness :
    (∀ n ∈ [(("R", 0) : vtbl_t), ("C", 0)], hasLayoutData scenarioA n) ∧
    ((∀ part, (∃ res, fillVtablePart scenarioA part [("R", 0), ("C", 0)] true = .ok res) ↔
      ∀ n ∈ [(("R", 0) : vtbl_t), ("C", 0)],
        stepsPast true (toInt64 (if true = true then rangeEnd scenarioA n
          else rangeStart scenarioA n))) ∧
    (∀ part, (¬ ∃ res, fillVtablePart scenarioA part [("R", 0), ("C", 0)] true = .ok res) →
      ∃ maps, fillInit scenarioA true [("R", 0), ("C", 0)] (fun _ => 0, fun _ => 0) = .ok maps ∧
        ∀ fuel, fillLoop true [("R", 0), ("C", 0)] maps.2 fuel maps.1 part = .error .outOfFuel) ∧
    ((∀ n ∈ [(("R", 0) : vtbl_t), ("C", 0)], fitsInt64 scenarioA n) →
      (∀ part, ∃ res, fillVtablePart scenarioA part [("R", 0), ("C", 0)] true = .ok res) ∧
      ([(("R", 0) : vtbl_t), ("C", 0)].Nodup →
        ∃ maps, fillInit scenarioA true [("R", 0), ("C", 0)] (fun _ => 0, fun _ => 0)
            = .ok maps ∧
          ∀ (fuel : Nat) (part : interleaving_list_t),
            (∃ res, fillLoop true [("R", 0), ("C", 0)] maps.2 fuel maps.1 part = .ok res) ↔
              ([(("R", 0) : vtbl_t), ("C", 0)].map (slotCount scenarioA true)).foldr max 0
                < fuel))) :=
  ⟨by decide, fillLoop_rounds scenarioA true [("R", 0), ("C", 0)] (by decide)⟩

/-! ## The layout list of one member (C25, C26) -/

theorem reachable_mem_nodes (cm : cloud_map_t) (v : vtbl_t) (nodes : List vtbl_t)
    (htree : isTree cm v nodes) (x : vtbl_t) (hx : reachable cm v x) : x ∈ nodes := by
  induction hx with
  | refl => exact htree.1
  | tail _ hstep ih => exact htree.2.1 _ ih _ hstep

theorem positionsOf_complete (v : vtbl_t) :
    ∀ (l : interleaving_list_t) (c k i : Nat), l.get? k = some (v, i) →
      ∃ j, (positionsOf v l c).get? j = some (c + k) := by
  intro l
  induction l with
  | nil =>
    intro c k i h
    cases h
  | cons x rest ih =>
    intro c k i h
    cases k with
    | zero =>
      simp only [List.get?_cons_zero, Option.some.injEq] at h
      refine ⟨0, ?_⟩
      simp [positionsOf, h]
    | succ k =>
      simp only [List.get?_cons_succ] at h
      obtain ⟨j, hj⟩ := ih (c + 1) k i h
      have hck : c + 1 + k = c + (k + 1) := by omega
      rw [hck] at hj
      by_cases hx : x.1 = v
      · refine ⟨j + 1, ?_⟩
        simp only [positionsOf, hx, if_true, List.get?_cons_succ]
        exact hj
      · refine ⟨j, ?_⟩
        simp only [positionsOf, hx, if_false]
        exact hj

theorem layout_after_interleave (st : SDModule) (fuel : Nat) (r : vtbl_name_t) (P : order_t)
    (hroot : r ∈ st.roots) (hpre : preorder st.cloudMap fuel (r, 0) = .ok P) (hnd : P.Nodup)
    (hd : ∀ w ∈ P, hasLayoutData st w) (hb : ∀ w ∈ P, fitsInt64 st w) :
    ∃ st1 st2, interleaveCloud st fuel r = .ok st1 ∧ calculateNewLayoutInds st1 r = .ok st2 ∧
      st2.interleavingMap r = some (mergedRef st P) ∧
      st2.addrPtMap = st.addrPtMap ∧ st2.rangeMap = st.rangeMap ∧
      ∀ v, st2.newLayoutInds v =
        if positionsOf v (mergedRef st P) 0 = [] then st.newLayoutInds v
        else some ((st.newLayoutInds v).getD [] ++ positionsOf v (mergedRef st P) 0) := by
  refine ⟨{ st with interleavingMap := mapSet st.interleavingMap r (mergedRef st P) },
    { st with
      interleavingMap := mapSet st.interleavingMap r (mergedRef st P)
      ancestorMap := (layoutIndsLoop r (mergedRef st P) 0 (st.ancestorMap, st.newLayoutInds)).1
      newLayoutInds := (layoutIndsLoop r (mergedRef st P) 0 (st.ancestorMap, st.newLayoutInds)).2 },
    interleaveCloud_eq st fuel r P hroot hpre hnd hd hb, ?_, ?_, rfl, rfl, ?_⟩
  · simp only [calculateNewLayoutInds, mapSet, if_true]
  · simp [mapSet]
  · intro v
    exact layoutIndsLoop_snd r v (mergedRef st P) 0 st.ancestorMap st.newLayoutInds

theorem member_slots (st : SDModule) (P : order_t) (hnd : P.Nodup) (v : vtbl_t) (hv : v ∈ P)
    (hr : inRange st v) :
    (positionsOf v (mergedRef st P) 0).length = rangeEnd st v - rangeStart st v + 1 ∧
    (∀ j p, (positionsOf v (mergedRef st P) 0).get? j = some p →
      (mergedRef st P).get? p = some (v, rangeStart st v + j)) ∧
    (∀ q i, (mergedRef st P).get? q = some (v, i) →
      rangeStart st v ≤ i ∧ i ≤ rangeEnd st v ∧
      (positionsOf v (mergedRef st P) 0).get? (i - rangeStart st v) = some q) := by
  have hs := slotsOf_mergedRef_inRange st P hnd v hv hr
  have hfwd : ∀ j p, (positionsOf v (mergedRef st P) 0).get? j = some p →
      j < rangeEnd st v - rangeStart st v + 1 ∧
      (mergedRef st P).get? p = some (v, rangeStart st v + j) := by
    intro j p hj
    obtain ⟨_, i, h1, h2⟩ := positionsOf_get v (mergedRef st P) 0 j p hj
    rw [hs, List.get?_eq_getElem?] at h1
    have hjlt : j < rangeEnd st v - rangeStart st v + 1 := by
      have := (List.getElem?_eq_some_iff.1 h1).1
      simpa using this
    rw [List.getElem?_range' _ _ hjlt] at h1
    simp only [Option.some.injEq, Nat.one_mul] at h1
    rw [Nat.sub_zero] at h2
    exact ⟨hjlt, by rw [h2, h1]⟩
  refine ⟨by rw [length_positionsOf, hs, List.length_range'], fun j p hj => (hfwd j p hj).2, ?_⟩
  intro q i hq
  obtain ⟨j, hj⟩ := positionsOf_complete v (mergedRef st P) 0 q i hq
  rw [Nat.zero_add] at hj
  obtain ⟨hjlt, hq2⟩ := hfwd j q hj
  rw [hq] at hq2
  have hi : i = rangeStart st v + j := congrArg Prod.snd (Option.some.inj hq2)
  obtain ⟨-, hs1, hs2⟩ := hr
  refine ⟨by omega, by omega, ?_⟩
  have hji : i - rangeStart st v = j := by omega
  rw [hji]
  exact hj

/-- C25, as stated, fails in two ways. In `wideRangeUnit` the root `R` has range
`[0, 2^63]` and address point 0; the range end is held as the `int64_t` value
`-2^63`, the merged sequence of `R` is empty, and after
`calculateNewLayoutInds(R)` the subvtable `(R,0)` has no layout list at all. In
`sharedOffsetUnit` the cloud of the root `B` is the tree `B, (C,1)` and `(C,1)`
has range `[1,2]` and address point 1, but `(C,1)` belongs to the cloud of `A`
too: when `B` is processed after `A`, the layout list of `(C,1)` already holds
two entries, and after `calculateNewLayoutInds(B)` it has four entries, not
`end - start + 1 = 2`. -/
theorem layout_list_from_range_start_counterexample :
    ("R" ∈ wideRangeUnit.roots ∧
      isTree wideRangeUnit.cloudMap ("R", 0) [("R", 0)] ∧
      inRange wideRangeUnit ("R", 0) ∧
      (interleaveCloud wideRangeUnit 1 "R").map
          (fun s => (calculateNewLayoutInds s "R").map (fun t => t.interleavingMap "R"))
        = .ok (.ok (some [])) ∧
      (interleaveCloud wideRangeUnit 1 "R").map
          (fun s => (calculateNewLayoutInds s "R").map (fun t => t.newLayoutInds ("R", 0)))
        = .ok (.ok none)) ∧
    ("B" ∈ sharedOffsetUnit.roots ∧
      isTree sharedOffsetUnit.cloudMap ("B", 0) [("B", 0), ("C", 1)] ∧
      inRange sharedOffsetUnit ("C", 1) ∧
      rangeEnd sharedOffsetUnit ("C", 1) - rangeStart sharedOffsetUnit ("C", 1) + 1 = 2 ∧
      (interleaveRoot sharedOffsetUnit 2 "A").map (fun s => s.newLayoutInds ("C", 1))
        = .ok (some [1, 2]) ∧
      (interleaveClouds sharedOffsetUnit 2).map (fun s => s.interleavingMap "B")
        = .ok (some [(("B", 0), 0), (("C", 1), 1), (("C", 1), 2)]) ∧
      (interleaveClouds sharedOffsetUnit 2).map (fun s => s.newLayoutInds ("C", 1))
        = .ok (some [1, 2, 1, 2])) := by
  exact ⟨⟨by decide, by decide, by decide, by decide, by decide⟩,
    ⟨by decide, by decide, by decide, by decide, by decide, by decide, by decide⟩⟩

/-- C25, amended: the layout index list is indexed relative to the range
start. For a root `r` whose cloud is a tree (within the finite node set
`nodes`, whose members have their table entries, address point and range start
below `2^63` and range end below `2^63 - 1`), and for every member `v` of the
cloud with `start(v) ≤ addressPoint(v) ≤ end(v)` and no layout entry yet:
`interleaveCloud(r)` and `calculateNewLayoutInds(r)` return, with any fuel of
at least `|nodes|`, and afterwards `newLayoutInds[v]` has exactly
`end(v) - start(v) + 1` entries, its `j`-th entry being the one position of the
slot `(v, start(v) + j)` in `interleavingMap[r]`. -/
theorem layout_list_from_range_start (st : SDModule) (fuel : Nat) (r : vtbl_name_t)
    (nodes : List vtbl_t) (hroot : r ∈ st.roots) (htree : isTree st.cloudMap (r, 0) nodes)
    (hfuel : nodes.length ≤ fuel) (hdata : ∀ w ∈ nodes, hasLayoutData st w)
    (hbound : ∀ w ∈ nodes, fitsInt64 st w)
    (v : vtbl_t) (hv : reachable st.cloudMap (r, 0) v)
    (hrange : rangeStart st v ≤ addressPoint st v ∧ addressPoint st v ≤ rangeEnd st v)
    (hfresh : st.newLayoutInds v = none) :
    ∃ st1 st2 merged inds, interleaveCloud st fuel r = .ok st1 ∧
      calculateNewLayoutInds st1 r = .ok st2 ∧
      st2.interleavingMap r = some merged ∧ st2.newLayoutInds v = some inds ∧
      inds.length = rangeEnd st v - rangeStart st v + 1 ∧
      ∀ j p, inds.get? j = some p →
        merged.get? p = some (v, rangeStart st v + j) ∧
        ∀ q, merged.get? q = some (v, rangeStart st v + j) → q = p := by
  obtain ⟨P, hP, hnd, hreach⟩ := preorder_of_isTree st.cloudMap (r, 0) nodes htree
  have hd : ∀ w ∈ P, hasLayoutData st w := fun w hw =>
    hdata w (reachable_mem_nodes st.cloudMap (r, 0) nodes htree w ((hreach w).1 hw))
  have hb : ∀ w ∈ P, fitsInt64 st w := fun w hw =>
    hbound w (reachable_mem_nodes st.cloudMap (r, 0) nodes htree w ((hreach w).1 hw))
  have hvP : v ∈ P := (hreach v).2 hv
  obtain ⟨st1, st2, h1, h2, hm, -, -, hnew⟩ :=
    layout_after_interleave st fuel r P hroot (hP fuel hfuel) hnd hd hb
  obtain ⟨hlen, hfwd, hbwd⟩ := member_slots st P hnd v hvP ⟨hd v hvP, hrange⟩
  have hne : positionsOf v (mergedRef st P) 0 ≠ [] := by
    intro h
    rw [h] at hlen
    simp at hlen
  refine ⟨st1, st2, mergedRef st P, positionsOf v (mergedRef st P) 0, h1, h2, hm, ?_, hlen, ?_⟩
  · rw [hnew v, if_neg hne, hfresh]
    simp
  · intro j p hj
    refine ⟨hfwd j p hj, ?_⟩
    intro q hq
    obtain ⟨-, -, hq2⟩ := hbwd q _ hq
    rw [Nat.add_sub_cancel_left, hj] at hq2
    exact (Option.some.inj hq2).symm

theorem layout_list_from_range_start_witness :
    ("B" ∈ multipleInheritanceUnit.roots ∧
      isTree multipleInheritanceUnit.cloudMap ("B", 0) [("B", 0), ("D", 1)] ∧
      [(("B", 0) : vtbl_t), ("D", 1)].length ≤ 2 ∧
      (∀ w ∈ [(("B", 0) : vtbl_t), ("D", 1)], hasLayoutData multipleInheritanceUnit w) ∧
      (∀ w ∈ [(("B", 0) : vtbl_t), ("D", 1)], fitsInt64 multipleInheritanceUnit w) ∧
      reachable multipleInheritanceUnit.cloudMap ("B", 0) ("D", 1) ∧
      (rangeStart multipleInheritanceUnit ("D", 1) ≤ addressPoint multipleInheritanceUnit ("D", 1) ∧
        addressPoint multipleInheritanceUnit ("D", 1) ≤ rangeEnd multipleInheritanceUnit ("D", 1)) ∧
      multipleInheritanceUnit.newLayoutInds ("D", 1) = none) ∧
    ∃ st1 st2 merged inds, interleaveCloud multipleInheritanceUnit 2 "B" = .ok st1 ∧
      calculateNewLayoutInds st1 "B" = .ok st2 ∧
      st2.interleavingMap "B" = some merged ∧ st2.newLayoutInds ("D", 1) = some inds ∧
      inds.length = rangeEnd multipleInheritanceUnit ("D", 1) -
        rangeStart multipleInheritanceUnit ("D", 1) + 1 ∧
      ∀ j p, inds.get? j = some p →
        merged.get? p = some (("D", 1), rangeStart multipleInheritanceUnit ("D", 1) + j) ∧
        ∀ q, merged.get? q = some (("D", 1), rangeStart multipleInheritanceUnit ("D", 1) + j) →
          q = p :=
  ⟨⟨by decide, by decide, by decide, by decide, by decide,
      Relation.ReflTransGen.single (by decide), by decide, by decide⟩,
    layout_list_from_range_start multipleInheritanceUnit 2 "B" [("B", 0), ("D", 1)]
      (by decide) (by decide) (by decide) (by decide) (by decide) ("D", 1)
      (Relation.ReflTransGen.single (by decide)) (by decide) (by decide)⟩

/-- C26, as stated, fails in two ways. In `wideRangeUnit` the root `R` has range
`[0, 2^63]` and address point 0; the range end is held as the `int64_t` value
`-2^63` and the merged sequence of `R` is empty, so the slots `(R, 0)` and
`(R, 1)` of the range sit nowhere in it. In `sharedOffsetUnit` the subvtable
`(C,1)` (range `[1,2]`, address point 1) is a member of the tree clouds of both
roots `A` and `B`; its layout list holds the positions of its slots in the
sequence of `A` in front of those in the sequence of `B`, and
`oldIndexToNew2((C,1), 1, true)` succeeds with the negative value `-1`. -/
theorem interleaving_keeps_member_order_counterexample :
    ("R" ∈ wideRangeUnit.roots ∧
      isTree wideRangeUnit.cloudMap ("R", 0) [("R", 0)] ∧
      inRange wideRangeUnit ("R", 0) ∧
      rangeStart wideRangeUnit ("R", 0) ≤ 0 ∧ 0 < 1 ∧ 1 ≤ rangeEnd wideRangeUnit ("R", 0) ∧
      (interleaveCloud wideRangeUnit 1 "R").map
          (fun s => (calculateNewLayoutInds s "R").map (fun t => t.interleavingMap "R"))
        = .ok (.ok (some []))) ∧
    ("B" ∈ sharedOffsetUnit.roots ∧
      isTree sharedOffsetUnit.cloudMap ("A", 0) [("A", 0), ("C", 1)] ∧
      isTree sharedOffsetUnit.cloudMap ("B", 0) [("B", 0), ("C", 1)] ∧
      inRange sharedOffsetUnit ("C", 1) ∧
      (interleaveClouds sharedOffsetUnit 2).map (fun s => s.newLayoutInds ("C", 1))
        = .ok (some [1, 2, 1, 2]) ∧
      (interleaveClouds sharedOffsetUnit 2).map (fun s => oldIndexToNew2 s ("C", 1) 1 true)
        = .ok (.ok (-1))) := by
  exact ⟨by decide, by decide⟩

/-- C26, amended: interleaving preserves the order of each member's own
elements. For a root `r` whose cloud is a tree (within the finite node set
`nodes`, whose members have their table entries, address point and range start
below `2^63` and range end below `2^63 - 1`) and a member `v` of the cloud with
`start(v) ≤ addressPoint(v) ≤ end(v)` and no layout entry yet, after
`interleaveCloud(r)` and `calculateNewLayoutInds(r)`: every slot `(v, i)` with
`start(v) ≤ i ≤ end(v)` is in the merged sequence, and for
`start(v) ≤ i < j ≤ end(v)` the slot `(v, i)` sits strictly before the slot
`(v, j)`; consequently a successful `oldIndexToNew2(v, k, true)` returns a
value of the sign of `k` and of absolute value at least `|k|`. -/
theorem interleaving_keeps_member_order (st : SDModule) (fuel : Nat) (r : vtbl_name_t)
    (nodes : List vtbl_t) (hroot : r ∈ st.roots) (htree : isTree st.cloudMap (r, 0) nodes)
    (hfuel : nodes.length ≤ fuel) (hdata : ∀ w ∈ nodes, hasLayoutData st w)
    (hbound : ∀ w ∈ nodes, fitsInt64 st w)
    (v : vtbl_t) (hv : reachable st.cloudMap (r, 0) v)
    (hrange : rangeStart st v ≤ addressPoint st v ∧ addressPoint st v ≤ rangeEnd st v)
    (hfresh : st.newLayoutInds v = none) :
    ∃ st1 st2 merged, interleaveCloud st fuel r = .ok st1 ∧
      calculateNewLayoutInds st1 r = .ok st2 ∧
      st2.interleavingMap r = some merged ∧
      (∀ i, rangeStart st v ≤ i → i ≤ rangeEnd st v → ∃ p, merged.get? p = some (v, i)) ∧
      (∀ i j p q, rangeStart st v ≤ i → i < j → j ≤ rangeEnd st v →
        merged.get? p = some (v, i) → merged.get? q = some (v, j) → p < q) ∧
      (∀ (k d : Int), oldIndexToNew2 st2 v k true = .ok d →
        (0 < k → k ≤ d) ∧ (k < 0 → d ≤ k) ∧ (k = 0 → d = 0)) := by
  obtain ⟨P, hP, hnd, hreach⟩ := preorder_of_isTree st.cloudMap (r, 0) nodes htree
  have hd : ∀ w ∈ P, hasLayoutData st w := fun w hw =>
    hdata w (reachable_mem_nodes st.cloudMap (r, 0) nodes htree w ((hreach w).1 hw))
  have hb : ∀ w ∈ P, fitsInt64 st w := fun w hw =>
    hbound w (reachable_mem_nodes st.cloudMap (r, 0) nodes htree w ((hreach w).1 hw))
  have hvP : v ∈ P := (hreach v).2 hv
  obtain ⟨st1, st2, h1, h2, hm, hap, hrm, hnew⟩ :=
    layout_after_interleave st fuel r P hroot (hP fuel hfuel) hnd hd hb
  obtain ⟨hlen, hfwd, hbwd⟩ := member_slots st P hnd v hvP ⟨hd v hvP, hrange⟩
  have hne : positionsOf v (mergedRef st P) 0 ≠ [] := by
    intro h
    rw [h] at hlen
    simp at hlen
  have hinds : st2.newLayoutInds v = some (positionsOf v (mergedRef st P) 0) := by
    rw [hnew v, if_neg hne, hfresh]
    simp
  refine ⟨st1, st2, mergedRef st P, h1, h2, hm, ?_, ?_, ?_⟩
  · intro i hi1 hi2
    have hlt : i - rangeStart st v < (positionsOf v (mergedRef st P) 0).length := by omega
    refine ⟨(positionsOf v (mergedRef st P) 0)[i - rangeStart st v], ?_⟩
    have := hfwd (i - rangeStart st v) _
      (by rw [List.get?_eq_getElem?, List.getElem?_eq_getElem hlt])
    rw [this]
    congr 2
    omega
  · intro i j p q hi hij hj hp hq
    obtain ⟨-, -, hp2⟩ := hbwd p i hp
    obtain ⟨-, -, hq2⟩ := hbwd q j hq
    have hidx : j - rangeStart st v = (i - rangeStart st v) + (j - i) := by omega
    rw [hidx] at hq2
    have := positionsOf_growth v (mergedRef st P) 0 _ _ p q hp2 hq2
    omega
  · intro k d hk
    obtain ⟨newInds, a, b, hn, -, -, h0, -, ha, hb, hdab⟩ := oldIndexToNew2_rel_inv st2 v k d hk
    rw [hinds] at hn
    have hn' := Option.some.inj hn
    subst hn'
    refine ⟨?_, ?_, ?_⟩
    · intro hpos
      have hidx : ((addressPoint st2 v : Int) + k).toNat = addressPoint st2 v + k.toNat := by
        omega
      rw [hidx] at ha
      have := positionsOf_growth v (mergedRef st P) 0 _ _ b a hb ha
      omega
    · intro hneg
      have hidx : addressPoint st2 v =
          ((addressPoint st2 v : Int) + k).toNat + (-k).toNat := by
        omega
      rw [hidx] at hb
      have := positionsOf_growth v (mergedRef st P) 0 _ _ a b ha hb
      omega
    · intro hz
      subst hz
      simp only [add_zero, Int.toNat_ofNat] at ha
      rw [ha] at hb
      have := Option.some.inj hb
      omega

theorem interleaving_keeps_member_order_witness :
    ("B" ∈ multipleInheritanceUnit.roots ∧
      isTree multipleInheritanceUnit.cloudMap ("B", 0) [("B", 0), ("D", 1)] ∧
      [(("B", 0) : vtbl_t), ("D", 1)].length ≤ 2 ∧
      (∀ w ∈ [(("B", 0) : vtbl_t), ("D", 1)], hasLayoutData multipleInheritanceUnit w) ∧
      (∀ w ∈ [(("B", 0) : vtbl_t), ("D", 1)], fitsInt64 multipleInheritanceUnit w) ∧
      reachable multipleInheritanceUnit.cloudMap ("B", 0) ("D", 1) ∧
      (rangeStart multipleInheritanceUnit ("D", 1) ≤ addressPoint multipleInheritanceUnit ("D", 1) ∧
        addressPoint multipleInheritanceUnit ("D", 1) ≤ rangeEnd multipleInheritanceUnit ("D", 1)) ∧
      multipleInheritanceUnit.newLayoutInds ("D", 1) = none) ∧
    ∃ st1 st2 merged, interleaveCloud multipleInheritanceUnit 2 "B" = .ok st1 ∧
      calculateNewLayoutInds st1 "B" = .ok st2 ∧
      st2.interleavingMap "B" = some merged ∧
      (∀ i, rangeStart multipleInheritanceUnit ("D", 1) ≤ i →
        i ≤ rangeEnd multipleInheritanceUnit ("D", 1) → ∃ p, merged.get? p = some (("D", 1), i)) ∧
      (∀ i j p q, rangeStart multipleInheritanceUnit ("D", 1) ≤ i → i < j →
        j ≤ rangeEnd multipleInheritanceUnit ("D", 1) →
        merged.get? p = some (("D", 1), i) → merged.get? q = some (("D", 1), j) → p < q) ∧
      (∀ (k d : Int), oldIndexToNew2 st2 ("D", 1) k true = .ok d →
        (0 < k → k ≤ d) ∧ (k < 0 → d ≤ k) ∧ (k = 0 → d = 0)) :=
  ⟨⟨by decide, by decide, by decide, by decide, by decide,
      Relation.ReflTransGen.single (by decide), by decide, by decide⟩,
    interleaving_keeps_member_order multipleInheritanceUnit 2 "B" [("B", 0), ("D", 1)]
      (by decide) (by decide) (by decide) (by decide) (by decide) ("D", 1)
      (Relation.ReflTransGen.single (by decide)) (by decide) (by decide)⟩

theorem translate_sign_example :
    (interleaveClouds multipleInheritanceUnit 2).map
        (fun s => (oldIndexToNew2 s ("B", 0) (-1) true, oldIndexToNew2 s ("B", 0) 0 true)) =
      .ok (.ok (-2), .ok 0) := by
  decide

/-! ## calculateChildrenCounts does not run out of fuel where preorder returns -/

theorem countChildren_error (cm : cloud_map_t) (fuel : Nat)
    (ih : ∀ (x : vtbl_t) (Q : order_t), preorder cm fuel x = .ok Q →
      ∀ (csm : cloud_size_map_t) (e : sd_error),
        calculateChildrenCounts cm fuel csm x = .error e → e = .assertion) :
    ∀ (children : cloud_map_children_t) (L : order_t),
      preorderChildren cm fuel [] children = .ok L →
      ∀ (acc : Nat × cloud_size_map_t) (e : sd_error),
        countChildren cm fuel acc children = .error e → e = .assertion := by
  intro children
  induction children with
  | nil =>
    intro L _ acc e h
    rw [countChildren_nil] at h
    cases h
  | cons n rest ihl =>
    intro L hL acc e h
    obtain ⟨Q, L2, hQ, hL2, -⟩ := preorderChildren_cons_inv cm fuel n rest L hL
    rw [countChildren_cons] at h
    cases hc : calculateChildrenCounts cm fuel acc.2 n with
    | error e' =>
      rw [hc] at h
      rw [← Except.error.inj h]
      exact ih n Q hQ acc.2 e' hc
    | ok c =>
      rw [hc] at h
      exact ihl L2 hL2 _ e h

theorem calculateChildrenCounts_error (cm : cloud_map_t) :
    ∀ (fuel : Nat) (x : vtbl_t) (Q : order_t), preorder cm fuel x = .ok Q →
      ∀ (csm : cloud_size_map_t) (e : sd_error),
        calculateChildrenCounts cm fuel csm x = .error e → e = .assertion := by
  intro fuel
  induction fuel with
  | zero =>
    intro x Q h
    rw [preorder_zero] at h
    cases h
  | succ fuel ih =>
    intro x Q hQ csm e h
    rw [calculateChildrenCounts_succ] at h
    rcases preorder_succ_inv cm fuel x Q hQ with ⟨hcm, -⟩ | ⟨children, L, hcm, hL, -⟩
    · rw [hcm] at h
      simp only at h
      split at h
      · split at h
        · exact (Except.error.inj h).symm
        · cases h
      · cases h
    · rw [hcm] at h
      simp only at h
      cases hc : countChildren cm fuel (1, csm) children with
      | error e' =>
        rw [hc] at h
        rw [← Except.error.inj h]
        exact countChildren_error cm fuel ih children L hL (1, csm) e' hc
      | ok r =>
        rw [hc] at h
        simp only at h
        split at h
        · split at h
          · exact (Except.error.inj h).symm
          · cases h
        · cases h

/-! ## Invariants of buildClouds -/

theorem buildClouds_preserves (Inv : SDModule → Prop)
    (hsub : ∀ cn ind sub st st1, Inv st → buildSubVTable cn ind sub st = .ok st1 → Inv st1)
    (hold : ∀ (st : SDModule) c v, Inv st →
      Inv { st with oldVTables := mapSet st.oldVTables c v })
    (globals : vtbl_name_t → Option Unit) :
    ∀ (records : List nmd_t) (st st1 : SDModule), Inv st →
      buildClouds globals records st = .ok st1 → Inv st1 := by
  have hsubs : ∀ cn (subs : List nmd_sub_t) (ind : Nat) (st st1 : SDModule), Inv st →
      buildSubVTables cn ind subs st = .ok st1 → Inv st1 := by
    intro cn subs
    induction subs with
    | nil =>
      intro ind st st1 hinv h
      simp only [buildSubVTables] at h
      rw [← Except.ok.inj h]
      exact hinv
    | cons sub rest ih =>
      intro ind st st2 hinv h
      simp only [buildSubVTables] at h
      cases hstep : buildSubVTable cn ind sub st with
      | error e =>
        rw [hstep] at h
        cases h
      | ok st1 =>
        rw [hstep] at h
        exact ih (ind + 1) st1 st2 (hsub cn ind sub st st1 hinv hstep) h
  intro records
  induction records with
  | nil =>
    intro st st1 hinv h
    rw [buildClouds_nil] at h
    rw [← Except.ok.inj h]
    exact hinv
  | cons info rest ih =>
    intro st st2 hinv h
    rw [buildClouds_cons] at h
    cases hstep : buildRecord globals st info with
    | error e =>
      rw [hstep] at h
      cases h
    | ok st1 =>
      rw [hstep] at h
      refine ih st1 st2 ?_ h
      unfold buildRecord at hstep
      cases hg : globals info.className with
      | none =>
        rw [hg] at hstep
        cases hstep
      | some vtable =>
        rw [hg] at hstep
        exact hsubs info.className info.subVTables 0 _ st1 (hold st _ _ hinv) hstep

theorem buildSubVTable_roots (cn : vtbl_name_t) (ind : Nat) (sub : nmd_sub_t)
    (st st1 : SDModule) (h : buildSubVTable cn ind sub st = .ok st1) :
    st1.roots = (if sub.parentName = "" then setInsert name_lt cn st.roots else st.roots) ∧
    st1.ancestorMap = st.ancestorMap ∧ st1.oldVTables = st.oldVTables := by
  unfold buildSubVTable at h
  by_cases hp : sub.parentName = ""
  · by_cases hi : ind = 0
    · simp only [hp, ne_eq, not_true_eq_false, if_false, hi, if_true] at h
      have h := Except.ok.inj h
      subst h
      simp [hp]
    · simp [hp, hi] at h
  · simp only [ne_eq, hp, not_false_eq_true, if_true] at h
    have h := Except.ok.inj h
    subst h
    simp [hp]

theorem buildClouds_roots_sorted (globals : vtbl_name_t → Option Unit) (records : List nmd_t)
    (st : SDModule) (h : buildClouds globals records initialState = .ok st) :
    st.roots.Pairwise name_lt ∧ (st.ancestorMap = fun _ => none) := by
  refine buildClouds_preserves
    (fun s => s.roots.Pairwise name_lt ∧ (s.ancestorMap = fun _ => none)) ?_ ?_ globals records
    initialState st ⟨List.Pairwise.nil, rfl⟩ h
  · intro cn ind sub s s1 hinv hs
    obtain ⟨h1, h2, -⟩ := buildSubVTable_roots cn ind sub s s1 hs
    refine ⟨?_, h2.trans hinv.2⟩
    rw [h1]
    split
    · exact setInsert_pairwise name_lt name_lt_trans name_lt_total _ _ hinv.1
    · exact hinv.1
  · intro s c v hinv
    exact hinv

theorem nodup_of_pairwise_name_lt (l : List vtbl_name_t) (h : l.Pairwise name_lt) : l.Nodup := by
  refine List.Pairwise.imp ?_ h
  intro a b hab heq
  subst heq
  exact name_lt_irrefl _ hab

theorem built_hasLayoutData (globals : vtbl_name_t → Option Unit) (records : List nmd_t)
    (st : SDModule) (hdistinct : distinctNames records)
    (hbuild : buildClouds globals records initialState = .ok st) :
    ∀ w ∈ declaredNodes records, hasLayoutData st w := by
  obtain ⟨-, -, t3, t4, -⟩ := buildClouds_initial globals records st hbuild
  intro w hw
  obtain ⟨info, hmem, hc, hlt⟩ := (mem_declaredNodes records w).1 hw
  have h3 := t3 info.className
  have h4 := t4 info.className
  rw [flatMap_of_distinct (fun i : nmd_t => i.className) _ records info hdistinct hmem] at h3 h4
  unfold hasLayoutData
  rw [hc, h3, h4, List.length_map, List.length_map]
  exact ⟨hlt, hlt⟩

/-! ## interleaveClouds on a built unit -/

theorem length_le_flatMap {α β : Type} (f : α → List β) :
    ∀ (l : List α) (a : α), a ∈ l → (f a).length ≤ (l.flatMap f).length := by
  intro l
  induction l with
  | nil =>
    intro a h
    cases h
  | cons b rest ih =>
    intro a h
    rw [List.flatMap_cons, List.length_append]
    rcases List.mem_cons.1 h with rfl | h
    · omega
    · have := ih a h
      omega

theorem declared_hasLayoutData (globals : vtbl_name_t → Option Unit) (records : List nmd_t)
    (st : SDModule) (hbuild : buildClouds globals records initialState = .ok st) :
    ∀ w ∈ declaredNodes records, hasLayoutData st w := by
  obtain ⟨-, -, t3, t4, -⟩ := buildClouds_initial globals records st hbuild
  intro w hw
  obtain ⟨info, hmem, hc, hlt⟩ := (mem_declaredNodes records w).1 hw
  have h3 := length_le_flatMap (fun i : nmd_t =>
    if i.className = w.1 then i.subVTables.map (fun sub => sub.addressPoint) else [])
    records info hmem
  have h4 := length_le_flatMap (fun i : nmd_t =>
    if i.className = w.1 then i.subVTables.map (fun sub => (sub.start, sub.end_)) else [])
    records info hmem
  simp only [hc, if_true, List.length_map] at h3 h4
  unfold hasLayoutData
  rw [t3, t4, hc]
  constructor <;> omega

theorem reachable_declared (globals : vtbl_name_t → Option Unit) (records : List nmd_t)
    (st : SDModule) (hbuild : buildClouds globals records initialState = .ok st)
    (r : vtbl_name_t) (hr : r ∈ st.roots) (v : vtbl_t) (hv : reachable st.cloudMap (r, 0) v) :
    v ∈ declaredNodes records := by
  obtain ⟨t1, t2, -⟩ := buildClouds_initial globals records st hbuild
  induction hv with
  | refl =>
    obtain ⟨info, hmem, hc, hd⟩ := (t2 r).1 hr
    exact (mem_declaredNodes records _).2
      ⟨info, hmem, hc.symm, lt_length_of_declaredParent info 0 _ hd⟩
  | tail _ hstep _ =>
    obtain ⟨info, hmem, p, hd, -, -, hcn⟩ := (t1 _ _).1 hstep
    exact (mem_declaredNodes records _).2
      ⟨info, hmem, hcn, lt_length_of_declaredParent info _ _ hd⟩

theorem fillInit_congr (st st' : SDModule) (h1 : st'.addrPtMap = st.addrPtMap)
    (h2 : st'.rangeMap = st.rangeMap) (b : Bool) :
    ∀ (order : order_t) (maps : (vtbl_t → Int) × (vtbl_t → Int)),
      fillInit st' b order maps = fillInit st b order maps := by
  intro order
  induction order with
  | nil => intro maps; rfl
  | cons n rest ih =>
    intro maps
    obtain ⟨pm, lm⟩ := maps
    simp only [fillInit, h1, h2, ih]

theorem fillVtablePart_congr (st st' : SDModule) (h1 : st'.addrPtMap = st.addrPtMap)
    (h2 : st'.rangeMap = st.rangeMap) (part : interleaving_list_t) (order : order_t) (b : Bool) :
    fillVtablePart st' part order b = fillVtablePart st part order b := by
  simp only [fillVtablePart, fillInit_congr st st' h1 h2]

/-- One root of `interleaveClouds` on a tree whose classes have no size yet:
either a round loop of `fillVtablePart` does not end, or the root is processed
and every class of the cloud gets its size. -/
theorem interleaveRoot_frame (st : SDModule) (fuel : Nat) (r : vtbl_name_t) (P : order_t)
    (hroot : r ∈ st.roots) (hpre : preorder st.cloudMap fuel (r, 0) = .ok P) (hnd : P.Nodup)
    (hd : ∀ v ∈ P, hasLayoutData st v) (hsize : ∀ c, (c, 0) ∈ P → st.cloudSizeMap c = none) :
    (interleaveRoot st fuel r = .error .outOfFuel ∧
      ∃ b, fillVtablePart st [] P b = .error .outOfFuel) ∨
    ∃ st', interleaveRoot st fuel r = .ok st' ∧
      st'.cloudMap = st.cloudMap ∧ st'.roots = st.roots ∧ st'.addrPtMap = st.addrPtMap ∧
      st'.rangeMap = st.rangeMap ∧
      (∀ c, (c, 0) ∉ P → st'.cloudSizeMap c = st.cloudSizeMap c) ∧
      (∀ c, (c, 0) ∈ P →
        ∃ Qc, preorder st.cloudMap fuel (c, 0) = .ok Qc ∧ st'.cloudSizeMap c = some Qc.length) := by
  obtain ⟨csm, hc, hcout, hcin⟩ :=
    calculateChildrenCounts_spec st.cloudMap fuel (r, 0) P st.cloudSizeMap hpre hnd hsize
  cases hneg : fillVtablePart st [] P false with
  | error e =>
    have he := fillVtablePart_error st false P hd [] e hneg
    subst he
    left
    refine ⟨?_, false, hneg⟩
    simp only [interleaveRoot, interleaveCloud, hroot, if_true, hpre, bind, Except.bind, hneg]
  | ok neg =>
    cases hpos : fillVtablePart st [] P true with
    | error e =>
      have he := fillVtablePart_error st true P hd [] e hpos
      subst he
      left
      refine ⟨?_, true, hpos⟩
      simp only [interleaveRoot, interleaveCloud, hroot, if_true, hpre, bind, Except.bind, hneg,
        hpos]
    | ok pos =>
      right
      refine ⟨{ st with
          interleavingMap := mapSet st.interleavingMap r (neg ++ pos)
          ancestorMap := (layoutIndsLoop r (neg ++ pos) 0 (st.ancestorMap, st.newLayoutInds)).1
          newLayoutInds := (layoutIndsLoop r (neg ++ pos) 0 (st.ancestorMap, st.newLayoutInds)).2
          cloudSizeMap := csm }, ?_, rfl, rfl, rfl, rfl, hcout, hcin⟩
      simp only [interleaveRoot, interleaveCloud, hroot, if_true, hpre, bind, Except.bind, hneg,
        hpos, calculateNewLayoutInds, mapSet, hc, pure, Except.pure]

theorem interleaveRoots_returns (st0 : SDModule) (fuel : Nat)
    (htree : ∀ r ∈ st0.roots, ∃ Q, preorder st0.cloudMap fuel (r, 0) = .ok Q ∧ Q.Nodup ∧
      (∀ v ∈ Q, hasLayoutData st0 v) ∧ ∀ x, x ∈ Q ↔ reachable st0.cloudMap (r, 0) x)
    (huniq : ∀ x r1 r2, r1 ∈ st0.roots → r2 ∈ st0.roots →
      reachable st0.cloudMap (r1, 0) x → reachable st0.cloudMap (r2, 0) x → r1 = r2) :
    ∀ (rs : List vtbl_name_t), rs.Nodup → (∀ r ∈ rs, r ∈ st0.roots) →
      ∀ s : SDModule, s.cloudMap = st0.cloudMap → s.roots = st0.roots →
        s.addrPtMap = st0.addrPtMap → s.rangeMap = st0.rangeMap →
        (∀ r ∈ rs, ∀ c, reachable st0.cloudMap (r, 0) (c, 0) → s.cloudSizeMap c = none) →
        (rs.foldlM (fun t vtbl => interleaveRoot t fuel vtbl) s = .error .outOfFuel ∧
          ∃ r ∈ rs, ∃ Q b, preorder st0.cloudMap fuel (r, 0) = .ok Q ∧
            fillVtablePart st0 [] Q b = .error .outOfFuel) ∨
        ∃ s', rs.foldlM (fun t vtbl => interleaveRoot t fuel vtbl) s = .ok s' ∧
          s'.cloudMap = st0.cloudMap ∧
          (∀ c, (∀ r ∈ rs, ¬ reachable st0.cloudMap (r, 0) (c, 0)) →
            s'.cloudSizeMap c = s.cloudSizeMap c) ∧
          (∀ r ∈ rs, ∃ Q, preorder st0.cloudMap fuel (r, 0) = .ok Q ∧
            s'.cloudSizeMap r = some Q.length) := by
  intro rs
  induction rs with
  | nil =>
    intro _ _ s hcm _ _ _ _
    exact Or.inr ⟨s, rfl, hcm, fun _ _ => rfl, fun r hr => by cases hr⟩
  | cons r rest ih =>
    intro hnd hsub s hcm hroots hap hrm hfresh
    have hr0 : r ∈ st0.roots := hsub r (List.mem_cons_self _ _)
    obtain ⟨Q, hQ, hQnd, hQd, hQr⟩ := htree r hr0
    rcases interleaveRoot_frame s fuel r Q (by rw [hroots]; exact hr0) (by rw [hcm]; exact hQ) hQnd
        (fun v hv => hasLayoutData_congr st0 s hap hrm v (hQd v hv))
        (fun c hc => hfresh r (List.mem_cons_self _ _) c ((hQr _).1 hc)) with
      ⟨hrun, b, hb⟩ | ⟨s1, hrun, h1cm, h1roots, h1ap, h1rm, h1out, h1in⟩
    · left
      refine ⟨?_, r, List.mem_cons_self _ _, Q, b, hQ, ?_⟩
      · rw [List.foldlM_cons]
        simp only [bind, Except.bind, hrun]
      · rw [← fillVtablePart_congr st0 s hap hrm]
        exact hb
    · have hnotin : ∀ r' ∈ rest, ∀ c, reachable st0.cloudMap (r', 0) (c, 0) → (c, 0) ∉ Q := by
        intro r' hr' c hreach hc
        have := huniq (c, 0) r r' hr0 (hsub r' (List.mem_cons_of_mem _ hr')) ((hQr _).1 hc) hreach
        subst this
        exact (List.nodup_cons.1 hnd).1 hr'
      rcases ih (List.nodup_cons.1 hnd).2
          (fun r' hr' => hsub r' (List.mem_cons_of_mem _ hr')) s1 (h1cm.trans hcm)
          (h1roots.trans hroots) (h1ap.trans hap) (h1rm.trans hrm)
          (fun r' hr' c hreach => by
            rw [h1out c (hnotin r' hr' c hreach)]
            exact hfresh r' (List.mem_cons_of_mem _ hr') c hreach) with
        ⟨hfold, r', hr', Q', b, hQ', hb⟩ | ⟨s2, hfold, h2cm, h2out, h2in⟩
      · left
        refine ⟨?_, r', List.mem_cons_of_mem _ hr', Q', b, hQ', hb⟩
        rw [List.foldlM_cons]
        simp only [bind, Except.bind, hrun]
        exact hfold
      · right
        refine ⟨s2, ?_, h2cm, ?_, ?_⟩
        · rw [List.foldlM_cons]
          simp only [bind, Except.bind, hrun]
          exact hfold
        · intro c hc
          rw [h2out c (fun r' hr' => hc r' (List.mem_cons_of_mem _ hr'))]
          apply h1out
          intro hcQ
          exact hc r (List.mem_cons_self _ _) ((hQr _).1 hcQ)
        · intro r' hr'
          rcases List.mem_cons.1 hr' with rfl | hr'
          · refine ⟨Q, hQ, ?_⟩
            rw [h2out r' ?_]
            · obtain ⟨Qc, hQc, hsz⟩ := h1in r' ((hQr _).2 Relation.ReflTransGen.refl)
              rw [hcm, hQ] at hQc
              rw [hsz, ← Except.ok.inj hQc]
            · intro r'' hr'' hreach
              have := huniq (r', 0) r' r'' hr0 (hsub r'' (List.mem_cons_of_mem _ hr''))
                Relation.ReflTransGen.refl hreach
              subst this
              exact (List.nodup_cons.1 hnd).1 hr''
          · exact h2in r' hr'

theorem built_forest (globals : vtbl_name_t → Option Unit) (records : List nmd_t)
    (st : SDModule) (hdistinct : distinctNames records)
    (hbuild : buildClouds globals records initialState = .ok st) :
    (∀ r ∈ st.roots, ∃ Q, (∀ fuel, (declaredNodes records).length ≤ fuel →
        preorder st.cloudMap fuel (r, 0) = .ok Q) ∧ Q.Nodup ∧
      (∀ v ∈ Q, hasLayoutData st v) ∧ ∀ x, x ∈ Q ↔ reachable st.cloudMap (r, 0) x) ∧
    (∀ x r1 r2, r1 ∈ st.roots → r2 ∈ st.roots →
      reachable st.cloudMap (r1, 0) x → reachable st.cloudMap (r2, 0) x → r1 = r2) := by
  obtain ⟨t1, t2, -⟩ := buildClouds_initial globals records st hbuild
  constructor
  · intro r hr
    have htree := buildClouds_isTree globals records st hdistinct hbuild r hr
    obtain ⟨Q, hQ, hnd, hreach⟩ := preorder_of_isTree st.cloudMap (r, 0) _ htree
    refine ⟨Q, hQ, hnd, ?_, hreach⟩
    intro v hv
    exact built_hasLayoutData globals records st hdistinct hbuild v
      (reachable_mem_nodes st.cloudMap (r, 0) _ htree v ((hreach v).1 hv))
  · have hparent : ∀ x p q, isChild st.cloudMap p x → isChild st.cloudMap q x → p = q := by
      intro x p q hp hq
      obtain ⟨i1, hm1, p1, hd1, -, hq1, hc1⟩ := (t1 p x).1 hp
      obtain ⟨i2, hm2, p2, hd2, -, hq2, hc2⟩ := (t1 q x).1 hq
      have := record_unique records hdistinct i1 i2 hm1 hm2 (hc1.symm.trans hc2)
      subst this
      rw [hd1] at hd2
      have := Option.some.inj hd2
      subst this
      rw [hq1, hq2]
    have hroot : ∀ r ∈ st.roots, ∀ p, ¬ isChild st.cloudMap p (r, 0) := by
      intro r hr p hp
      obtain ⟨i1, hm1, hc1, hd1⟩ := (t2 r).1 hr
      obtain ⟨i2, hm2, p2, hd2, hne, -, hc2⟩ := (t1 p (r, 0)).1 hp
      have := record_unique records hdistinct i1 i2 hm1 hm2 (hc1.trans hc2)
      subst this
      rw [hd1] at hd2
      exact hne (Option.some.inj hd2).symm
    intro x r1 r2 h1 h2 hx1 hx2
    exact root_unique_of_reachable st.cloudMap st.roots hparent hroot r1 r2 h1 h2 x hx1 hx2

theorem interleaveClouds_built (globals : vtbl_name_t → Option Unit) (records : List nmd_t)
    (st : SDModule) (hdistinct : distinctNames records)
    (hbuild : buildClouds globals records initialState = .ok st)
    (fuel : Nat) (hfuel : (declaredNodes records).length ≤ fuel) :
    (interleaveClouds st fuel = .error .outOfFuel ∧
      ∃ r ∈ st.roots, ∃ Q b, preorder st.cloudMap fuel (r, 0) = .ok Q ∧
        fillVtablePart st [] Q b = .error .outOfFuel) ∨
    ∃ st', interleaveClouds st fuel = .ok st' ∧
      ∀ r ∈ st.roots, ∃ Q, preorder st.cloudMap fuel (r, 0) = .ok Q ∧
        st'.cloudSizeMap r = some Q.length := by
  obtain ⟨hforest, huniq⟩ := built_forest globals records st hdistinct hbuild
  obtain ⟨hsorted, -⟩ := buildClouds_roots_sorted globals records st hbuild
  obtain ⟨-, -, -, -, -, -, hcsm, -⟩ := buildClouds_initial globals records st hbuild
  rcases interleaveRoots_returns st fuel
      (fun r hr => by
        obtain ⟨Q, hQ, hnd, hd, hreach⟩ := hforest r hr
        exact ⟨Q, hQ fuel hfuel, hnd, hd, hreach⟩)
      huniq st.roots (nodup_of_pairwise_name_lt _ hsorted) (fun r hr => hr) st rfl rfl rfl rfl
      (fun r _ c _ => by rw [hcsm]) with
    ⟨hrun, hdiv⟩ | ⟨s', hrun, -, -, hin⟩
  · exact Or.inl ⟨hrun, hdiv⟩
  · exact Or.inr ⟨s', hrun, hin⟩

/-- C27: each primary subvtable is counted exactly once. For a unit whose
records have pairwise distinct class names, built on a fresh `SDModule`, and
any fuel of at least the number of declared subvtables, `interleaveClouds`
(which runs `calculateChildrenCounts((r,0))` once for every root `r` in turn)
never stops on an assertion, in particular not on the one that `cloudSizeMap`
has no entry yet for the visited class. Either it returns, and then
`cloudSizeMap[r]` is the length of `preorder((r,0))` for every root `r`; or a
round loop of `fillVtablePart` on the traversal of some root does not end,
which does not happen when every declared subvtable has address point and
range start below `2^63` and range end below `2^63 - 1`. This is so because no
traversal repeats a node and the traversals of distinct roots are disjoint. -/
theorem children_counted_once (globals : vtbl_name_t → Option Unit) (records : List nmd_t)
    (st : SDModule) (hdistinct : distinctNames records)
    (hbuild : buildClouds globals records initialState = .ok st)
    (fuel : Nat) (hfuel : (declaredNodes records).length ≤ fuel) :
    interleaveClouds st fuel ≠ .error .assertion ∧
    ((∃ st', interleaveClouds st fuel = .ok st' ∧
        ∀ r ∈ st.roots, ∃ Q, preorder st.cloudMap fuel (r, 0) = .ok Q ∧
          st'.cloudSizeMap r = some Q.length) ∨
      (interleaveClouds st fuel = .error .outOfFuel ∧
        ∃ r ∈ st.roots, ∃ Q b, preorder st.cloudMap fuel (r, 0) = .ok Q ∧
          fillVtablePart st [] Q b = .error .outOfFuel)) ∧
    ((∀ w ∈ declaredNodes records, fitsInt64 st w) →
      ∃ st', interleaveClouds st fuel = .ok st') ∧
    (∀ r ∈ st.roots, ∃ Q, preorder st.cloudMap fuel (r, 0) = .ok Q ∧ Q.Nodup) ∧
    (∀ r1 ∈ st.roots, ∀ r2 ∈ st.roots, r1 ≠ r2 → ∀ Q1 Q2,
      preorder st.cloudMap fuel (r1, 0) = .ok Q1 → preorder st.cloudMap fuel (r2, 0) = .ok Q2 →
      ∀ x ∈ Q1, x ∉ Q2) := by
  obtain ⟨hforest, huniq⟩ := built_forest globals records st hdistinct hbuild
  have hcases := interleaveClouds_built globals records st hdistinct hbuild fuel hfuel
  refine ⟨?_, ?_, ?_, ?_, ?_⟩
  · rcases hcases with ⟨hrun, -⟩ | ⟨s', hrun, -⟩
    · rw [hrun]
      intro h
      cases h
    · rw [hrun]
      intro h
      cases h
  · rcases hcases with hdiv | hret
    · exact Or.inr hdiv
    · exact Or.inl hret
  · intro hb
    rcases hcases with ⟨-, r, hr, Q, b, hQ, hdiv⟩ | ⟨s', hrun, -⟩
    · have hQd : ∀ v ∈ Q, v ∈ declaredNodes records := fun v hv =>
        reachable_declared globals records st hbuild r hr v
          (preorder_reachable st.cloudMap fuel (r, 0) Q hQ v hv)
      obtain ⟨res, hres⟩ := fillVtablePart_returns st b Q
        (fun v hv => declared_hasLayoutData globals records st hbuild v (hQd v hv))
        (fun v hv => hb v (hQd v hv)) []
      rw [hres] at hdiv
      cases hdiv
    · exact ⟨s', hrun⟩
  · intro r hr
    obtain ⟨Q, hQ, hnd, -, -⟩ := hforest r hr
    exact ⟨Q, hQ fuel hfuel, hnd⟩
  · intro r1 h1 r2 h2 hne Q1 Q2 hQ1 hQ2 x hx1 hx2
    exact hne (huniq x r1 r2 h1 h2 (preorder_reachable _ fuel _ Q1 hQ1 x hx1)
      (preorder_reachable _ fuel _ Q2 hQ2 x hx2))

theorem children_counted_once_witness :
    (distinctNames scenarioARecords ∧
      buildClouds allPresent scenarioARecords initialState =
        .ok (built allPresent scenarioARecords) ∧
      (declaredNodes scenarioARecords).length ≤ 2) ∧
    (interleaveClouds (built allPresent scenarioARecords) 2 ≠ .error .assertion ∧
    ((∃ st', interleaveClouds (built allPresent scenarioARecords) 2 = .ok st' ∧
        ∀ r ∈ (built allPresent scenarioARecords).roots, ∃ Q,
          preorder (built allPresent scenarioARecords).cloudMap 2 (r, 0) = .ok Q ∧
          st'.cloudSizeMap r = some Q.length) ∨
      (interleaveClouds (built allPresent scenarioARecords) 2 = .error .outOfFuel ∧
        ∃ r ∈ (built allPresent scenarioARecords).roots, ∃ Q b,
          preorder (built allPresent scenarioARecords).cloudMap 2 (r, 0) = .ok Q ∧
          fillVtablePart (built allPresent scenarioARecords) [] Q b = .error .outOfFuel)) ∧
    ((∀ w ∈ declaredNodes scenarioARecords, fitsInt64 (built allPresent scenarioARecords) w) →
      ∃ st', interleaveClouds (built allPresent scenarioARecords) 2 = .ok st') ∧
    (∀ r ∈ (built allPresent scenarioARecords).roots, ∃ Q,
      preorder (built allPresent scenarioARecords).cloudMap 2 (r, 0) = .ok Q ∧ Q.Nodup) ∧
    (∀ r1 ∈ (built allPresent scenarioARecords).roots,
      ∀ r2 ∈ (built allPresent scenarioARecords).roots, r1 ≠ r2 → ∀ Q1 Q2,
      preorder (built allPresent scenarioARecords).cloudMap 2 (r1, 0) = .ok Q1 →
      preorder (built allPresent scenarioARecords).cloudMap 2 (r2, 0) = .ok Q2 →
      ∀ x ∈ Q1, x ∉ Q2)) :=
  ⟨⟨by decide, rfl, by decide⟩,
    children_counted_once allPresent scenarioARecords (built allPresent scenarioARecords)
      (by decide) rfl 2 (by decide)⟩

/-- C28: the recursive traversals terminate on every built forest with
distinct class names. When `buildClouds` succeeds on a fresh `SDModule` and
records with pairwise distinct class names, then for every root `r` no node
reachable from `(r,0)` is reachable from one of its own children (no cycle),
and with any fuel of at least the number of declared subvtables
`preorder((r,0))` returns one list `Q`, which contains no node twice, and
`calculateChildrenCounts((r,0))` returns `|Q|` on the size map that
`buildClouds` leaves, and does not run out of fuel on any size map. -/
theorem traversals_terminate (globals : vtbl_name_t → Option Unit) (records : List nmd_t)
    (st : SDModule) (hdistinct : distinctNames records)
    (hbuild : buildClouds globals records initialState = .ok st)
    (r : vtbl_name_t) (hr : r ∈ st.roots) :
    ∃ Q : order_t, Q.Nodup ∧ (∀ x, x ∈ Q ↔ reachable st.cloudMap (r, 0) x) ∧
      (∀ x c, reachable st.cloudMap (r, 0) x → isChild st.cloudMap x c →
        ¬ reachable st.cloudMap c x) ∧
      ∀ fuel, (declaredNodes records).length ≤ fuel →
        preorder st.cloudMap fuel (r, 0) = .ok Q ∧
        (∃ csm1, calculateChildrenCounts st.cloudMap fuel st.cloudSizeMap (r, 0) =
          .ok (Q.length, csm1)) ∧
        ∀ csm, calculateChildrenCounts st.cloudMap fuel csm (r, 0) ≠ .error .outOfFuel := by
  have htree := buildClouds_isTree globals records st hdistinct hbuild r hr
  obtain ⟨Q, hQ, hnd, hreach⟩ := preorder_of_isTree st.cloudMap (r, 0) _ htree
  obtain ⟨-, -, -, -, -, -, hcsm, -⟩ := buildClouds_initial globals records st hbuild
  refine ⟨Q, hnd, hreach, ?_, ?_⟩
  · intro x c hx hc
    obtain ⟨d, hd, -⟩ := path_of_reachable st.cloudMap (r, 0) (r, 0) [] rfl x hx
    exact not_reachable_parent st.cloudMap (r, 0) _ htree x c d hd hc
  · intro fuel hfuel
    refine ⟨hQ fuel hfuel, ?_, ?_⟩
    · obtain ⟨csm1, hrun, -, -⟩ := calculateChildrenCounts_spec st.cloudMap fuel (r, 0) Q
        st.cloudSizeMap (hQ fuel hfuel) hnd (fun c _ => by rw [hcsm])
      exact ⟨csm1, hrun⟩
    · intro csm h
      have := calculateChildrenCounts_error st.cloudMap fuel (r, 0) Q (hQ fuel hfuel) csm _ h
      cases this

theorem traversals_terminate_witness :
    (distinctNames scenarioARecords ∧
      buildClouds allPresent scenarioARecords initialState =
        .ok (built allPresent scenarioARecords) ∧
      "R" ∈ (built allPresent scenarioARecords).roots) ∧
    ∃ Q : order_t, Q.Nodup ∧
      (∀ x, x ∈ Q ↔ reachable (built allPresent scenarioARecords).cloudMap ("R", 0) x) ∧
      (∀ x c, reachable (built allPresent scenarioARecords).cloudMap ("R", 0) x →
        isChild (built allPresent scenarioARecords).cloudMap x c →
        ¬ reachable (built allPresent scenarioARecords).cloudMap c x) ∧
      ∀ fuel, (declaredNodes scenarioARecords).length ≤ fuel →
        preorder (built allPresent scenarioARecords).cloudMap fuel ("R", 0) = .ok Q ∧
        (∃ csm1, calculateChildrenCounts (built allPresent scenarioARecords).cloudMap fuel
          (built allPresent scenarioARecords).cloudSizeMap ("R", 0) = .ok (Q.length, csm1)) ∧
        ∀ csm, calculateChildrenCounts (built allPresent scenarioARecords).cloudMap fuel csm
          ("R", 0) ≠ .error .outOfFuel :=
  ⟨⟨by decide, rfl, by decide⟩,
    traversals_terminate allPresent scenarioARecords (built allPresent scenarioARecords)
      (by decide) rfl "R" (by decide)⟩

/-! ## The keys that buildClouds creates -/

theorem isSome_mapSet {κ ν : Type} [DecidableEq κ] (m : κ → Option ν) (k k' : κ) (v : ν) :
    (mapSet m k v k').isSome = true ↔ k' = k ∨ (m k').isSome = true := by
  unfold mapSet
  by_cases h : k' = k <;> simp [h]

theorem buildSubVTable_keys (cn : vtbl_name_t) (ind : Nat) (sub : nmd_sub_t)
    (st st1 : SDModule) (h : buildSubVTable cn ind sub st = .ok st1) :
    (∀ q, (st1.cloudMap q).isSome = true ↔ (st.cloudMap q).isSome = true ∨
      (sub.parentName ≠ "" ∧ q = (sub.parentName, 0)) ∨
      (sub.parentName = "" ∧ q = (cn, ind))) ∧
    ((∀ c, st.addrPtMap c ≠ some []) → ∀ c, st1.addrPtMap c ≠ some []) ∧
    ((∀ c, st.rangeMap c ≠ some []) → ∀ c, st1.rangeMap c ≠ some []) := by
  unfold buildSubVTable at h
  have htab : ∀ (m : vtbl_name_t → Option (List Nat)) (x : Nat), (∀ c, m c ≠ some []) →
      ∀ c, mapSet m cn ((m cn).getD [] ++ [x]) c ≠ some [] := by
    intro m x hm c
    unfold mapSet
    split
    · simp
    · exact hm c
  have htab2 : ∀ (m : vtbl_name_t → Option (List range_t)) (x : range_t),
      (∀ c, m c ≠ some []) → ∀ c, mapSet m cn ((m cn).getD [] ++ [x]) c ≠ some [] := by
    intro m x hm c
    unfold mapSet
    split
    · simp
    · exact hm c
  by_cases hp : sub.parentName = ""
  · by_cases hi : ind = 0
    · simp only [hp, ne_eq, not_true_eq_false, if_false, hi, if_true] at h
      have h := Except.ok.inj h
      subst h
      subst hi
      refine ⟨?_, htab _ _, htab2 _ _⟩
      intro q
      simp only [hp, ne_eq, not_true_eq_false, false_and, true_and, false_or]
      cases hc : st.cloudMap (cn, 0) with
      | none =>
        simp only
        rw [isSome_mapSet]
        tauto
      | some l =>
        simp only
        constructor
        · exact Or.inl
        · rintro (h | h)
          · exact h
          · rw [h, hc]
            rfl
    · simp [hp, hi] at h
  · simp only [ne_eq, hp, not_false_eq_true, if_true] at h
    have h := Except.ok.inj h
    subst h
    refine ⟨?_, htab _ _, htab2 _ _⟩
    intro q
    simp only [ne_eq, hp, not_false_eq_true, true_and, false_and, or_false]
    show (mapSet st.cloudMap (sub.parentName, 0) _ q).isSome = true ↔ _
    rw [isSome_mapSet]
    tauto

theorem buildSubVTables_keys (cn : vtbl_name_t) :
    ∀ (subs : List nmd_sub_t) (ind : Nat) (st st1 : SDModule),
      buildSubVTables cn ind subs st = .ok st1 →
      (∀ q, (st1.cloudMap q).isSome = true ↔ (st.cloudMap q).isSome = true ∨
        ∃ k sub, subs.get? k = some sub ∧
          ((sub.parentName ≠ "" ∧ q = (sub.parentName, 0)) ∨
            (sub.parentName = "" ∧ q = (cn, ind + k)))) ∧
      st1.oldVTables = st.oldVTables := by
  intro subs
  induction subs with
  | nil =>
    intro ind st st1 h
    simp only [buildSubVTables] at h
    have h := Except.ok.inj h
    subst h
    simp
  | cons sub rest ih =>
    intro ind st st2 h
    simp only [buildSubVTables] at h
    cases hstep : buildSubVTable cn ind sub st with
    | error e =>
      rw [hstep] at h
      cases h
    | ok st1 =>
      rw [hstep] at h
      simp only at h
      obtain ⟨s1, -, -⟩ := buildSubVTable_keys cn ind sub st st1 hstep
      obtain ⟨-, -, s2⟩ := buildSubVTable_roots cn ind sub st st1 hstep
      obtain ⟨t1, t2⟩ := ih (ind + 1) st1 st2 h
      refine ⟨?_, t2.trans s2⟩
      intro q
      rw [t1, s1, exists_get?_cons, or_assoc]
      simp only [Nat.add_zero, Nat.add_assoc, Nat.add_comm 1]

theorem buildRecord_keys (globals : vtbl_name_t → Option Unit) (st st1 : SDModule)
    (info : nmd_t) (h : buildRecord globals st info = .ok st1) :
    (∀ q, (st1.cloudMap q).isSome = true ↔ (st.cloudMap q).isSome = true ∨
      ∃ i p, declaredParent info i = some p ∧
        ((p ≠ "" ∧ q = (p, 0)) ∨ (p = "" ∧ q = (info.className, i)))) ∧
    (∀ c, (st1.oldVTables c).isSome = true ↔
      (st.oldVTables c).isSome = true ∨ info.className = c) := by
  unfold buildRecord at h
  cases hg : globals info.className with
  | none =>
    rw [hg] at h
    cases h
  | some vtable =>
    rw [hg] at h
    simp only at h
    obtain ⟨t1, t2⟩ := buildSubVTables_keys info.className info.subVTables 0 _ st1 h
    constructor
    · intro q
      rw [t1]
      apply or_congr Iff.rfl
      simp only [declaredParent, Option.map_eq_some', Nat.zero_add]
      constructor
      · rintro ⟨k, sub, hk, hcase⟩
        exact ⟨k, sub.parentName, ⟨sub, hk, rfl⟩, hcase⟩
      · rintro ⟨i, p, ⟨sub, hk, hs⟩, hcase⟩
        subst hs
        exact ⟨i, sub, hk, hcase⟩
    · intro c
      rw [t2]
      show (mapSet st.oldVTables info.className vtable c).isSome = true ↔ _
      rw [isSome_mapSet]
      constructor
      · rintro (h | h)
        · exact Or.inr h.symm
        · exact Or.inl h
      · rintro (h | h)
        · exact Or.inr h
        · exact Or.inl h.symm

theorem buildClouds_keys (globals : vtbl_name_t → Option Unit) :
    ∀ (records : List nmd_t) (st st1 : SDModule),
      buildClouds globals records st = .ok st1 →
      (∀ q, (st1.cloudMap q).isSome = true ↔ (st.cloudMap q).isSome = true ∨
        ∃ info ∈ records, ∃ i p, declaredParent info i = some p ∧
          ((p ≠ "" ∧ q = (p, 0)) ∨ (p = "" ∧ q = (info.className, i)))) ∧
      (∀ c, (st1.oldVTables c).isSome = true ↔
        (st.oldVTables c).isSome = true ∨ ∃ info ∈ records, info.className = c) := by
  intro records
  induction records with
  | nil =>
    intro st st1 h
    rw [buildClouds_nil] at h
    have h := Except.ok.inj h
    subst h
    simp
  | cons info rest ih =>
    intro st st2 h
    rw [buildClouds_cons] at h
    cases hstep : buildRecord globals st info with
    | error e =>
      rw [hstep] at h
      cases h
    | ok st1 =>
      rw [hstep] at h
      simp only at h
      obtain ⟨s1, s2⟩ := buildRecord_keys globals st st1 info hstep
      obtain ⟨t1, t2⟩ := ih st1 st2 h
      constructor
      · intro q
        rw [t1, s1, or_assoc]
        simp only [List.mem_cons, exists_eq_or_imp]
      · intro c
        rw [t2, s2, or_assoc]
        simp only [List.mem_cons, exists_eq_or_imp]

theorem buildClouds_tables_nonempty (globals : vtbl_name_t → Option Unit)
    (records : List nmd_t) (st : SDModule)
    (h : buildClouds globals records initialState = .ok st) :
    (∀ c, st.addrPtMap c ≠ some []) ∧ (∀ c, st.rangeMap c ≠ some []) := by
  refine buildClouds_preserves
    (fun s => (∀ c, s.addrPtMap c ≠ some []) ∧ (∀ c, s.rangeMap c ≠ some [])) ?_ ?_
    globals records initialState st ⟨fun c => by simp [initialState],
      fun c => by simp [initialState]⟩ h
  · intro cn ind sub s s1 hinv hs
    obtain ⟨-, h1, h2⟩ := buildSubVTable_keys cn ind sub s s1 hs
    exact ⟨h1 hinv.1, h2 hinv.2⟩
  · intro s c v hinv
    exact hinv

/-! ## buildClouds does not depend on the order of the records (C30) -/

theorem pairwise_ext {α : Type} (lt : α → α → Prop) (hirr : ∀ a, ¬ lt a a)
    (htr : ∀ a b c, lt a b → lt b c → lt a c) (l l' : List α)
    (h1 : l.Pairwise lt) (h2 : l'.Pairwise lt) (hm : ∀ a, a ∈ l ↔ a ∈ l') : l = l' := by
  haveI : IsAntisymm α lt := ⟨fun a b hab hba => absurd (htr _ _ _ hab hba) (hirr a)⟩
  have hne : ∀ {a b : α}, lt a b → a ≠ b := by
    intro a b hab e
    subst e
    exact hirr _ hab
  have hnd1 : l.Nodup := List.Pairwise.imp hne h1
  have hnd2 : l'.Nodup := List.Pairwise.imp hne h2
  exact List.eq_of_perm_of_sorted ((List.perm_ext_iff_of_nodup hnd1 hnd2).2 hm) h1 h2

theorem option_list_ext {α : Type} (a b : Option (List α))
    (h1 : a.isSome = true ↔ b.isSome = true) (h2 : a.getD [] = b.getD []) : a = b := by
  cases a <;> cases b <;> simp_all

theorem option_list_ext_nonempty {α : Type} (a b : Option (List α))
    (ha : a ≠ some []) (hb : b ≠ some []) (h2 : a.getD [] = b.getD []) : a = b := by
  cases a <;> cases b <;> simp_all

theorem option_unit_ext (a b : Option Unit) (h : a.isSome = true ↔ b.isSome = true) : a = b := by
  cases a <;> cases b <;> simp_all

theorem SDModule_ext (a b : SDModule) (h1 : a.cloudMap = b.cloudMap) (h2 : a.roots = b.roots)
    (h3 : a.addrPtMap = b.addrPtMap) (h4 : a.rangeMap = b.rangeMap)
    (h5 : a.ancestorMap = b.ancestorMap) (h6 : a.newLayoutInds = b.newLayoutInds)
    (h7 : a.interleavingMap = b.interleavingMap) (h8 : a.oldVTables = b.oldVTables)
    (h9 : a.cloudSizeMap = b.cloudSizeMap) : a = b := by
  cases a
  cases b
  simp only [SDModule.mk.injEq]
  exact ⟨h1, h2, h3, h4, h5, h6, h7, h8, h9⟩

theorem flatMap_class_congr {γ : Type} (g : nmd_t → List γ) (records records' : List nmd_t)
    (hd : distinctNames records) (hd' : distinctNames records')
    (hm : ∀ info, info ∈ records ↔ info ∈ records') (c : vtbl_name_t) :
    records.flatMap (fun info => if info.className = c then g info else []) =
      records'.flatMap (fun info => if info.className = c then g info else []) := by
  by_cases h : ∃ info ∈ records, info.className = c
  · obtain ⟨info, hmem, hc⟩ := h
    subst hc
    rw [flatMap_of_distinct (fun i : nmd_t => i.className) g records info hd hmem,
      flatMap_of_distinct (fun i : nmd_t => i.className) g records' info hd' ((hm info).1 hmem)]
  · have e1 : records.flatMap (fun info => if info.className = c then g info else []) = [] := by
      rw [List.flatMap_eq_nil_iff]
      intro x hx
      rw [if_neg (fun e => h ⟨x, hx, e⟩)]
    have e2 : records'.flatMap (fun info => if info.className = c then g info else []) = [] := by
      rw [List.flatMap_eq_nil_iff]
      intro x hx
      rw [if_neg (fun e => h ⟨x, (hm x).2 hx, e⟩)]
    rw [e1, e2]

theorem built_state_ext (globals : vtbl_name_t → Option Unit) (records records' : List nmd_t)
    (hd : distinctNames records) (hd' : distinctNames records')
    (hm : ∀ info, info ∈ records ↔ info ∈ records') (st st' : SDModule)
    (h : buildClouds globals records initialState = .ok st)
    (h' : buildClouds globals records' initialState = .ok st') : st' = st := by
  obtain ⟨a1, a2, a3, a4, a5, a6, a7, a8⟩ := buildClouds_initial globals records st h
  obtain ⟨b1, b2, b3, b4, b5, b6, b7, b8⟩ := buildClouds_initial globals records' st' h'
  obtain ⟨ka, oa⟩ := buildClouds_keys globals records initialState st h
  obtain ⟨kb, ob⟩ := buildClouds_keys globals records' initialState st' h'
  obtain ⟨ra, anca⟩ := buildClouds_roots_sorted globals records st h
  obtain ⟨rb, ancb⟩ := buildClouds_roots_sorted globals records' st' h'
  obtain ⟨na1, na2⟩ := buildClouds_tables_nonempty globals records st h
  obtain ⟨nb1, nb2⟩ := buildClouds_tables_nonempty globals records' st' h'
  have hex : ∀ P : nmd_t → Prop, (∃ info ∈ records', P info) ↔ ∃ info ∈ records, P info :=
    fun P => exists_congr (fun info => and_congr (hm info).symm Iff.rfl)
  unfold isChild at a1 b1
  apply SDModule_ext
  · funext q
    apply option_list_ext
    · rw [kb, ka, hex]
    · apply pairwise_ext vtbl_lt vtbl_lt_irrefl vtbl_lt_trans _ _ (b5 q) (a5 q)
      intro y
      rw [b1, a1, hex]
  · apply pairwise_ext name_lt name_lt_irrefl name_lt_trans _ _ rb ra
    intro c
    rw [b2, a2, hex]
  · funext c
    apply option_list_ext_nonempty _ _ (nb1 c) (na1 c)
    rw [b3, a3]
    exact flatMap_class_congr _ records' records hd' hd (fun i => (hm i).symm) c
  · funext c
    apply option_list_ext_nonempty _ _ (nb2 c) (na2 c)
    rw [b4, a4]
    exact flatMap_class_congr _ records' records hd' hd (fun i => (hm i).symm) c
  · rw [ancb, anca]
  · rw [b6, a6]
  · rw [b8, a8]
  · funext c
    apply option_unit_ext
    rw [ob, oa, hex]
  · rw [b7, a7]

/-- C30: the analysis does not depend on the order in which the records
arrive. For records with pairwise distinct class names and any permutation of
them, `buildClouds` on a fresh `SDModule` gives the same result: it fails for
both or returns the same state for both, with the same `cloudMap`, `roots`,
`addrPtMap` and `rangeMap`; therefore `runOnModule` gives the same result too,
with the same merged sequences, layout index lists and cloud sizes. -/
theorem build_order_independent (globals : vtbl_name_t → Option Unit)
    (records records' : List nmd_t) (hdistinct : distinctNames records)
    (hperm : records.Perm records') :
    buildClouds globals records' initialState = buildClouds globals records initialState ∧
    (∀ st st', buildClouds globals records initialState = .ok st →
      buildClouds globals records' initialState = .ok st' →
      st'.cloudMap = st.cloudMap ∧ st'.roots = st.roots ∧ st'.addrPtMap = st.addrPtMap ∧
        st'.rangeMap = st.rangeMap) ∧
    ∀ fuel, runOnModule globals records' fuel = runOnModule globals records fuel := by
  have hm : ∀ info, info ∈ records ↔ info ∈ records' := fun info => hperm.mem_iff
  have hd' : distinctNames records' := by
    unfold distinctNames at hdistinct ⊢
    exact (List.Perm.nodup_iff (hperm.map _)).1 hdistinct
  have hex : ∀ P : nmd_t → Prop, (∃ info ∈ records', P info) ↔ ∃ info ∈ records, P info :=
    fun P => exists_congr (fun info => and_congr (hm info).symm Iff.rfl)
  have heq : buildClouds globals records' initialState =
      buildClouds globals records initialState := by
    obtain ⟨e1, e2⟩ := buildClouds_error_iff globals records initialState
    obtain ⟨f1, f2⟩ := buildClouds_error_iff globals records' initialState
    cases h : buildClouds globals records initialState with
    | error e =>
      have hfail := (f1.2 ((hex _).2 (e1.1 ⟨e, h⟩)))
      obtain ⟨e', he'⟩ := hfail
      rw [he', f2 e' he', e2 e h]
    | ok st =>
      cases h' : buildClouds globals records' initialState with
      | error e' =>
        obtain ⟨e, he⟩ := e1.2 ((hex _).1 (f1.1 ⟨e', h'⟩))
        rw [h] at he
        cases he
      | ok st' =>
        rw [built_state_ext globals records records' hdistinct hd' hm st st' h h']
  refine ⟨heq, ?_, ?_⟩
  · intro st st' h h'
    rw [heq, h] at h'
    rw [← Except.ok.inj h']
    exact ⟨rfl, rfl, rfl, rfl⟩
  · intro fuel
    unfold runOnModule
    rw [heq]

theorem build_order_independent_witness :
    (distinctNames scenarioARecords ∧ scenarioARecords.Perm scenarioARecords.reverse) ∧
    buildClouds allPresent scenarioARecords.reverse initialState =
      buildClouds allPresent scenarioARecords initialState ∧
    (∀ st st', buildClouds allPresent scenarioARecords initialState = .ok st →
      buildClouds allPresent scenarioARecords.reverse initialState = .ok st' →
      st'.cloudMap = st.cloudMap ∧ st'.roots = st.roots ∧ st'.addrPtMap = st.addrPtMap ∧
        st'.rangeMap = st.rangeMap) ∧
    ∀ fuel, runOnModule allPresent scenarioARecords.reverse fuel =
      runOnModule allPresent scenarioARecords fuel :=
  ⟨⟨by decide, (List.reverse_perm scenarioARecords).symm⟩,
    build_order_independent allPresent scenarioARecords scenarioARecords.reverse (by decide)
      (List.reverse_perm scenarioARecords).symm⟩

theorem reversed_records_example :
    (runOnModule allPresent scenarioARecords.reverse 2).map (fun s => s.interleavingMap "R") =
      .ok (some [(("R", 0), 0), (("C", 0), 0), (("R", 0), 1), (("C", 0), 1)]) := by
  decide

/-! ## The table lookups of the interleaver (C32) -/

theorem keys_of_hasLayoutData (st : SDModule) (v : vtbl_t) (h : hasLayoutData st v) :
    ∃ aps ranges, st.addrPtMap v.1 = some aps ∧ st.rangeMap v.1 = some ranges ∧
      v.2 < aps.length ∧ v.2 < ranges.length := by
  obtain ⟨h1, h2⟩ := h
  cases ha : st.addrPtMap v.1 with
  | none =>
    rw [ha] at h1
    simp at h1
  | some aps =>
    cases hr : st.rangeMap v.1 with
    | none =>
      rw [hr] at h2
      simp at h2
    | some ranges =>
      rw [ha] at h1
      rw [hr] at h2
      exact ⟨aps, ranges, rfl, rfl, h1, h2⟩

/-- C32: the table lookups of the interleaver never miss. Whenever
`buildClouds` succeeds on a fresh `SDModule`, every node `(c,i)` reachable
from the primary subvtable of a root `r`, hence every node of
`preorder((r,0))`, has `c` as a key of both `addrPtMap` and `rangeMap` with
`i` smaller than the length of each list; the reads `addrPtMap[c][i]` and
`rangeMap[c][i]` return a value, the first loop of `fillVtablePart`, which
performs these reads for every member of the traversal, returns in both
directions, and `fillVtablePart` itself returns unless its round loop does not
end: it never stops on a read past the end of a table. -/
theorem table_lookups_in_bounds (globals : vtbl_name_t → Option Unit) (records : List nmd_t)
    (st : SDModule) (hbuild : buildClouds globals records initialState = .ok st)
    (r : vtbl_name_t) (hr : r ∈ st.roots) :
    (∀ v, reachable st.cloudMap (r, 0) v →
      ∃ aps ranges, st.addrPtMap v.1 = some aps ∧ st.rangeMap v.1 = some ranges ∧
        v.2 < aps.length ∧ v.2 < ranges.length) ∧
    ∀ fuel Q, preorder st.cloudMap fuel (r, 0) = .ok Q →
      (∀ v ∈ Q, ∃ aps ranges, st.addrPtMap v.1 = some aps ∧ st.rangeMap v.1 = some ranges ∧
        v.2 < aps.length ∧ v.2 < ranges.length ∧
        (∃ a, addrPtAt st.addrPtMap v = .ok a) ∧ ∃ rg, rangeAt st.rangeMap v = .ok rg) ∧
      ∀ b, (∃ maps, fillInit st b Q (fun _ => 0, fun _ => 0) = .ok maps) ∧
        ∀ e, fillVtablePart st [] Q b = .error e → e = .outOfFuel := by
  have hdata : ∀ v, reachable st.cloudMap (r, 0) v → hasLayoutData st v := fun v hv =>
    declared_hasLayoutData globals records st hbuild v
      (reachable_declared globals records st hbuild r hr v hv)
  refine ⟨fun v hv => keys_of_hasLayoutData st v (hdata v hv), ?_⟩
  intro fuel Q hQ
  have hQd : ∀ v ∈ Q, hasLayoutData st v := fun v hv =>
    hdata v (preorder_reachable st.cloudMap fuel (r, 0) Q hQ v hv)
  refine ⟨?_, fun b => ⟨?_, ?_⟩⟩
  rotate_left
  · obtain ⟨maps, hmaps, -⟩ := fillInit_values st b Q hQd (fun _ => 0) (fun _ => 0)
    exact ⟨maps, hmaps⟩
  · exact fun e h => fillVtablePart_error st b Q hQd [] e h
  intro v hv
  obtain ⟨aps, ranges, h1, h2, h3, h4⟩ := keys_of_hasLayoutData st v (hQd v hv)
  exact ⟨aps, ranges, h1, h2, h3, h4, ⟨_, addrPtAt_of_hasLayoutData st v (hQd v hv)⟩,
    ⟨_, rangeAt_of_hasLayoutData st v (hQd v hv)⟩⟩

theorem table_lookups_in_bounds_witness :
    (buildClouds allPresent duplicateRecords initialState =
        .ok (built allPresent duplicateRecords) ∧
      "A" ∈ (built allPresent duplicateRecords).roots) ∧
    (∀ v, reachable (built allPresent duplicateRecords).cloudMap ("A", 0) v →
      ∃ aps ranges, (built allPresent duplicateRecords).addrPtMap v.1 = some aps ∧
        (built allPresent duplicateRecords).rangeMap v.1 = some ranges ∧
        v.2 < aps.length ∧ v.2 < ranges.length) ∧
    ∀ fuel Q, preorder (built allPresent duplicateRecords).cloudMap fuel ("A", 0) = .ok Q →
      (∀ v ∈ Q, ∃ aps ranges, (built allPresent duplicateRecords).addrPtMap v.1 = some aps ∧
        (built allPresent duplicateRecords).rangeMap v.1 = some ranges ∧
        v.2 < aps.length ∧ v.2 < ranges.length ∧
        (∃ a, addrPtAt (built allPresent duplicateRecords).addrPtMap v = .ok a) ∧
        ∃ rg, rangeAt (built allPresent duplicateRecords).rangeMap v = .ok rg) ∧
      ∀ b, (∃ maps, fillInit (built allPresent duplicateRecords) b Q (fun _ => 0, fun _ => 0)
          = .ok maps) ∧
        ∀ e, fillVtablePart (built allPresent duplicateRecords) [] Q b = .error e →
          e = .outOfFuel :=
  ⟨⟨rfl, by decide⟩,
    table_lookups_in_bounds allPresent duplicateRecords (built allPresent duplicateRecords)
      rfl "A" (by decide)⟩

/-! ## The layout entries after interleaveClouds -/

theorem interleaveRoot_full (st : SDModule) (fuel : Nat) (r : vtbl_name_t) (P : order_t)
    (hroot : r ∈ st.roots) (hpre : preorder st.cloudMap fuel (r, 0) = .ok P) (hnd : P.Nodup)
    (hd : ∀ v ∈ P, hasLayoutData st v) (hb : ∀ v ∈ P, fitsInt64 st v)
    (hsize : ∀ c, (c, 0) ∈ P → st.cloudSizeMap c = none) :
    ∃ st', interleaveRoot st fuel r = .ok st' ∧
      st'.cloudMap = st.cloudMap ∧ st'.roots = st.roots ∧ st'.addrPtMap = st.addrPtMap ∧
      st'.rangeMap = st.rangeMap ∧
      (∀ c, (c, 0) ∉ P → st'.cloudSizeMap c = st.cloudSizeMap c) ∧
      (∀ v, st'.newLayoutInds v =
        if positionsOf v (mergedRef st P) 0 = [] then st.newLayoutInds v
        else some ((st.newLayoutInds v).getD [] ++ positionsOf v (mergedRef st P) 0)) := by
  obtain ⟨csm, hc, hcout, -⟩ :=
    calculateChildrenCounts_spec st.cloudMap fuel (r, 0) P st.cloudSizeMap hpre hnd hsize
  refine ⟨{ st with
      interleavingMap := mapSet st.interleavingMap r (mergedRef st P)
      ancestorMap := (layoutIndsLoop r (mergedRef st P) 0 (st.ancestorMap, st.newLayoutInds)).1
      newLayoutInds := (layoutIndsLoop r (mergedRef st P) 0 (st.ancestorMap, st.newLayoutInds)).2
      cloudSizeMap := csm }, ?_, rfl, rfl, rfl, rfl, hcout, ?_⟩
  · simp only [interleaveRoot, interleaveCloud_eq st fuel r P hroot hpre hnd hd hb, bind,
      Except.bind, calculateNewLayoutInds, mapSet, if_true, hc, pure, Except.pure]
  · intro v
    exact layoutIndsLoop_snd r v (mergedRef st P) 0 st.ancestorMap st.newLayoutInds

theorem slotCount_congr (st st' : SDModule) (h1 : st'.addrPtMap = st.addrPtMap)
    (h2 : st'.rangeMap = st.rangeMap) (b : Bool) (v : vtbl_t) :
    slotCount st' b v = slotCount st b v := by
  unfold slotCount
  rw [addressPoint_congr st st' h1, rangeStart_congr st st' h2, rangeEnd_congr st st' h2]

theorem positionsOf_mergedRef_nil (st : SDModule) (P : order_t) (v : vtbl_t) (hv : v ∉ P) :
    positionsOf v (mergedRef st P) 0 = [] := by
  apply List.length_eq_zero.1
  rw [length_positionsOf, slotsOf_mergedRef_of_not_mem st P v hv]
  rfl

theorem positionsOf_mergedRef_ne_nil (st : SDModule) (P : order_t) (hnd : P.Nodup) (v : vtbl_t)
    (hv : v ∈ P) (hpos : 0 < slotCount st false v + slotCount st true v) :
    positionsOf v (mergedRef st P) 0 ≠ [] := by
  intro h
  have := length_positionsOf v (mergedRef st P) 0
  rw [h, slotsOf_mergedRef st P hnd v hv, List.length_range'] at this
  simp only [List.length_nil] at this
  omega

theorem interleaveRoots_layout (st0 : SDModule) (fuel : Nat)
    (htree : ∀ r ∈ st0.roots, ∃ Q, preorder st0.cloudMap fuel (r, 0) = .ok Q ∧ Q.Nodup ∧
      (∀ v ∈ Q, hasLayoutData st0 v) ∧ (∀ v ∈ Q, fitsInt64 st0 v) ∧
      ∀ x, x ∈ Q ↔ reachable st0.cloudMap (r, 0) x)
    (huniq : ∀ x r1 r2, r1 ∈ st0.roots → r2 ∈ st0.roots →
      reachable st0.cloudMap (r1, 0) x → reachable st0.cloudMap (r2, 0) x → r1 = r2) :
    ∀ (rs : List vtbl_name_t), rs.Nodup → (∀ r ∈ rs, r ∈ st0.roots) →
      ∀ s : SDModule, s.cloudMap = st0.cloudMap → s.roots = st0.roots →
        s.addrPtMap = st0.addrPtMap → s.rangeMap = st0.rangeMap →
        (∀ r ∈ rs, ∀ c, reachable st0.cloudMap (r, 0) (c, 0) → s.cloudSizeMap c = none) →
        ∃ s', rs.foldlM (fun t vtbl => interleaveRoot t fuel vtbl) s = .ok s' ∧
          s'.cloudMap = st0.cloudMap ∧ s'.addrPtMap = st0.addrPtMap ∧
          s'.rangeMap = st0.rangeMap ∧
          (∀ v, (∀ r ∈ rs, ¬ reachable st0.cloudMap (r, 0) v) →
            s'.newLayoutInds v = s.newLayoutInds v) ∧
          (∀ v, s.newLayoutInds v ≠ none → s'.newLayoutInds v ≠ none) ∧
          (∀ r ∈ rs, ∀ v, reachable st0.cloudMap (r, 0) v →
            0 < slotCount st0 false v + slotCount st0 true v → s'.newLayoutInds v ≠ none) := by
  intro rs
  induction rs with
  | nil =>
    intro _ _ s hcm _ hap hrm _
    exact ⟨s, rfl, hcm, hap, hrm, fun _ _ => rfl, fun _ h => h, fun r hr => by cases hr⟩
  | cons r rest ih =>
    intro hnd hsub s hcm hroots hap hrm hfresh
    have hr0 : r ∈ st0.roots := hsub r (List.mem_cons_self _ _)
    obtain ⟨Q, hQ, hQnd, hQd, hQb, hQr⟩ := htree r hr0
    obtain ⟨s1, hrun, h1cm, h1roots, h1ap, h1rm, h1out, h1new⟩ :=
      interleaveRoot_full s fuel r Q (by rw [hroots]; exact hr0) (by rw [hcm]; exact hQ) hQnd
        (fun v hv => hasLayoutData_congr st0 s hap hrm v (hQd v hv))
        (fun v hv => fitsInt64_congr st0 s hap hrm v (hQb v hv))
        (fun c hc => hfresh r (List.mem_cons_self _ _) c ((hQr _).1 hc))
    have hnotin : ∀ r' ∈ rest, ∀ c, reachable st0.cloudMap (r', 0) (c, 0) → (c, 0) ∉ Q := by
      intro r' hr' c hreach hc
      have := huniq (c, 0) r r' hr0 (hsub r' (List.mem_cons_of_mem _ hr')) ((hQr _).1 hc) hreach
      subst this
      exact (List.nodup_cons.1 hnd).1 hr'
    obtain ⟨s2, hfold, h2cm, h2ap, h2rm, h2out, h2mono, h2in⟩ := ih (List.nodup_cons.1 hnd).2
      (fun r' hr' => hsub r' (List.mem_cons_of_mem _ hr')) s1 (h1cm.trans hcm)
      (h1roots.trans hroots) (h1ap.trans hap) (h1rm.trans hrm)
      (fun r' hr' c hreach => by
        rw [h1out c (hnotin r' hr' c hreach)]
        exact hfresh r' (List.mem_cons_of_mem _ hr') c hreach)
    have hstep : ∀ v, s.newLayoutInds v ≠ none → s1.newLayoutInds v ≠ none := by
      intro v hv
      rw [h1new v]
      split
      · exact hv
      · exact Option.some_ne_none _
    refine ⟨s2, ?_, h2cm, h2ap, h2rm, ?_, fun v hv => h2mono v (hstep v hv), ?_⟩
    · rw [List.foldlM_cons]
      simp only [bind, Except.bind, hrun]
      exact hfold
    · intro v hv
      rw [h2out v (fun r' hr' => hv r' (List.mem_cons_of_mem _ hr')), h1new v,
        if_pos (positionsOf_mergedRef_nil s Q v
          (fun hvQ => hv r (List.mem_cons_self _ _) ((hQr v).1 hvQ)))]
    · intro r' hr' v hreach hpos
      rcases List.mem_cons.1 hr' with rfl | hr'
      · apply h2mono
        rw [h1new v, if_neg (positionsOf_mergedRef_ne_nil s Q hQnd v ((hQr v).2 hreach)
          (by rw [slotCount_congr st0 s hap hrm, slotCount_congr st0 s hap hrm]; exact hpos))]
        exact Option.some_ne_none _
      · exact h2in r' hr' v hreach hpos

theorem built_parents (globals : vtbl_name_t → Option Unit) (records : List nmd_t)
    (st : SDModule) (hdistinct : distinctNames records)
    (hbuild : buildClouds globals records initialState = .ok st) :
    (∀ x p q, isChild st.cloudMap p x → isChild st.cloudMap q x → p = q) ∧
    (∀ r ∈ st.roots, ∀ p, ¬ isChild st.cloudMap p (r, 0)) := by
  obtain ⟨t1, t2, -⟩ := buildClouds_initial globals records st hbuild
  constructor
  · intro x p q hp hq
    obtain ⟨i1, hm1, p1, hd1, -, hq1, hc1⟩ := (t1 p x).1 hp
    obtain ⟨i2, hm2, p2, hd2, -, hq2, hc2⟩ := (t1 q x).1 hq
    have := record_unique records hdistinct i1 i2 hm1 hm2 (hc1.symm.trans hc2)
    subst this
    rw [hd1] at hd2
    have := Option.some.inj hd2
    subst this
    rw [hq1, hq2]
  · intro r hr p hp
    obtain ⟨i1, hm1, hc1, hd1⟩ := (t2 r).1 hr
    obtain ⟨i2, hm2, p2, hd2, hne, -, hc2⟩ := (t1 p (r, 0)).1 hp
    have := record_unique records hdistinct i1 i2 hm1 hm2 (hc1.trans hc2)
    subst this
    rw [hd1] at hd2
    exact hne (Option.some.inj hd2).symm

theorem built_slots_pos (globals : vtbl_name_t → Option Unit) (records : List nmd_t)
    (st : SDModule) (hdistinct : distinctNames records)
    (hwf : ∀ info ∈ records, ∀ sub ∈ info.subVTables, sub.start ≤ sub.end_)
    (hbuild : buildClouds globals records initialState = .ok st) :
    ∀ w ∈ declaredNodes records, 0 < slotCount st false w + slotCount st true w := by
  obtain ⟨-, -, -, t4, -⟩ := buildClouds_initial globals records st hbuild
  intro w hw
  obtain ⟨info, hmem, hc, hlt⟩ := (mem_declaredNodes records w).1 hw
  have h4 := t4 info.className
  rw [flatMap_of_distinct (fun i : nmd_t => i.className) _ records info hdistinct hmem] at h4
  have hrange : ((st.rangeMap w.1).getD []).getD w.2 (0, 0) =
      ((info.subVTables[w.2]).start, (info.subVTables[w.2]).end_) := by
    rw [hc, h4, List.getD_eq_getElem?_getD, List.getElem?_map, List.getElem?_eq_getElem hlt]
    rfl
  have hle := hwf info hmem _ (List.getElem_mem hlt)
  have hs : rangeStart st w = (info.subVTables[w.2]).start := by
    unfold rangeStart
    rw [hrange]
  have he : rangeEnd st w = (info.subVTables[w.2]).end_ := by
    unfold rangeEnd
    rw [hrange]
  simp only [slotCount, Bool.false_eq_true, if_false, if_true, hs, he]
  omega

theorem built_fits (globals : vtbl_name_t → Option Unit) (records : List nmd_t)
    (st : SDModule) (hdistinct : distinctNames records)
    (hbound : ∀ info ∈ records, ∀ sub ∈ info.subVTables,
      sub.addressPoint < 2 ^ 63 ∧ sub.start < 2 ^ 63 ∧ sub.end_ + 1 < 2 ^ 63)
    (hbuild : buildClouds globals records initialState = .ok st) :
    ∀ w ∈ declaredNodes records, fitsInt64 st w := by
  obtain ⟨-, -, t3, t4, -⟩ := buildClouds_initial globals records st hbuild
  intro w hw
  obtain ⟨info, hmem, hc, hlt⟩ := (mem_declaredNodes records w).1 hw
  have h3 := t3 info.className
  have h4 := t4 info.className
  rw [flatMap_of_distinct (fun i : nmd_t => i.className) _ records info hdistinct hmem] at h3 h4
  have hap : addressPoint st w = (info.subVTables[w.2]).addressPoint := by
    unfold addressPoint
    rw [hc, h3, List.getD_eq_getElem?_getD, List.getElem?_map, List.getElem?_eq_getElem hlt]
    rfl
  have hrange : ((st.rangeMap w.1).getD []).getD w.2 (0, 0) =
      ((info.subVTables[w.2]).start, (info.subVTables[w.2]).end_) := by
    rw [hc, h4, List.getD_eq_getElem?_getD, List.getElem?_map, List.getElem?_eq_getElem hlt]
    rfl
  have hs : rangeStart st w = (info.subVTables[w.2]).start := by
    unfold rangeStart
    rw [hrange]
  have he : rangeEnd st w = (info.subVTables[w.2]).end_ := by
    unfold rangeEnd
    rw [hrange]
  unfold fitsInt64
  rw [hap, hs, he]
  exact hbound info hmem _ (List.getElem_mem hlt)

/-! ## The child-substitution path of oldIndexToNew (C31) -/

/-- C31, as stated, fails when the end of a range is not an `int64_t` value. In
the unit of `wideRootRecords` the root `R` has range `[0, 2^63]` and address
point 0, and two children `D` and `E` of range `[0,2]` and address point 1;
class names are distinct and `start ≤ end` everywhere. The range end of `R` is
held as the `int64_t` value `-2^63`, so `R` contributes no element and gets no
layout entry, while its children do; `oldIndexToNew(R, 1, true)` substitutes
the child `D` and returns 2, a translation of the offset 1. -/
theorem substitution_never_translates_counterexample :
    distinctNames wideRootRecords ∧
    (∀ info ∈ wideRootRecords, ∀ sub ∈ info.subVTables, sub.start ≤ sub.end_) ∧
    (runOnModule allPresent wideRootRecords 3).map (fun s => s.interleavingMap "R")
      = .ok (some [(("D", 0), 0), (("E", 0), 0), (("D", 0), 1), (("E", 0), 1), (("D", 0), 2),
          (("E", 0), 2)]) ∧
    (runOnModule allPresent wideRootRecords 3).map
        (fun s => (s.newLayoutInds ("R", 0), s.cloudMap ("R", 0), oldIndexToNew s "R" 1 true))
      = .ok (none, some [("D", 0), ("E", 0)], .ok 2) := by
  exact ⟨by decide, by decide, by decide, by decide⟩

/-- C31, amended: the child-substitution path of `oldIndexToNew` never produces
a translation on a well-formed unit below the `int64_t` bounds. For records
with pairwise distinct class names and, in every subvtable, `start ≤ end`,
address point below `2^63` and range end below `2^63 - 1`, built on a fresh
`SDModule`, `interleaveClouds` returns (with any fuel of at least the number of declared
subvtables), and in the state it leaves, for every class `c` whose `(c,0)` has
no layout entry and for every offset and mode, `oldIndexToNew(c, offset,
isRelative)` returns `offset` unchanged when `isRelative` holds, `offset ≥ 0`
and `(c,0)` is not a key of the cloud map, and stops on an assertion in every
other case: the child that it substitutes has no layout entry either. -/
theorem substitution_never_translates (globals : vtbl_name_t → Option Unit)
    (records : List nmd_t) (st : SDModule) (hdistinct : distinctNames records)
    (hwf : ∀ info ∈ records, ∀ sub ∈ info.subVTables, sub.start ≤ sub.end_)
    (hbound : ∀ info ∈ records, ∀ sub ∈ info.subVTables,
      sub.addressPoint < 2 ^ 63 ∧ sub.end_ + 1 < 2 ^ 63)
    (hbuild : buildClouds globals records initialState = .ok st)
    (fuel : Nat) (hfuel : (declaredNodes records).length ≤ fuel) :
    ∃ st', interleaveClouds st fuel = .ok st' ∧
      ∀ c, st'.newLayoutInds (c, 0) = none →
        (∀ child, child ∈ (st'.cloudMap (c, 0)).getD [] → st'.newLayoutInds child = none) ∧
        ∀ (offset : Int) (isRelative : Bool),
          oldIndexToNew st' c offset isRelative =
            if isRelative = true ∧ offset ≥ 0 ∧ st'.cloudMap (c, 0) = none then .ok offset
            else .error .assertion := by
  obtain ⟨hforest, huniq⟩ := built_forest globals records st hdistinct hbuild
  obtain ⟨hparent, hroot⟩ := built_parents globals records st hdistinct hbuild
  obtain ⟨hsorted, -⟩ := buildClouds_roots_sorted globals records st hbuild
  obtain ⟨-, -, -, -, -, hnli, hcsm, -⟩ := buildClouds_initial globals records st hbuild
  have hslots := built_slots_pos globals records st hdistinct hwf hbuild
  have hfits := built_fits globals records st hdistinct
    (fun info hi sub hs => ⟨(hbound info hi sub hs).1,
      by have := hwf info hi sub hs; have := (hbound info hi sub hs).2; omega,
      (hbound info hi sub hs).2⟩) hbuild
  obtain ⟨s', hrun, hcm, -, -, hout, -, hin⟩ := interleaveRoots_layout st fuel
    (fun r hr => by
      obtain ⟨Q, hQ, hnd, hd, hreach⟩ := hforest r hr
      exact ⟨Q, hQ fuel hfuel, hnd, hd,
        fun v hv => hfits v (reachable_declared globals records st hbuild r hr v ((hreach v).1 hv)),
        hreach⟩)
    huniq st.roots (nodup_of_pairwise_name_lt _ hsorted) (fun r hr => hr) st rfl rfl rfl rfl
    (fun r _ c _ => by rw [hcsm])
  refine ⟨s', hrun, ?_⟩
  intro c hnone
  have hunreach : ∀ r ∈ st.roots, ¬ reachable st.cloudMap (r, 0) (c, 0) := by
    intro r hr hreach
    exact hin r hr (c, 0) hreach
      (hslots _ (reachable_declared globals records st hbuild r hr _ hreach)) hnone
  have hchild : ∀ child, child ∈ (s'.cloudMap (c, 0)).getD [] →
      s'.newLayoutInds child = none := by
    intro child hch
    rw [hcm] at hch
    rw [hout child ?_, hnli]
    intro r hr hreach
    rcases Relation.ReflTransGen.cases_tail hreach with h | ⟨y, hy, hstep⟩
    · rw [h] at hch
      exact hroot r hr (c, 0) hch
    · have := hparent child y (c, 0) hstep hch
      subst this
      exact hunreach r hr hy
  refine ⟨hchild, ?_⟩
  intro offset isRelative
  unfold oldIndexToNew
  rw [hnone]
  simp only
  by_cases hcond : isRelative = true ∧ offset ≥ 0
  · rw [if_pos hcond]
    cases hc : s'.cloudMap (c, 0) with
    | none =>
      simp only
      rw [if_pos ⟨hcond.1, hcond.2, trivial⟩]
    | some children =>
      rw [if_neg (fun h => by simp at h)]
      cases children with
      | nil => rfl
      | cons child rest =>
        simp only
        have := hchild child (by rw [hc]; exact List.mem_cons_self _ _)
        unfold oldIndexToNew2
        rw [this]
  · rw [if_neg hcond, if_neg (fun h => hcond ⟨h.1, h.2.1⟩)]

theorem substitution_never_translates_witness :
    (distinctNames orphanRecords ∧
      (∀ info ∈ orphanRecords, ∀ sub ∈ info.subVTables, sub.start ≤ sub.end_) ∧
      (∀ info ∈ orphanRecords, ∀ sub ∈ info.subVTables,
        sub.addressPoint < 2 ^ 63 ∧ sub.end_ + 1 < 2 ^ 63) ∧
      buildClouds allPresent orphanRecords initialState = .ok (built allPresent orphanRecords) ∧
      (declaredNodes orphanRecords).length ≤ 2) ∧
    ∃ st', interleaveClouds (built allPresent orphanRecords) 2 = .ok st' ∧
      ∀ c, st'.newLayoutInds (c, 0) = none →
        (∀ child, child ∈ (st'.cloudMap (c, 0)).getD [] → st'.newLayoutInds child = none) ∧
        ∀ (offset : Int) (isRelative : Bool),
          oldIndexToNew st' c offset isRelative =
            if isRelative = true ∧ offset ≥ 0 ∧ st'.cloudMap (c, 0) = none then .ok offset
            else .error .assertion :=
  ⟨⟨by decide, by decide, by decide, rfl, by decide⟩,
    substitution_never_translates allPresent orphanRecords (built allPresent orphanRecords)
      (by decide) (by decide) (by decide) rfl 2 (by decide)⟩

theorem substitution_examples :
    (analysed allPresent orphanRecords 2).newLayoutInds ("X", 0) = none ∧
    (analysed allPresent orphanRecords 2).cloudMap ("X", 0) = some [("C", 0)] ∧
    oldIndexToNew (analysed allPresent orphanRecords 2) "X" 0 true = .error .assertion ∧
    (analysed allPresent scenarioARecords 2).newLayoutInds ("X", 0) = none ∧
    (analysed allPresent scenarioARecords 2).cloudMap ("X", 0) = none ∧
    oldIndexToNew (analysed allPresent scenarioARecords 2) "X" 5 true = .ok 5 ∧
    oldIndexToNew (analysed allPresent scenarioARecords 2) "X" (-1) true = .error .assertion := by
  decide

end SafeDispatch
